import Mathlib

/-!
# RepRapFirmware object model: lookup, tolerant JSON reporting, strict evaluation

A shallow embedding of `src/ObjectModel/ObjectModel.cpp`, and of
`BinaryParser::GetArray` of `src/GCodes/GCodeBuffer/BinaryParser.cpp`.

* A `const char*` is a `List Char`: the characters the pointer can still read.
  Dereferencing reads the head (`peek`), and reads NUL at the end of the list;
  `++p` is `List.tail`.  `char` is unsigned on the ARM targets of the firmware,
  so characters compare by their code.
* Pointers to objects and to array descriptors are numbers resolved in an
  environment `Env`, so object graphs may be cyclic, as they may in C++.
* What the `.cpp` file uses but does not define (constants of `ObjectModel.h`,
  `SafeStrtol`, `printf` of a float, `OutputBuffer` encoders, `gmtime_r`) are
  fields of `Env`.
* The accessor functions of the schema (`func`, `GetNumElements`, `GetElement`)
  are defined by the subsystems, outside this file.  They are pure functions of
  the owning object and of what the read interface of the context shows them
  (`ContextView`): the counted indices and the flags.
* `OutputBuffer` is taken as unbounded and is only appended to.  The read locks
  taken around array accesses are not part of the model: it describes one
  request running alone.
* The array that `GetArray` fills is a function from slot numbers to elements;
  that the caller's array is long enough is left to the caller.
-/

namespace RRF

/-! ## C strings -/

/-- The NUL character that ends every C string. -/
def NUL : Char := Char.ofNat 0

/-- The double quote character. -/
def DQUOTE : Char := Char.ofNat 34

/-- The opening brace character. -/
def LBRACE : Char := Char.ofNat 123

/-- The closing brace character. -/
def RBRACE : Char := Char.ofNat 125

/-- Dereference `*p`: the first character, or NUL at the end of the string. -/
def peek : List Char → Char
  | [] => NUL
  | c :: _ => c

/-- The characters of a C string up to its terminator: what `cat(const char*)` copies. -/
def cstr : List Char → List Char
  | [] => []
  | c :: s => if c = NUL then [] else c :: cstr s

/-- A list that holds no NUL: the content of a well-formed C string. -/
def NoNul (s : List Char) : Prop := ∀ c ∈ s, c ≠ NUL

/-- The characters that end a path segment besides end-of-string. -/
def isTerminator (c : Char) : Bool := c == '.' || c == '[' || c == '^'

/-! ## Exploration context -/

/-- The exceptions the object model code throws. -/
inductive Exception where
  | GCodeException (line column : Int) (msg : String)
  | InternalError
  | ParseException (msg : String) (arg : List Char)
  deriving DecidableEq, Repr

/-- Fields of `ObjectExplorationContext`.  `indices` is the fixed array
`int32_t indices[MaxIndices]`, read and written by slot number. -/
structure ObjectExplorationContext where
  indices : Nat → Int
  numIndicesProvided : Nat
  numIndicesCounted : Nat
  shortForm : Bool
  onlyLive : Bool
  includeVerbose : Bool
  wantArrayLength : Bool

/-- What the read-only interface of the context shows to an accessor function:
the counted indices, innermost first (`GetIndex n` is entry `n`, `GetLastIndex`
is the head), and the report flags. -/
structure ContextView where
  indices : List Int
  shortForm : Bool
  onlyLive : Bool
  includeVerbose : Bool
  wantArrayLength : Bool
  deriving DecidableEq, Repr

/-- The read-only view of a context. -/
def ObjectExplorationContext.view (c : ObjectExplorationContext) : ContextView :=
  { indices := ((List.range c.numIndicesCounted).map c.indices).reverse
    shortForm := c.shortForm
    onlyLive := c.onlyLive
    includeVerbose := c.includeVerbose
    wantArrayLength := c.wantArrayLength }

/-- `AddIndex(int32_t index)`, lines 17-25. -/
def ObjectExplorationContext.AddIndex (MaxIndices : Nat) (c : ObjectExplorationContext)
    (index : Int) : Except Exception ObjectExplorationContext :=
  if c.numIndicesCounted = MaxIndices then
    .error (.GCodeException (-1) (-1) "Too many indices")
  else
    .ok { c with indices := Function.update c.indices c.numIndicesCounted index
                 numIndicesCounted := c.numIndicesCounted + 1 }

/-- `AddIndex()`, lines 27-34: step over an index that was provided. -/
def ObjectExplorationContext.AddProvidedIndex (c : ObjectExplorationContext) :
    Except Exception ObjectExplorationContext :=
  if c.numIndicesCounted = c.numIndicesProvided then
    .error .InternalError
  else
    .ok { c with numIndicesCounted := c.numIndicesCounted + 1 }

/-- `RemoveIndex()`, lines 36-43. -/
def ObjectExplorationContext.RemoveIndex (c : ObjectExplorationContext) :
    Except Exception ObjectExplorationContext :=
  if c.numIndicesCounted = 0 then
    .error .InternalError
  else
    .ok { c with numIndicesCounted := c.numIndicesCounted - 1 }

/-- `ProvideIndex(int32_t index)`, lines 45-53. -/
def ObjectExplorationContext.ProvideIndex (MaxIndices : Nat) (c : ObjectExplorationContext)
    (index : Int) : Except Exception ObjectExplorationContext :=
  if c.numIndicesProvided = MaxIndices then
    .error (.GCodeException (-1) (-1) "Too many indices")
  else
    .ok { c with indices := Function.update c.indices c.numIndicesProvided index
                 numIndicesProvided := c.numIndicesProvided + 1 }

/-- The flag-letter loop of the constructor, lines 65-84. -/
def ObjectExplorationContext.parseFlags :
    List Char → ObjectExplorationContext → ObjectExplorationContext
  | [], c => c
  | ch :: rest, c =>
    if ch = NUL then c
    else if ch = 'v' then parseFlags rest { c with includeVerbose := true }
    else if ch = 's' then parseFlags rest { c with shortForm := true }
    else if ch = 'f' then parseFlags rest { c with onlyLive := true }
    else parseFlags rest c

/-- The constructor, lines 62-85.  The array is not initialised by the
constructor; `garbage` is what its storage holds. -/
def ObjectExplorationContext.create (garbage : Nat → Int) (reportFlags : List Char)
    (wal : Bool) : ObjectExplorationContext :=
  ObjectExplorationContext.parseFlags reportFlags
    { indices := garbage, numIndicesProvided := 0, numIndicesCounted := 0,
      shortForm := false, onlyLive := false, includeVerbose := false, wantArrayLength := wal }

/-- `GetIndex(size_t n)`, lines 87-94. -/
def ObjectExplorationContext.GetIndex (c : ObjectExplorationContext) (n : Nat) :
    Except Exception Int :=
  if n < c.numIndicesCounted then .ok (c.indices (c.numIndicesCounted - n - 1))
  else .error .InternalError

/-- `GetLastIndex()`, lines 96-103. -/
def ObjectExplorationContext.GetLastIndex (c : ObjectExplorationContext) :
    Except Exception Int :=
  if c.numIndicesCounted ≠ 0 then .ok (c.indices (c.numIndicesCounted - 1))
  else .error .InternalError

/-! ## Values, tables and the environment -/

/-- Address of an `ObjectModel`. -/
abbrev ObjPtr := Nat

/-- Address of an `ObjectModelArrayDescriptor`. -/
abbrev ArrPtr := Nat

/-- The variants of `ExpressionValue` that `ReportItemAsJson` switches on.  A
float carries its bit pattern and its number of decimals; a date carries the
result of `Get40BitValue()`. -/
inductive ExpressionValue where
  | omadVal (omad : ArrPtr)
  | omVal (om : Option ObjPtr) (param : Nat)
  | fVal (bits : Nat) (param : Nat)
  | uVal (u : Nat)
  | iVal (i : Int)
  | sVal (s : List Char)
  | bitmap32 (u : Nat)
  | enum32 (u : Nat)
  | bVal (b : Bool)
  | cVal (c : Char)
  | ipAddress (u : Nat)
  | dateTime (seconds : Nat)
  | noType
  deriving DecidableEq, Repr

/-- One `ObjectModelTableEntry`: name, accessor function and flag byte. -/
structure ObjectModelTableEntry where
  name : List Char
  func : ObjPtr → ContextView → ExpressionValue
  flags : Nat

/-- One `ObjectModelArrayDescriptor`. -/
structure ObjectModelArrayDescriptor where
  lockPointer : Option Nat
  GetNumElements : ObjPtr → ContextView → Nat
  GetElement : ObjPtr → ContextView → ExpressionValue

/-- What the virtual `GetObjectModelTable(descriptor)` of an object yields: the
flat entry array and the descriptor bytes (`descriptor[0]` is the number of
tables, `descriptor[k+1]` the number of entries of table `k`). -/
structure ObjectModel where
  descriptor : List Nat
  tbl : List ObjectModelTableEntry

/-- Broken-down time as `gmtime_r` fills it (the fields the report prints). -/
structure Tm where
  tm_year : Nat
  tm_mon : Nat
  tm_mday : Nat
  tm_hour : Nat
  tm_min : Nat
  tm_sec : Nat

/-- Everything `ObjectModel.cpp` takes from elsewhere. -/
structure Env where
  /-- `ObjectExplorationContext::MaxIndices` -/
  MaxIndices : Nat
  /-- `(uint8_t)ObjectModelEntryFlags::live` -/
  live : Nat
  /-- `(uint8_t)ObjectModelEntryFlags::verbose` -/
  verbose : Nat
  /-- `SafeStrtol(s, &endptr)`: the value read and how many characters `endptr` is past `s`. -/
  SafeStrtol : List Char → Int × Nat
  /-- `catf("%.<d>f", (double)f)` for `d` decimals. -/
  formatFloat : Nat → Nat → List Char
  /-- `OutputBuffer::EncodeString(s, true)`: the text it appends. -/
  EncodeString : List Char → List Char
  /-- `OutputBuffer::EncodeChar(c)`: the text it appends. -/
  EncodeChar : Char → List Char
  /-- `IPAddress(u).GetQuad(q)` -/
  GetQuad : Nat → Nat → Nat
  /-- `gmtime_r` -/
  gmtime_r : Nat → Tm
  /-- The object at each address. -/
  objects : ObjPtr → ObjectModel
  /-- The array descriptor at each address. -/
  arrays : ArrPtr → ObjectModelArrayDescriptor

/-- `ShouldReport`, lines 105-109. -/
def ObjectExplorationContext.ShouldReport (env : Env) (c : ObjectExplorationContext)
    (f : Nat) : Bool :=
  (!c.onlyLive || (f &&& env.live) != 0) && (c.includeVerbose || (f &&& env.verbose) == 0)

/-! ## Identifier comparison and lookup -/

/-- The loop of `IdCompare`, lines 426-430: advance both pointers while the
characters agree and the name has not ended.  Returns the two pointers. -/
def IdCompare.loop (id : List Char) : List Char → List Char × List Char
  | [] => (id, [])
  | c :: n =>
    if peek id = c ∧ c ≠ NUL then IdCompare.loop id.tail n else (id, c :: n)

/-- `ObjectModelTableEntry::IdCompare`, lines 418-434. -/
def ObjectModelTableEntry.IdCompare (e : ObjectModelTableEntry) (id : List Char) : Int :=
  if peek id = NUL ∨ peek id = '*' then 0
  else
    let r := IdCompare.loop id e.name
    if peek r.2 = NUL ∧ (peek r.1 = NUL ∨ peek r.1 = '.' ∨ peek r.1 = '[' ∨ peek r.1 = '^') then 0
    else if peek r.1 > peek r.2 then 1
    else -1

/-- `ObjectModel::GetNextElement`, lines 386-393. -/
def GetNextElement : List Char → List Char
  | [] => []
  | c :: id =>
    if c ≠ NUL ∧ c ≠ '.' ∧ c ≠ '[' ∧ c ≠ '^' then GetNextElement id else c :: id

/-- The pointer adjustment loop, lines 359-363 (and 120-124): the sum of the
sizes of the tables below `tableNumber`. -/
def tableOffset (descriptor : List Nat) : Nat → Nat
  | 0 => 0
  | t + 1 => descriptor.getD (t + 1) 0 + tableOffset descriptor t

/-- The entries of one table: `numEntries` entries from the adjusted pointer on. -/
def ObjectModel.table (o : ObjectModel) (tableNumber : Nat) : List ObjectModelTableEntry :=
  (o.tbl.drop (tableOffset o.descriptor tableNumber)).take (o.descriptor.getD (tableNumber + 1) 0)

/-- The binary search loop, lines 365-382, on the comparison `cmp mid` of entry
`mid` with the identifier.  `inl mid` is the return from inside the loop, `inr low`
the exit of the loop.  Each turn shrinks `high - low`, so `fuel = high - low`
turns are enough (`searchLoop_fuel`). -/
def searchLoop (cmp : Nat → Int) : Nat → Nat → Nat → Nat ⊕ Nat
  | 0, low, _ => .inr low
  | fuel + 1, low, high =>
    if high > low then
      let mid := (high - low) / 2 + low
      let t := cmp mid
      if t = 0 then .inl mid
      else if t > 0 then searchLoop cmp fuel (mid + 1) high
      else searchLoop cmp fuel low mid
    else .inr low

/-- The comparison `tbl[i].IdCompare(idString)` made by the search, `tbl` being
the adjusted pointer `base` entries into the flat array.  An entry read outside
the array compares as smaller than anything. -/
def ObjectModel.compareAt (o : ObjectModel) (base : Nat) (idString : List Char) (i : Nat) : Int :=
  match o.tbl.get? (base + i) with
  | some e => e.IdCompare idString
  | none => -1

/-- `ObjectModel::FindObjectModelTableEntry`, lines 349-384.  The result is the
position in the flat entry array that the returned pointer addresses, `none`
for `nullptr`. -/
def ObjectModel.FindObjectModelTableEntry (o : ObjectModel) (tableNumber : Nat)
    (idString : List Char) : Option Nat :=
  if tableNumber ≥ o.descriptor.getD 0 0 then none
  else
    let numEntries := o.descriptor.getD (tableNumber + 1) 0
    let base := tableOffset o.descriptor tableNumber
    match searchLoop (o.compareAt base idString) numEntries 0 numEntries with
    | .inl mid => some (base + mid)
    | .inr low =>
      if low < numEntries ∧ o.compareAt base idString low = 0 then some (base + low) else none

/-! ## Tolerant reporting (`ReportAsJson`)

`OutputBuffer` is only appended to, so a reporting function is described by the
text it appends (`Outcome.out`).  The four functions call each other; every
cycle passes through `ReportItemAsJson`, which is therefore the one defined by
recursion, on a bound `fuel` of the nesting depth of its calls.  The other
three take the item reporter they call as an argument. -/

/-- How a call ended. -/
inductive Status where
  /-- normal return -/
  | done
  /-- an exception left the function -/
  | thrown (e : Exception)
  /-- an exception reached the boundary of a `noexcept` function: `std::terminate` -/
  | terminated
  /-- the bound on the nesting depth was reached (the recursion did not return) -/
  | outOfFuel
  deriving DecidableEq, Repr

/-- What becomes of a call's end at the boundary of a `noexcept` function. -/
def Status.noexcept : Status → Status
  | .thrown _ => .terminated
  | s => s

/-- Effect of a reporting call: the text appended to the buffer, the context as
the call left it, and how the call ended. -/
structure Outcome where
  out : List Char
  context : ObjectExplorationContext
  status : Status

/-- The shape of `ReportItemAsJson(buf, context, val, filter)` on object `this`. -/
abbrev ItemReporter :=
  ObjPtr → ObjectExplorationContext → ExpressionValue → List Char → Outcome

/-- Conversion of an integer to `int32_t`. -/
def toInt32 (n : Int) : Int := (n + 2147483648) % 4294967296 - 2147483648

/-- `catf("%u", n)`. -/
def formatUnsigned (n : Nat) : List Char := (Nat.repr n).toList

/-- `catf("%i", i)`. -/
def formatSigned : Int → List Char
  | .ofNat n => formatUnsigned n
  | .negSucc n => '-' :: formatUnsigned (n + 1)

/-- `catf("%0<w>u", n)`: at least `w` digits, padded with zeros. -/
def formatPadded (w n : Nat) : List Char :=
  List.replicate (w - (formatUnsigned n).length) '0' ++ formatUnsigned n

/-- `(v & 1) ? '1' : '0'`. -/
def bitChar (v : Nat) : Char := if v &&& 1 ≠ 0 then '1' else '0'

/-- The loop of the long bitmap form, lines 259-264, with `k` turns left. -/
def bitmapLoop : Nat → Nat → List Char
  | 0, _ => []
  | k + 1, v => ',' :: bitChar (v >>> 1) :: bitmapLoop k (v >>> 1)

/-- The long bitmap form, lines 256-265. -/
def formatBitmap (v : Nat) : List Char :=
  '[' :: bitChar v :: (bitmapLoop 31 v ++ [']'])

/-- The loop over the four quads of an address, lines 295-299, from quad `q`
with `k` turns left. -/
def quadLoop (GetQuad : Nat → Nat) : Nat → Nat → Char → List Char
  | 0, _, _ => []
  | k + 1, q, sep => sep :: (formatUnsigned (GetQuad q) ++ quadLoop GetQuad k (q + 1) '.')

/-- The date text, lines 315-316. -/
def formatDateTime (t : Tm) : List Char :=
  DQUOTE :: (formatPadded 4 (t.tm_year + 1900) ++ '-' :: (formatPadded 2 (t.tm_mon + 1)
    ++ '-' :: (formatPadded 2 t.tm_mday ++ 'T' :: (formatPadded 2 t.tm_hour
    ++ ':' :: (formatPadded 2 t.tm_min ++ ':' :: (formatPadded 2 t.tm_sec ++ [DQUOTE]))))))

/-- The text `null`. -/
def nullText : List Char := ['n', 'u', 'l', 'l']

/-- `ObjectModelTableEntry::Matches`, lines 395-398. -/
def ObjectModelTableEntry.Matches (env : Env) (e : ObjectModelTableEntry)
    (filterString : List Char) (context : ObjectExplorationContext) : Bool :=
  e.IdCompare filterString = 0 && context.ShouldReport env e.flags

/-- `ObjectModelTableEntry::ReportAsJson`, lines 401-415.  The function is
`noexcept`: an exception that leaves the item reporter ends the program. -/
def ObjectModelTableEntry.ReportAsJson (item : ItemReporter) (e : ObjectModelTableEntry)
    (context : ObjectExplorationContext) (self : ObjPtr) (filter : List Char) : Outcome :=
  let head := if peek filter = NUL then DQUOTE :: (cstr e.name ++ [DQUOTE, ':']) else []
  let nextElement := GetNextElement filter
  let nextElement := if peek nextElement = '.' then nextElement.tail else nextElement
  let r := item self context (e.func self context.view) nextElement
  { out := head ++ r.out
    context := r.context
    status := r.status.noexcept }

/-- The loop over the entries of the selected table, lines 126-146.  The state
is the flag `added`, the text appended so far and the context. -/
def ObjectModel.ReportAsJson.loop (item : ItemReporter) (env : Env) (this : ObjPtr)
    (filter : List Char) :
    List ObjectModelTableEntry → Bool → List Char → ObjectExplorationContext → Bool × Outcome
  | [], added, out, context => (added, { out := out, context := context, status := .done })
  | e :: rest, added, out, context =>
    if e.Matches env filter context then
      let out1 :=
        if added then out ++ [',']
        else if peek filter = NUL then out ++ [LBRACE] else out
      let r := e.ReportAsJson item context this filter
      match r.status with
      | .done => ObjectModel.ReportAsJson.loop item env this filter rest true (out1 ++ r.out) r.context
      | s => (true, { out := out1 ++ r.out, context := r.context, status := s })
    else ObjectModel.ReportAsJson.loop item env this filter rest added out context

/-- `ObjectModel::ReportAsJson(buf, context, tableNumber, filter)`, lines 112-156,
on the object at address `this`. -/
def ObjectModel.ReportAsJson (item : ItemReporter) (env : Env) (this : ObjPtr)
    (context : ObjectExplorationContext) (tableNumber : Nat) (filter : List Char) : Outcome :=
  let o := env.objects this
  if tableNumber < o.descriptor.getD 0 0 then
    let r := ObjectModel.ReportAsJson.loop item env this filter (o.table tableNumber) false []
      context
    match r.2.status with
    | .done =>
      let out := if r.1 ∧ peek filter = NUL then r.2.out ++ [RBRACE] else r.2.out
      { out := if r.1 then out else out ++ nullText, context := r.2.context, status := .done }
    | _ => r.2
  else { out := nullText, context := context, status := .done }

/-- The loop of `ReportArrayAsJson`, lines 335-344, at element `i` with `k`
elements left. -/
def ObjectModel.ReportArrayAsJson.loop (item : ItemReporter) (env : Env) (this : ObjPtr)
    (omad : ObjectModelArrayDescriptor) (filter : List Char) :
    Nat → Nat → List Char → ObjectExplorationContext → Outcome
  | 0, _, out, context => { out := out, context := context, status := .done }
  | k + 1, i, out, context =>
    let out1 := if i ≠ 0 then out ++ [','] else out
    match context.AddIndex env.MaxIndices (toInt32 i) with
    | .error ex => { out := out1, context := context, status := .thrown ex }
    | .ok c1 =>
      let r := item this c1 (omad.GetElement this c1.view) filter
      match r.status with
      | .done =>
        match r.context.RemoveIndex with
        | .error ex => { out := out1 ++ r.out, context := r.context, status := .thrown ex }
        | .ok c2 =>
          ObjectModel.ReportArrayAsJson.loop item env this omad filter k (i + 1) (out1 ++ r.out) c2
      | s => { out := out1 ++ r.out, context := r.context, status := s }

/-- `ObjectModel::ReportArrayAsJson`, lines 329-346. -/
def ObjectModel.ReportArrayAsJson (item : ItemReporter) (env : Env) (this : ObjPtr)
    (context : ObjectExplorationContext) (omad : ObjectModelArrayDescriptor)
    (filter : List Char) : Outcome :=
  let count := omad.GetNumElements this context.view
  let r := ObjectModel.ReportArrayAsJson.loop item env this omad filter count 0 ['['] context
  match r.status with
  | .done => { r with out := r.out ++ [']'] }
  | _ => r

/-- Lines 200-213 of `ReportItemAsJson`: report the element `index` of an array
under the filter `rest` that follows the closing bracket.  `bracket` is the
test `*filter == 0` made on lines 200 and 210. -/
def ObjectModel.ReportItemAsJson.element (item : ItemReporter) (env : Env) (this : ObjPtr)
    (context : ObjectExplorationContext) (omad : ObjectModelArrayDescriptor) (index : Int)
    (bracket : Bool) (rest : List Char) : Outcome :=
  let out1 := if bracket then ['['] else []
  match context.AddIndex env.MaxIndices index with
  | .error ex => { out := out1, context := context, status := .thrown ex }
  | .ok c1 =>
    let r := item this c1 (omad.GetElement this c1.view) rest
    match r.status with
    | .done =>
      match r.context.RemoveIndex with
      | .error ex => { out := out1 ++ r.out, context := r.context, status := .thrown ex }
      | .ok c2 =>
        { out := if bracket then out1 ++ r.out ++ [']'] else out1 ++ r.out
          context := c2, status := .done }
    | s => { out := out1 ++ r.out, context := r.context, status := s }

/-- `ObjectModel::ReportItemAsJson`, lines 166-326, on the object at address
`this`.  `fuel` bounds the nesting depth of the calls.  The `long` that
`SafeStrtol` returns has the width of `int32_t` on the targets of the firmware,
so it is passed to `AddIndex` as it is. -/
def ObjectModel.ReportItemAsJson (env : Env) : Nat → ItemReporter
  | 0 => fun _ context _ _ => { out := [], context := context, status := .outOfFuel }
  | fuel + 1 => fun this context val filter =>
    if context.wantArrayLength ∧ peek filter = NUL then
      match val with
      | .omadVal omad =>
        { out := formatUnsigned ((env.arrays omad).GetNumElements this context.view)
          context := context, status := .done }
      | _ => { out := nullText, context := context, status := .done }
    else
      match val with
      | .omadVal omad =>
        if peek filter = '[' then
          let filter := filter.tail
          if peek filter = ']' then
            ObjectModel.ReportArrayAsJson (ObjectModel.ReportItemAsJson env fuel) env this context
              (env.arrays omad) filter.tail
          else
            let parsed := env.SafeStrtol filter
            let index := parsed.1
            let endptr := filter.drop parsed.2
            if parsed.2 = 0 ∨ peek endptr ≠ ']' ∨ index < 0
                ∨ index.toNat ≥ (env.arrays omad).GetNumElements this context.view then
              { out := nullText, context := context, status := .done }
            else
              ObjectModel.ReportItemAsJson.element (ObjectModel.ReportItemAsJson env fuel) env
                this context (env.arrays omad) index (peek filter = NUL) endptr.tail
        else if peek filter = NUL then
          ObjectModel.ReportArrayAsJson (ObjectModel.ReportItemAsJson env fuel) env this context
            (env.arrays omad) filter
        else { out := [], context := context, status := .done }
      | .omVal om param =>
        match om with
        | some p =>
          let filter := if peek filter = '.' then filter.tail else filter
          ObjectModel.ReportAsJson (ObjectModel.ReportItemAsJson env fuel) env p context
            (param % 256) filter
        | none => { out := nullText, context := context, status := .done }
      | .fVal bits param =>
        { out := env.formatFloat (if param = 3 then 3 else if param = 2 then 2 else 1) bits
          context := context, status := .done }
      | .uVal u => { out := formatUnsigned u, context := context, status := .done }
      | .iVal i => { out := formatSigned i, context := context, status := .done }
      | .sVal s => { out := env.EncodeString s, context := context, status := .done }
      | .bitmap32 u =>
        { out := if context.shortForm then formatUnsigned u else formatBitmap u
          context := context, status := .done }
      | .enum32 u =>
        { out := if context.shortForm then formatUnsigned u
            else DQUOTE :: ("unimplemented".toList ++ [DQUOTE])
          context := context, status := .done }
      | .bVal b =>
        { out := if b then "true".toList else "false".toList
          context := context, status := .done }
      | .cVal c =>
        { out := DQUOTE :: (env.EncodeChar c ++ [DQUOTE]), context := context, status := .done }
      | .ipAddress u =>
        { out := quadLoop (env.GetQuad u) 4 0 DQUOTE ++ [DQUOTE]
          context := context, status := .done }
      | .dateTime time =>
        { out := if time = 0 then nullText else formatDateTime (env.gmtime_r time)
          context := context, status := .done }
      | .noType => { out := nullText, context := context, status := .done }

/-- Table-level `ReportAsJson` with the item reporter of nesting bound `fuel`. -/
def Env.ReportAsJson (env : Env) (fuel : Nat) (this : ObjPtr)
    (context : ObjectExplorationContext) (tableNumber : Nat) (filter : List Char) : Outcome :=
  ObjectModel.ReportAsJson (ObjectModel.ReportItemAsJson env fuel) env this context tableNumber
    filter

/-- The root `ObjectModel::ReportAsJson(buf, filter, reportFlags, wantArrayLength)`,
lines 159-163. -/
def Env.ReportRootAsJson (env : Env) (fuel : Nat) (this : ObjPtr) (garbage : Nat → Int)
    (filter reportFlags : List Char) (wantArrayLength : Bool) : Outcome :=
  env.ReportAsJson fuel this (ObjectExplorationContext.create garbage reportFlags wantArrayLength)
    0 filter

/-! ## Strict evaluation (`GetObjectValue`)

The two overloads of `GetObjectValue` call each other.  The one that takes a
value (lines 450-491) is defined by recursion on a bound `fuel` of the nesting
depth of its calls; the one that takes a table number (lines 437-448) takes the
other as an argument. -/

/-- How a strict evaluation ended. -/
inductive StrictResult where
  /-- normal return of a value -/
  | value (v : ExpressionValue)
  /-- an exception left the function -/
  | thrown (e : Exception)
  /-- a member call through a null object pointer: undefined behaviour -/
  | undefined
  /-- the bound on the nesting depth was reached (the recursion did not return) -/
  | outOfFuel
  deriving DecidableEq, Repr

/-- Effect of a strict evaluation: how it ended and the context as it left it. -/
structure StrictOutcome where
  result : StrictResult
  context : ObjectExplorationContext

/-- The shape of `GetObjectValue(sp, context, val, idString)` on object `this`. -/
abbrev ValueGetter :=
  ObjPtr → ObjectExplorationContext → ExpressionValue → List Char → StrictOutcome

/-- `sp.ConstructParseException(msg)`: the parse error with that message. -/
def parseError (msg : String) : Exception := .ParseException msg []

/-- `ObjectModel::GetObjectValue(sp, context, idString, tableNumber)`, lines
437-448, on the object at address `this`.  The entry is read at the position
that `FindObjectModelTableEntry` returned. -/
def ObjectModel.GetObjectValue (getter : ValueGetter) (env : Env) (this : ObjPtr)
    (context : ObjectExplorationContext) (idString : List Char) (tableNumber : Nat) :
    StrictOutcome :=
  match (env.objects this).FindObjectModelTableEntry tableNumber idString with
  | none =>
    { result := .thrown (.ParseException "unknown value %s" idString), context := context }
  | some k =>
    match (env.objects this).tbl.get? k with
    | none => { result := .undefined, context := context }
    | some e => getter this context (e.func this context.view) (GetNextElement idString)

/-- Lines 464-473 of `GetObjectValue`: step over the provided index, check it
against the number of elements and go on with the element. -/
def ObjectModel.GetObjectValue.element (getter : ValueGetter) (this : ObjPtr)
    (context : ObjectExplorationContext) (omad : ObjectModelArrayDescriptor)
    (rest : List Char) : StrictOutcome :=
  match context.AddProvidedIndex with
  | .error ex => { result := .thrown ex, context := context }
  | .ok c1 =>
    match c1.GetLastIndex with
    | .error ex => { result := .thrown ex, context := c1 }
    | .ok last =>
      if last < 0 ∨ last.toNat ≥ omad.GetNumElements this c1.view then
        { result := .thrown (parseError "array index out of bounds"), context := c1 }
      else getter this c1 (omad.GetElement this c1.view) rest

/-- `ObjectModel::GetObjectValue(sp, context, val, idString)`, lines 450-491, on
the object at address `this`.  `fuel` bounds the nesting depth of the calls. -/
def ObjectModel.GetObjectValue.ofValue (env : Env) : Nat → ValueGetter
  | 0 => fun _ context _ _ => { result := .outOfFuel, context := context }
  | fuel + 1 => fun this context val idString =>
    match val with
    | .omadVal omad =>
      if peek idString = NUL ∧ context.wantArrayLength then
        { result := .value
            (.iVal (toInt32 ((env.arrays omad).GetNumElements this context.view)))
          context := context }
      else if peek idString ≠ '^' then
        { result := .thrown (parseError "missing array index"), context := context }
      else
        ObjectModel.GetObjectValue.element (ObjectModel.GetObjectValue.ofValue env fuel) this
          context (env.arrays omad) idString.tail
    | .omVal om param =>
      if peek idString = '.' then
        match om with
        | some p =>
          ObjectModel.GetObjectValue (ObjectModel.GetObjectValue.ofValue env fuel) env p context
            idString.tail (param % 256)
        | none => { result := .undefined, context := context }
      else
        { result := .thrown (parseError
            (if peek idString = NUL then "selected value has non-primitive type"
              else "syntax error in value selector string"))
          context := context }
    | v =>
      if peek idString = NUL then { result := .value v, context := context }
      else
        { result := .thrown
            (parseError "reached primitive type before end of selector string")
          context := context }

/-- Strict `GetObjectValue(sp, context, idString, tableNumber)` with the value
overload of nesting bound `fuel`. -/
def Env.GetObjectValue (env : Env) (fuel : Nat) (this : ObjPtr)
    (context : ObjectExplorationContext) (idString : List Char) (tableNumber : Nat) :
    StrictOutcome :=
  ObjectModel.GetObjectValue (ObjectModel.GetObjectValue.ofValue env fuel) env this context
    idString tableNumber

/-! ## `BinaryParser::GetArray`

`CodeParameter`, `DataType` and the element types come from headers outside
this file.  The element type `T` of the array and the type `F` of a `float` on
the wire are parameters, and so are the conversions that the assignments
make. -/

/-- The `DataType` of a parameter of a binary code. -/
inductive DataType where
  | Int
  | UInt
  | Float
  | IntArray
  | UIntArray
  | FloatArray
  | String
  | Expression
  deriving DecidableEq, Repr

/-- The fields of `CodeParameter` that `GetArray` reads. -/
structure CodeParameter (F : Type) where
  type : DataType
  intValue : Int
  uintValue : Nat
  floatValue : F

/-- The words `seenParameterValue` points to, read as `int32_t`, as `uint32_t`
and as `float`. -/
structure ParameterValue (F : Type) where
  asInt : Nat → Int
  asUInt : Nat → Nat
  asFloat : Nat → F

/-- The conversions to the element type of the array. -/
structure Conversions (F T : Type) where
  ofInt : Int → T
  ofUInt : Nat → T
  ofFloat : F → T

/-- What a call of `GetArray` leaves: the array, `length`, and whether
`INTERNAL_ERROR` was reported. -/
structure GetArrayResult (T : Type) where
  arr : Nat → T
  length : Nat
  internalError : Bool

/-- Conversion of an `int` to `size_t` (32 bits on the targets of the
firmware). -/
def toSizeT (n : Int) : Nat := (n % 4294967296).toNat

/-- The copy loops, lines 481-484, 488-491 and 495-498: `arr[i] = src[i]`, at
element `i` with `k` turns left. -/
def GetArray.copy {T : Type} (src : Nat → T) : Nat → Nat → (Nat → T) → (Nat → T)
  | 0, _, arr => arr
  | k + 1, i, arr => GetArray.copy src k (i + 1) (Function.update arr i (src i))

/-- The padding loop, lines 509-512: `arr[i] = arr[lastIndex]`, at element `i`
with `k` turns left. -/
def GetArray.pad {T : Type} (lastIndex : Nat) : Nat → Nat → (Nat → T) → (Nat → T)
  | 0, _, arr => arr
  | k + 1, i, arr => GetArray.pad lastIndex k (i + 1) (Function.update arr i (arr lastIndex))

/-- The `switch` of lines 466-505: the array after the copy and `lastIndex`, or
nothing for a string or an expression. -/
def GetArray.fill {F T : Type} (conv : Conversions F T) (p : CodeParameter F)
    (value : ParameterValue F) (arr : Nat → T) : Option ((Nat → T) × Int) :=
  match p.type with
  | .Int => some (Function.update arr 0 (conv.ofInt p.intValue), 0)
  | .UInt => some (Function.update arr 0 (conv.ofUInt p.uintValue), 0)
  | .Float => some (Function.update arr 0 (conv.ofFloat p.floatValue), 0)
  | .IntArray =>
    some (GetArray.copy (fun i => conv.ofInt (value.asInt i)) p.intValue.toNat 0 arr,
      p.intValue - 1)
  | .UIntArray =>
    some (GetArray.copy (fun i => conv.ofUInt (value.asUInt i)) p.intValue.toNat 0 arr,
      p.intValue - 1)
  | .FloatArray =>
    some (GetArray.copy (fun i => conv.ofFloat (value.asFloat i)) p.intValue.toNat 0 arr,
      p.intValue - 1)
  | .String => none
  | .Expression => none

/-- Lines 507-517: pad, or set `length`. -/
def GetArray.finish {T : Type} (arr : Nat → T) (lastIndex : Int) (length : Nat) (doPad : Bool) :
    GetArrayResult T :=
  if doPad = true ∧ lastIndex ≥ 0 then
    { arr := GetArray.pad lastIndex.toNat (length - 1) 1 arr, length := length
      internalError := false }
  else { arr := arr, length := toSizeT (lastIndex + 1), internalError := false }

/-- `BinaryParser::GetArray(arr, length, doPad)`, lines 457-518, with the seen
parameter `seenParameter` (null: `none`) and its value. -/
def BinaryParser.GetArray {F T : Type} (conv : Conversions F T)
    (seenParameter : Option (CodeParameter F)) (seenParameterValue : ParameterValue F)
    (arr : Nat → T) (length : Nat) (doPad : Bool) : GetArrayResult T :=
  match seenParameter with
  | none => { arr := arr, length := length, internalError := true }
  | some p =>
    match GetArray.fill conv p seenParameterValue arr with
    | none => { arr := arr, length := 0, internalError := false }
    | some r => GetArray.finish r.1 r.2 length doPad

/-! ## Notions used to state the properties -/

/-- What `IdCompare` computes once the identifier is known not to be a wildcard:
the loop and the final comparison, lines 425-433. -/
def IdCompare.after (id n : List Char) : Int :=
  let r := IdCompare.loop id n
  if peek r.2 = NUL ∧ (peek r.1 = NUL ∨ peek r.1 = '.' ∨ peek r.1 = '[' ∨ peek r.1 = '^') then 0
  else if peek r.1 > peek r.2 then 1
  else -1

/-- The order of `strcmp` on names: lexicographic by character code. -/
def NameLt (a b : List Char) : Prop := List.Lex (fun x y : Char => x < y) a b

instance NameLt.decidable : DecidableRel NameLt := fun a b => by
  unfold NameLt; exact inferInstance

/-- A table sorted strictly ascending by name. -/
def SortedByName (t : List ObjectModelTableEntry) : Prop :=
  t.Pairwise (fun a b => NameLt a.name b.name)

/-- A name that can be looked up by its own text: not empty, a C string, not
starting with the wildcard star and free of segment terminators. -/
def PlainName (n : List Char) : Prop :=
  n ≠ [] ∧ NoNul n ∧ peek n ≠ '*' ∧ ∀ c ∈ n, isTerminator c = false

/-- A name made of ASCII letters and digits only, and not empty. -/
def AlnumName (n : List Char) : Prop := n ≠ [] ∧ n.all Char.isAlphanum = true

instance instDecidableNoNul (s : List Char) : Decidable (NoNul s) :=
  List.decidableBAll (fun c => c ≠ NUL) s

instance instDecidableAlnumName (n : List Char) : Decidable (AlnumName n) :=
  inferInstanceAs (Decidable (n ≠ [] ∧ n.all Char.isAlphanum = true))

instance instDecidablePlainName (n : List Char) : Decidable (PlainName n) :=
  @instDecidableAnd _ _ inferInstance
    (@instDecidableAnd _ _ (instDecidableNoNul n)
      (@instDecidableAnd _ _ inferInstance
        (List.decidableBAll (fun c => isTerminator c = false) n)))

instance instDecidableSortedByName (t : List ObjectModelTableEntry) :
    Decidable (SortedByName t) :=
  inferInstanceAs
    (Decidable (List.Pairwise (fun (a b : ObjectModelTableEntry) => NameLt a.name b.name) t))

/-- Context `c2` is context `c` with nothing changed that a reader of `c` can
see: the same cursors and flags, and the same indices in the counted slots.
Slots above the counted ones may differ. -/
structure Restored (c c2 : ObjectExplorationContext) : Prop where
  counted : c2.numIndicesCounted = c.numIndicesCounted
  provided : c2.numIndicesProvided = c.numIndicesProvided
  shortForm : c2.shortForm = c.shortForm
  onlyLive : c2.onlyLive = c.onlyLive
  includeVerbose : c2.includeVerbose = c.includeVerbose
  wantArrayLength : c2.wantArrayLength = c.wantArrayLength
  below : ∀ i, i < c.numIndicesCounted → c2.indices i = c.indices i

/-- Two outcomes that append the same text, end the same way and leave contexts
with the same view. -/
def Outcome.Sim (r r2 : Outcome) : Prop :=
  r.out = r2.out ∧ r.status = r2.status ∧ r.context.view = r2.context.view

/-- An item reporter that reads the context through its view only. -/
def ItemReporter.Congr (item : ItemReporter) : Prop :=
  ∀ this c c2 v f, c.view = c2.view → (item this c v f).Sim (item this c2 v f)

/-- An item reporter that, when it returns, leaves the context restored. -/
def ItemReporter.Restores (item : ItemReporter) : Prop :=
  ∀ this c v f, (item this c v f).status = .done → Restored c (item this c v f).context

/-- Reporter `item2` returns whatever `item` returns within its bound. -/
def ItemReporter.Extends (item item2 : ItemReporter) : Prop :=
  ∀ this c v f, (item this c v f).status ≠ .outOfFuel → item2 this c v f = item this c v f

/-- Texts joined by commas. -/
def commaJoin : List (List Char) → List Char
  | [] => []
  | [x] => x
  | x :: y :: rest => x ++ ',' :: commaJoin (y :: rest)

/-- A value that `ReportItemAsJson` prints without a further call: neither an
array nor an object. -/
def ExpressionValue.isLeaf : ExpressionValue → Bool
  | .omadVal _ => false
  | .omVal (some _) _ => false
  | _ => true

/-- The filter that remains after its first segment: the filter from its first
dot, bracket or caret onward, with one leading dot removed. -/
def restOfFilter (filter : List Char) : List Char :=
  match filter.dropWhile (fun ch => !isTerminator ch) with
  | '.' :: rest => rest
  | rest => rest

/-- The text of one member of a reported object: the quoted name, a colon and
the value. -/
def memberText (name value : List Char) : List Char :=
  DQUOTE :: (cstr name ++ [DQUOTE, ':']) ++ value

/-- A value that is neither an array nor an object. -/
def ExpressionValue.isPrimitive : ExpressionValue → Bool
  | .omadVal _ => false
  | .omVal _ _ => false
  | _ => true

/-- The context after `AddIndex(v)` on a stack that is not full. -/
def ObjectExplorationContext.pushed (c : ObjectExplorationContext) (v : Int) :
    ObjectExplorationContext :=
  { c with indices := Function.update c.indices c.numIndicesCounted v
           numIndicesCounted := c.numIndicesCounted + 1 }

/-- The context after `AddIndex()` when a provided index is left. -/
def ObjectExplorationContext.stepped (c : ObjectExplorationContext) :
    ObjectExplorationContext :=
  { c with numIndicesCounted := c.numIndicesCounted + 1 }

/-- A call that ended without an exception and without ending the program. -/
def Status.calm (s : Status) : Prop := s = .done ∨ s = .outOfFuel

/-- An item reporter that raises nothing from contexts with at most `bound`
counted indices. -/
def ItemReporter.CalmUpTo (item : ItemReporter) (bound : Nat) : Prop :=
  ∀ this c v f, c.numIndicesCounted ≤ bound → (item this c v f).status.calm

/-- A value getter whose `unknown value` errors carry a text shorter than the
selector it was given. -/
def ValueGetter.ShorterUnknown (getter : ValueGetter) : Prop :=
  ∀ this c v s arg, (getter this c v s).result
      = .thrown (.ParseException "unknown value %s" arg) → arg.length < s.length

/-- The environment with the element accessor of array `a` replaced by `g`. -/
def Env.withGetElement (env : Env) (a : ArrPtr) (g : ObjPtr → ContextView → ExpressionValue) :
    Env :=
  { env with arrays := fun b => if b = a then { env.arrays a with GetElement := g } else env.arrays b }

/-- The number that a list of `'0'`/`'1'` tokens spells, least significant
token first. -/
def bitmapValue : List Char → Nat
  | [] => 0
  | t :: ts => (if t = '1' then 1 else 0) + 2 * bitmapValue ts

/-- The tokens of the long bitmap form of `v`: one character per bit, bit 0
first. -/
def bitmapTokens (v : Nat) : List Char :=
  (List.range 32).map (fun i => if v.testBit i then '1' else '0')

/-- A schema none of whose accessor functions yields the null value. -/
def Env.YieldsNoNull (env : Env) : Prop :=
  (∀ p k e, (env.objects p).tbl.get? k = some e → ∀ this v, e.func this v ≠ .noType)
    ∧ ∀ a this v, (env.arrays a).GetElement this v ≠ .noType

/-- Context `c2` is context `c` with the counted cursor moved forward over
provided indices and nothing else changed. -/
structure Advanced (c c2 : ObjectExplorationContext) : Prop where
  indices : c2.indices = c.indices
  provided : c2.numIndicesProvided = c.numIndicesProvided
  shortForm : c2.shortForm = c.shortForm
  onlyLive : c2.onlyLive = c.onlyLive
  includeVerbose : c2.includeVerbose = c.includeVerbose
  wantArrayLength : c2.wantArrayLength = c.wantArrayLength
  counted_ge : c.numIndicesCounted ≤ c2.numIndicesCounted
  bounded : c.numIndicesCounted ≤ c.numIndicesProvided →
    c2.numIndicesCounted ≤ c.numIndicesProvided

/-- A value getter that moves the counted cursor forward only. -/
def ValueGetter.Advances (getter : ValueGetter) : Prop :=
  ∀ this c v s, Advanced c (getter this c v s).context

/-- A value getter that returns primitive values only, and the null value only
when the schema or the caller supplied it. -/
def ValueGetter.ReturnsPrimitive (getter : ValueGetter) (env : Env) : Prop :=
  ∀ this c val s v, (getter this c val s).result = .value v →
    v.isPrimitive = true ∧ (env.YieldsNoNull → val ≠ .noType → v ≠ .noType)

/-- Scan of a selector made of names joined by single dots; `need` tells that a
character of a name must come next. -/
def PlainSelector.go : Bool → List Char → Bool
  | need, [] => !need
  | need, ch :: rest =>
    if ch = '.' then !need && PlainSelector.go true rest
    else ch.isAlphanum && PlainSelector.go false rest

/-- A selector made of names of letters and digits joined by single dots: no
wildcard, no index, no empty name. -/
def PlainSelector (s : List Char) : Prop := PlainSelector.go true s = true

instance instDecidablePlainSelector (s : List Char) : Decidable (PlainSelector s) :=
  inferInstanceAs (Decidable (PlainSelector.go true s = true))

/-- A schema whose tables are sorted strictly ascending by name, with names
made of letters and digits. -/
def Env.SortedTables (env : Env) : Prop :=
  ∀ p t, SortedByName ((env.objects p).table t)
    ∧ ∀ e ∈ (env.objects p).table t, AlnumName e.name

/-- The text `ReportItemAsJson` appends for the value `v` under the empty
filter: for a value that is neither an array nor an object, its rendering. -/
def Env.renderScalar (env : Env) (c : ObjectExplorationContext) (v : ExpressionValue) :
    List Char :=
  (ObjectModel.ReportItemAsJson env 1 0 c v []).out

/-- A rest of a selector after a name: empty, or a dot and a plain selector. -/
def PlainRest (s : List Char) : Prop := s = [] ∨ ∃ s2, s = '.' :: s2 ∧ PlainSelector s2

/-- A value getter that comes to an end on every selector of at most `n`
characters. -/
def ValueGetter.RunsUpTo (getter : ValueGetter) (n : Nat) : Prop :=
  ∀ this c v s, s.length ≤ n → (getter this c v s).result ≠ .outOfFuel

/-- Two value getters that do the same on every selector of at most `n`
characters. -/
def ValueGetter.AgreeUpTo (g1 g2 : ValueGetter) (n : Nat) : Prop :=
  ∀ this c v s, s.length ≤ n → g1 this c v s = g2 this c v s

/-- One call of an operation of the index stack. -/
inductive IndexOp where
  | AddIndex (v : Int)
  | AddProvidedIndex
  | RemoveIndex
  | ProvideIndex (v : Int)
  deriving DecidableEq, Repr

/-- The effect of one operation of the index stack. -/
def IndexOp.apply (MaxIndices : Nat) (c : ObjectExplorationContext) :
    IndexOp → Except Exception ObjectExplorationContext
  | .AddIndex v => c.AddIndex MaxIndices v
  | .AddProvidedIndex => c.AddProvidedIndex
  | .RemoveIndex => c.RemoveIndex
  | .ProvideIndex v => c.ProvideIndex MaxIndices v

/-- The context a sequence of operations leads to when every one of them
succeeds. -/
def runOps (MaxIndices : Nat) : List IndexOp → ObjectExplorationContext →
    Option ObjectExplorationContext
  | [], c => some c
  | op :: ops, c =>
    match op.apply MaxIndices c with
    | .ok c2 => runOps MaxIndices ops c2
    | .error _ => none

/-- The serial scan for the first entry that compares equal to the identifier:
its position in the list. -/
def scanEntries (id : List Char) : List ObjectModelTableEntry → Option Nat
  | [] => none
  | e :: rest =>
    if e.IdCompare id = 0 then some 0 else (scanEntries id rest).map (fun j => j + 1)

/-- The first entry of the selected table that compares equal to the
identifier, as an index into the entry array: the entry the serial scan of
table-level `ReportAsJson` meets first, `ShouldReport` left aside. -/
def ObjectModel.firstMatch (o : ObjectModel) (tableNumber : Nat) (id : List Char) :
    Option Nat :=
  if tableNumber < o.descriptor.getD 0 0 then
    (scanEntries id (o.table tableNumber)).map
      (fun j => tableOffset o.descriptor tableNumber + j)
  else none

/-- The values a parameter holds, converted to the element type: one for a
scalar, `intValue` of them for an array, none for a string or an expression. -/
def CodeParameter.values {F T : Type} (conv : Conversions F T) (p : CodeParameter F)
    (value : ParameterValue F) : Option (List T) :=
  match p.type with
  | .Int => some [conv.ofInt p.intValue]
  | .UInt => some [conv.ofUInt p.uintValue]
  | .Float => some [conv.ofFloat p.floatValue]
  | .IntArray => some ((List.range p.intValue.toNat).map (fun i => conv.ofInt (value.asInt i)))
  | .UIntArray => some ((List.range p.intValue.toNat).map (fun i => conv.ofUInt (value.asUInt i)))
  | .FloatArray =>
    some ((List.range p.intValue.toNat).map (fun i => conv.ofFloat (value.asFloat i)))
  | .String => none
  | .Expression => none

/-- `env.ArraysFit deeper fuel n this v`: in the graph of values below `v`,
looked at to `fuel` levels of nesting, an array that can have elements is met
only with fewer than `MaxIndices` arrays around it.  `n` is the number of arrays
around `v`, `this` the object that holds `v`; objects and scalars count for
nothing.  `deeper` is what is required of a value at level `fuel`: `True` leaves
the values below that level out of account, `False` says that no value lies
that deep. -/
def Env.ArraysFit (env : Env) (deeper : Prop) : Nat → Nat → ObjPtr → ExpressionValue → Prop
  | 0, _, _, _ => deeper
  | fuel + 1, n, this, .omadVal a =>
    (∀ view : ContextView, view.indices.length = n →
        (env.arrays a).GetNumElements this view = 0)
      ∨ (n < env.MaxIndices ∧ ∀ view : ContextView, view.indices.length = n + 1 →
          Env.ArraysFit env deeper fuel (n + 1) this ((env.arrays a).GetElement this view))
  | fuel + 1, n, _, .omVal (some p) param =>
    ∀ e ∈ (env.objects p).table (param % 256), ∀ view : ContextView, view.indices.length = n →
      Env.ArraysFit env deeper fuel n p (e.func p view)
  | _ + 1, _, _, _ => True

/-- The entries that the table overload of `GetObjectValue` and the calls below
it look up for a selector: the entry found in the table, followed by the
entries `below` gives for its value and the rest of the selector. -/
def ObjectModel.GetObjectValue.entries
    (below : ObjPtr → ExpressionValue → List Char → List ObjectModelTableEntry) (env : Env)
    (this : ObjPtr) (context : ObjectExplorationContext) (idString : List Char)
    (tableNumber : Nat) : List ObjectModelTableEntry :=
  match (env.objects this).FindObjectModelTableEntry tableNumber idString with
  | none => []
  | some k =>
    match (env.objects this).tbl.get? k with
    | none => []
    | some e => e :: below this (e.func this context.view) (GetNextElement idString)

/-- The entries that the value overload of `GetObjectValue` looks up below a
value in the context `context`: those of the object the value is, when the
selector goes on with a dot; none for any other value. -/
def ObjectModel.GetObjectValue.entriesBelow (env : Env) (context : ObjectExplorationContext) :
    Nat → ObjPtr → ExpressionValue → List Char → List ObjectModelTableEntry
  | 0 => fun _ _ _ => []
  | fuel + 1 => fun _ val idString =>
    match val with
    | .omVal (some p) param =>
      if peek idString = '.' then
        ObjectModel.GetObjectValue.entries
          (ObjectModel.GetObjectValue.entriesBelow env context fuel) env p context
          idString.tail (param % 256)
      else []
    | _ => []

/-- The entries a selector of names joined by dots names: the entries that
strict `GetObjectValue` looks up, one for each name, from the table
`tableNumber` of the object `this` on. -/
def Env.entriesOnPath (env : Env) (fuel : Nat) (this : ObjPtr)
    (context : ObjectExplorationContext) (idString : List Char) (tableNumber : Nat) :
    List ObjectModelTableEntry :=
  ObjectModel.GetObjectValue.entries (ObjectModel.GetObjectValue.entriesBelow env context fuel)
    env this context idString tableNumber

/-- A call that returned normally or, when `deeper` holds, reached the bound on
the nesting depth. -/
def Status.doneOr (deeper : Prop) (s : Status) : Prop := s = .done ∨ (deeper ∧ s = .outOfFuel)

/-! ## An example schema

A root object with an array of two heaters and an up-time counter, the heater
object, and an object whose table holds the names `temp` and `tempLimit`. -/

/-- The digit loop of `referenceStrtol`: value read so far and digits consumed. -/
def readDigits : List Char → Nat → Nat → Nat × Nat
  | [], v, k => (v, k)
  | c :: s, v, k =>
    if c.isDigit then readDigits s (10 * v + (c.toNat - 48)) (k + 1) else (v, k)

/-- Modelled from the spec: the reader of the literal index `n` of a selector
`[n]`, which the code calls as `SafeStrtol` (declared in `General/SafeStrtod.h`,
not part of the sources at hand).  It reads an optional sign and decimal digits;
without a digit nothing is consumed.  It instantiates `Env.SafeStrtol` in the
examples. -/
def referenceStrtol (s : List Char) : Int × Nat :=
  match s with
  | '-' :: t =>
    let r := readDigits t 0 0
    if r.2 = 0 then (0, 0) else (-(r.1 : Int), r.2 + 1)
  | '+' :: t =>
    let r := readDigits t 0 0
    if r.2 = 0 then (0, 0) else ((r.1 : Int), r.2 + 1)
  | _ =>
    let r := readDigits s 0 0
    ((r.1 : Int), r.2)

/-- Modelled from the spec: the conversion of a count of seconds since
1970-01-01T00:00:00 UTC to the broken-down UTC fields, which the code calls as
`gmtime_r` (C library, not part of the sources at hand).  The time of day comes
from the seconds within the day, the date from the number of the day by the
rules of the Gregorian calendar; `tm_year` counts from 1900 and `tm_mon` from
0.  It instantiates `Env.gmtime_r` in the examples. -/
def referenceGmtime (t : Nat) : Tm :=
  let days := t / 86400
  let secs := t % 86400
  -- the day counted from 0000-03-01, within its period of 400 years
  let z := days + 719468
  let era := z / 146097
  let doe := z % 146097
  let yoe := (doe - doe / 1460 + doe / 36524 - doe / 146096) / 365
  -- the day of the year that starts on the first of March, and its month
  let doy := doe - (365 * yoe + yoe / 4 - yoe / 100)
  let mp := (5 * doy + 2) / 153
  let day := doy - (153 * mp + 2) / 5 + 1
  let month := if mp < 10 then mp + 3 else mp - 9
  let year := yoe + era * 400 + (if month ≤ 2 then 1 else 0)
  { tm_year := year - 1900, tm_mon := month - 1, tm_mday := day
    tm_hour := secs / 3600, tm_min := secs % 3600 / 60, tm_sec := secs % 60 }

/-- The heater object: `current` (live) reads the index of the heater being
reported, `state` is an enumeration. -/
def heaterObject : ObjectModel :=
  { descriptor := [1, 2]
    tbl := [ { name := "current".toList
               func := fun _ v => .fVal (123 + (v.indices.headD 0).toNat) 1
               flags := 1 },
             { name := "state".toList, func := fun _ _ => .enum32 2, flags := 0 } ] }

/-- The root object. -/
def rootObject : ObjectModel :=
  { descriptor := [1, 2]
    tbl := [ { name := "heaters".toList, func := fun _ _ => .omadVal 0, flags := 1 },
             { name := "upTime".toList, func := fun _ _ => .uVal 77, flags := 0 } ] }

/-- An object with the names `temp` and `tempLimit`. -/
def tempObject : ObjectModel :=
  { descriptor := [1, 2]
    tbl := [ { name := "temp".toList, func := fun _ _ => .omadVal 0, flags := 0 },
             { name := "tempLimit".toList, func := fun _ _ => .iVal 300, flags := 0 } ] }

/-- An object whose table holds the names `a` and `ax`. -/
def axObject : ObjectModel :=
  { descriptor := [1, 2]
    tbl := [ { name := "a".toList, func := fun _ _ => .iVal 1, flags := 0 },
             { name := "ax".toList, func := fun _ _ => .iVal 2, flags := 0 } ] }

/-- The array of the two heaters; every element is the heater object. -/
def heatersArray : ObjectModelArrayDescriptor :=
  { lockPointer := none
    GetNumElements := fun _ _ => 2
    GetElement := fun _ _ => .omVal (some 1) 0 }

/-- The example environment: root at address 0, heater at 1, `tempObject`
elsewhere.  The float payload is printed as tenths. -/
def sampleEnv : Env :=
  { MaxIndices := 4
    live := 1
    verbose := 2
    SafeStrtol := referenceStrtol
    formatFloat := fun _ bits => formatUnsigned (bits / 10) ++ '.' :: formatUnsigned (bits % 10)
    EncodeString := fun s => DQUOTE :: (cstr s ++ [DQUOTE])
    EncodeChar := fun c => [c]
    GetQuad := fun u q => (u >>> (8 * q)) % 256
    gmtime_r := referenceGmtime
    objects := fun p => match p with
      | 0 => rootObject
      | 1 => heaterObject
      | _ => tempObject
    arrays := fun _ => heatersArray }

/-- The example environment with three heaters instead of two. -/
def threeHeaters : Env :=
  { sampleEnv with arrays := fun _ => { heatersArray with GetNumElements := fun _ _ => 3 } }

/-- A context for strict evaluation in which the caller provided the indices
`l`, none of them counted yet. -/
def providedContext (l : List Int) (wal : Bool) : ObjectExplorationContext :=
  { indices := fun i => l.getD i 0, numIndicesProvided := l.length, numIndicesCounted := 0
    shortForm := false, onlyLive := false, includeVerbose := false, wantArrayLength := wal }

/-- An array with one element, which is the array itself. -/
def nestArray : ObjectModelArrayDescriptor :=
  { lockPointer := none
    GetNumElements := fun _ _ => 1
    GetElement := fun _ _ => .omadVal 0 }

/-- An object whose only entry `nest` is the array that holds itself. -/
def nestObject : ObjectModel :=
  { descriptor := [1, 1]
    tbl := [ { name := "nest".toList, func := fun _ _ => .omadVal 0, flags := 0 } ] }

/-- The environment of `nestObject`: arrays nest without end. -/
def nestEnv : Env :=
  { sampleEnv with objects := fun _ => nestObject, arrays := fun _ => nestArray }

/-- An object whose entry `spare` has no value. -/
def spareObject : ObjectModel :=
  { descriptor := [1, 1]
    tbl := [ { name := "spare".toList, func := fun _ _ => .noType, flags := 0 } ] }

/-- The environment of `spareObject`. -/
def spareEnv : Env :=
  { sampleEnv with objects := fun _ => spareObject }

/-- An object whose entry `heat` is the heater object. -/
def boxObject : ObjectModel :=
  { descriptor := [1, 1]
    tbl := [ { name := "heat".toList, func := fun _ _ => .omVal (some 1) 0, flags := 0 } ] }

/-- The environment of `boxObject`: the box at address 0, the heater object
elsewhere. -/
def boxEnv : Env :=
  { sampleEnv with objects := fun p => match p with
      | 0 => boxObject
      | _ => heaterObject }

/-- A context with two counted indices and one provided index, every slot
holding 0, for a request that asks for array lengths. -/
def mixedContext : ObjectExplorationContext :=
  { indices := fun _ => 0, numIndicesProvided := 1, numIndicesCounted := 2
    shortForm := false, onlyLive := false, includeVerbose := false, wantArrayLength := true }

/-- The conversions of `GetIntArray`, with a `float` on the wire given by its
integer part. -/
def intConversions : Conversions Int Int :=
  { ofInt := fun i => i, ofUInt := fun u => (u : Int), ofFloat := fun f => f }

/-- The words 10, 20, 30 followed by zeros. -/
def threeWords : ParameterValue Int :=
  { asInt := fun i => [10, 20, 30].getD i 0
    asUInt := fun i => [10, 20, 30].getD i 0
    asFloat := fun i => [10, 20, 30].getD i 0 }

/-- An `IntArray` parameter of three values. -/
def threeInts : CodeParameter Int :=
  { type := .IntArray, intValue := 3, uintValue := 3, floatValue := 0 }

/-- An object whose only entry `next` is the object at address `next`. -/
def linkObject (next : ObjPtr) : ObjectModel :=
  { descriptor := [1, 1]
    tbl := [ { name := "next".toList, func := fun _ _ => .omVal (some next) 0, flags := 0 } ] }

/-- A chain of six objects, each the only member of the one before, that ends
in the heater object: objects nest deeper than the index stack holds, and no
array is met. -/
def chainEnv : Env :=
  { sampleEnv with objects := fun p => if p < 6 then linkObject (p + 1) else heaterObject }

/-- An object with a verbose entry `detail` beside the entry `heat`, which is
the heater object. -/
def gaugeObject : ObjectModel :=
  { descriptor := [1, 2]
    tbl := [ { name := "detail".toList, func := fun _ _ => .iVal 9, flags := 2 },
             { name := "heat".toList, func := fun _ _ => .omVal (some 1) 0, flags := 0 } ] }

/-- The environment of `gaugeObject`: the gauge at address 0, the heater object
elsewhere. -/
def gaugeEnv : Env :=
  { sampleEnv with objects := fun p => match p with
      | 0 => gaugeObject
      | _ => heaterObject }

/-- A context whose index stack is full for `sampleEnv`: four counted indices,
every slot holding 0. -/
def fullContext : ObjectExplorationContext :=
  { indices := fun _ => 0, numIndicesProvided := 0, numIndicesCounted := 4
    shortForm := false, onlyLive := false, includeVerbose := false, wantArrayLength := false }

/-- A fresh context without report flags. -/
def freshContext : ObjectExplorationContext :=
  ObjectExplorationContext.create (fun _ => 0) [] false

/-! # Theorems -/

/-! ## Identifier comparison -/

theorem IdCompare_eq (e : ObjectModelTableEntry) (id : List Char) :
    e.IdCompare id = if peek id = NUL ∨ peek id = '*' then 0 else IdCompare.after id e.name := rfl

theorem peek_eq_NUL_iff {s : List Char} (h : NoNul s) : peek s = NUL ↔ s = [] := by
  cases s with
  | nil => simp [peek]
  | cons c t => simpa [peek] using h c (List.mem_cons_self _ _)

theorem NoNul_cons {c : Char} {s : List Char} : NoNul (c :: s) ↔ c ≠ NUL ∧ NoNul s := by
  simp [NoNul]

theorem NoNul_append {s t : List Char} : NoNul (s ++ t) ↔ NoNul s ∧ NoNul t := by
  simp only [NoNul, List.mem_append]
  constructor
  · intro h; exact ⟨fun c hc => h c (Or.inl hc), fun c hc => h c (Or.inr hc)⟩
  · rintro ⟨h1, h2⟩ c (hc | hc)
    · exact h1 c hc
    · exact h2 c hc

theorem NUL_lt {c : Char} (h : c ≠ NUL) : NUL < c := by
  have h1 : c.val ≠ NUL.val := fun h2 => h (Char.ext h2)
  have h3 : c.val.toNat ≠ 0 := by
    intro h4
    apply h1
    apply UInt32.eq_of_toBitVec_eq
    apply BitVec.eq_of_toNat_eq
    exact h4
  show (0 : Nat) < c.val.toNat
  omega

theorem not_lt_NUL (c : Char) : ¬ c < NUL := by
  show ¬ c.val.toNat < 0
  omega

/-- The loop stops on a common prefix, at the first place where the characters
differ or the name ends. -/
theorem IdCompare_loop_spec (n id : List Char) :
    ∃ p, id = p ++ (IdCompare.loop id n).1 ∧ n = p ++ (IdCompare.loop id n).2 ∧
      (peek (IdCompare.loop id n).1 = peek (IdCompare.loop id n).2 →
        peek (IdCompare.loop id n).2 = NUL) := by
  induction n generalizing id with
  | nil => exact ⟨[], by simp [IdCompare.loop], by simp [IdCompare.loop], fun _ => rfl⟩
  | cons c n ih =>
    by_cases h : peek id = c ∧ c ≠ NUL
    · cases id with
      | nil => exact absurd h.1.symm h.2
      | cons d t =>
        obtain ⟨p, h1, h2, h3⟩ := ih t
        have hd : d = c := h.1
        subst hd
        refine ⟨d :: p, ?_, ?_, ?_⟩
        · simp only [IdCompare.loop, if_pos h, List.tail_cons, List.cons_append]; rw [← h1]
        · simp only [IdCompare.loop, if_pos h, List.tail_cons, List.cons_append]; rw [← h2]
        · simpa only [IdCompare.loop, if_pos h, List.tail_cons] using h3
    · refine ⟨[], ?_, ?_, ?_⟩
      · simp [IdCompare.loop, if_neg h]
      · simp [IdCompare.loop, if_neg h]
      · simp only [IdCompare.loop, if_neg h]
        intro h4
        by_contra h5
        exact h ⟨h4, h5⟩

theorem IdCompare_loop_append (n s : List Char) (hn : NoNul n) :
    IdCompare.loop (n ++ s) n = (s, []) := by
  induction n with
  | nil => simp [IdCompare.loop]
  | cons c n ih =>
    rw [NoNul_cons] at hn
    simp [IdCompare.loop, peek, hn.1, ih hn.2]

theorem IdCompare_after_cons (c : Char) (id n : List Char) (hc : c ≠ NUL) :
    IdCompare.after (c :: id) (c :: n) = IdCompare.after id n := by
  simp [IdCompare.after, IdCompare.loop, peek, hc]

theorem isTerminator_false {c : Char} (h : isTerminator c = false) :
    c ≠ '.' ∧ c ≠ '[' ∧ c ≠ '^' := by
  simp only [isTerminator, Bool.or_eq_false_iff, beq_eq_false_iff_ne] at h
  exact ⟨h.1.1, h.1.2, h.2⟩

theorem IdCompare_loop_stop (id n : List Char) (c : Char) (h : ¬ (peek id = c ∧ c ≠ NUL)) :
    IdCompare.loop id (c :: n) = (id, c :: n) := by
  simp only [IdCompare.loop, if_neg h]

theorem IdCompare_after_stop (id n : List Char) (c : Char) (h : ¬ (peek id = c ∧ c ≠ NUL)) :
    IdCompare.after id (c :: n) =
      if c = NUL ∧ (peek id = NUL ∨ peek id = '.' ∨ peek id = '[' ∨ peek id = '^') then 0
      else if peek id > c then 1 else -1 := by
  simp only [IdCompare.after, IdCompare_loop_stop id n c h, peek]

/-- An identifier whose first segment is greater than the name compares positive. -/
theorem IdCompare_after_of_lt_seg (m n t : List Char) (hlt : NameLt m n) (hn : NoNul n)
    (ht : ∀ c ∈ n, isTerminator c = false) : IdCompare.after (n ++ t) m = 1 := by
  induction m generalizing n with
  | nil =>
    cases n with
    | nil => exact absurd hlt (by intro h; cases h)
    | cons d n2 =>
      have hd := (NoNul_cons.1 hn).1
      have htd := isTerminator_false (ht d (List.mem_cons_self _ _))
      simp [IdCompare.after, IdCompare.loop, peek, hd, htd.1, htd.2.1, htd.2.2, NUL_lt hd]
  | cons c m ih =>
    cases n with
    | nil => exact absurd hlt (by intro h; cases h)
    | cons d n2 =>
      have hd := (NoNul_cons.1 hn).1
      have htd := isTerminator_false (ht d (List.mem_cons_self _ _))
      cases hlt with
      | rel h =>
        have hne : d ≠ c := fun e => by subst e; exact lt_irrefl _ h
        rw [List.cons_append, IdCompare_after_stop (d :: (n2 ++ t)) m c (fun hh => hne hh.1)]
        simp only [peek]
        rw [if_neg, if_pos h]
        rintro ⟨_, h2⟩
        rcases h2 with h2 | h2 | h2 | h2
        · exact hd h2
        · exact htd.1 h2
        · exact htd.2.1 h2
        · exact htd.2.2 h2
      | cons h3 =>
        rw [List.cons_append, IdCompare_after_cons _ _ _ hd]
        exact ih n2 h3 (NoNul_cons.1 hn).2 (fun x hx => ht x (List.mem_cons_of_mem _ hx))

/-- An identifier whose first segment is smaller than the name compares
negative, provided the character that follows the segment is below every
character of the name. -/
theorem IdCompare_after_of_gt_seg (m n t : List Char) (hlt : NameLt n m) (hn : NoNul n)
    (hm : ∀ c ∈ m, peek t < c) : IdCompare.after (n ++ t) m = -1 := by
  induction m generalizing n with
  | nil => exact absurd hlt (by intro h; cases h)
  | cons c m ih =>
    have hct := hm c (List.mem_cons_self _ _)
    have hc : c ≠ NUL := fun h => not_lt_NUL (peek t) (h ▸ hct)
    cases n with
    | nil =>
      have hne : ¬ (peek ([] ++ t) = c ∧ c ≠ NUL) := by
        rintro ⟨h1, _⟩
        rw [List.nil_append] at h1
        exact lt_irrefl _ (h1 ▸ hct)
      rw [IdCompare_after_stop ([] ++ t) m c hne, if_neg (fun hh => hc hh.1), List.nil_append,
        if_neg (not_lt.2 (le_of_lt hct))]
    | cons d n2 =>
      have hd := (NoNul_cons.1 hn).1
      cases hlt with
      | rel h =>
        have hne : d ≠ c := fun e => by subst e; exact lt_irrefl _ h
        rw [List.cons_append, IdCompare_after_stop (d :: (n2 ++ t)) m c (fun hh => hne hh.1)]
        simp only [peek]
        rw [if_neg (fun hh => hc hh.1), if_neg (not_lt.2 (le_of_lt h))]
      | cons h3 =>
        rw [List.cons_append, IdCompare_after_cons _ _ _ hd]
        exact ih n2 h3 (NoNul_cons.1 hn).2 (fun x hx => hm x (List.mem_cons_of_mem _ hx))

theorem IdCompare_after_self_seg (n t : List Char) (hn : NoNul n)
    (ht : peek t = NUL ∨ peek t = '.' ∨ peek t = '[' ∨ peek t = '^') :
    IdCompare.after (n ++ t) n = 0 := by
  have hp : peek ([] : List Char) = NUL := rfl
  simp only [IdCompare.after, IdCompare_loop_append n t hn, hp, true_and, if_pos ht]

theorem PlainName.first {n : List Char} (h : PlainName n) : ¬ (peek n = NUL ∨ peek n = '*') := by
  rintro (h1 | h1)
  · exact h.1 ((peek_eq_NUL_iff h.2.1).1 h1)
  · exact h.2.2.1 h1

/-! ## Lookup -/

/-- Fuel beyond `high - low` does not change the result of the search loop: the
loop always runs to its own exit. -/
theorem searchLoop_fuel (cmp : Nat → Int) (f1 f2 low high : Nat)
    (h1 : high - low ≤ f1) (h2 : high - low ≤ f2) :
    searchLoop cmp f1 low high = searchLoop cmp f2 low high := by
  induction f1 generalizing f2 low high with
  | zero =>
    have hle : ¬ high > low := by omega
    cases f2 with
    | zero => rfl
    | succ f2 => simp only [searchLoop, if_neg hle]
  | succ f1 ih =>
    cases f2 with
    | zero =>
      have hle : ¬ high > low := by omega
      simp only [searchLoop, if_neg hle]
    | succ f2 =>
      simp only [searchLoop]
      by_cases hgt : high > low
      · have hmid1 : (high - low) / 2 + low < high := by omega
        have hmid2 : low ≤ (high - low) / 2 + low := by omega
        simp only [if_pos hgt]
        rw [ih f2 ((high - low) / 2 + low + 1) high (by omega) (by omega),
          ih f2 low ((high - low) / 2 + low) (by omega) (by omega)]
      · simp only [if_neg hgt]

/-- The search loop returns position `i` when the comparison is zero there,
positive below it and negative above it. -/
theorem searchLoop_finds (cmp : Nat → Int) (i : Nat) (hzero : cmp i = 0) (fuel low high : Nat)
    (hlow : low ≤ i) (hhigh : i < high) (hfuel : high - low ≤ fuel)
    (hbelow : ∀ j, low ≤ j → j < i → cmp j > 0)
    (habove : ∀ j, i < j → j < high → cmp j < 0) :
    searchLoop cmp fuel low high = .inl i := by
  induction fuel generalizing low high with
  | zero => omega
  | succ fuel ih =>
    have hgt : high > low := by omega
    simp only [searchLoop, if_pos hgt]
    rcases Nat.lt_trichotomy ((high - low) / 2 + low) i with hlt | heq | hgt2
    · have hpos := hbelow _ (by omega) hlt
      rw [if_neg (by omega), if_pos hpos]
      exact ih _ _ (by omega) hhigh (by omega) (fun j h1 h2 => hbelow j (by omega) h2) habove
    · rw [heq, if_pos hzero]
    · have hneg := habove _ hgt2 (by omega)
      rw [if_neg (by omega), if_neg (by omega)]
      exact ih _ _ hlow hgt2 (by omega) hbelow (fun j h1 h2 => habove j h1 (by omega))

/-- Whatever the search returns compares equal to the identifier. -/
theorem searchLoop_sound (cmp : Nat → Int) (fuel low high mid : Nat)
    (h : searchLoop cmp fuel low high = .inl mid) : cmp mid = 0 := by
  induction fuel generalizing low high with
  | zero => simp [searchLoop] at h
  | succ fuel ih =>
    simp only [searchLoop] at h
    split at h
    · split at h
      · rename_i h0
        cases h
        exact h0
      · split at h
        · exact ih _ _ h
        · exact ih _ _ h
    · cases h

theorem table_get? (o : ObjectModel) (tableNumber i : Nat)
    (hi : i < o.descriptor.getD (tableNumber + 1) 0) :
    (o.table tableNumber).get? i = o.tbl.get? (tableOffset o.descriptor tableNumber + i) := by
  have hi2 := hi
  simp only [List.getD_eq_getElem?_getD] at hi2
  simp only [ObjectModel.table, List.get?_eq_getElem?, List.getElem?_take, List.getElem?_drop,
    List.getD_eq_getElem?_getD, if_pos hi2]

theorem table_length (o : ObjectModel) (tableNumber : Nat)
    (hfit : tableOffset o.descriptor tableNumber + o.descriptor.getD (tableNumber + 1) 0
      ≤ o.tbl.length) :
    (o.table tableNumber).length = o.descriptor.getD (tableNumber + 1) 0 := by
  simp only [ObjectModel.table, List.length_take, List.length_drop]
  omega

/-- The comparison the search makes at position `j` of the selected table. -/
theorem find_cmp (o : ObjectModel) (tableNumber j : Nat) (id : List Char)
    (e : ObjectModelTableEntry) (hj : j < o.descriptor.getD (tableNumber + 1) 0)
    (he : (o.table tableNumber).get? j = some e) :
    o.compareAt (tableOffset o.descriptor tableNumber) id j = e.IdCompare id := by
  unfold ObjectModel.compareAt
  rw [← table_get? o tableNumber j hj, he]

/-- Lookup finds position `i` of a table when the entry there compares equal,
the entries before it compare positive and the entries after it negative. -/
theorem find_of_ordered (o : ObjectModel) (tableNumber i : Nat) (id : List Char)
    (hrange : tableNumber < o.descriptor.getD 0 0)
    (hfit : tableOffset o.descriptor tableNumber + o.descriptor.getD (tableNumber + 1) 0
      ≤ o.tbl.length)
    (hi : i < (o.table tableNumber).length)
    (hzero : ∀ e, (o.table tableNumber).get? i = some e → e.IdCompare id = 0)
    (hbelow : ∀ j e, j < i → (o.table tableNumber).get? j = some e → e.IdCompare id > 0)
    (habove : ∀ j e, i < j → (o.table tableNumber).get? j = some e → e.IdCompare id < 0) :
    o.FindObjectModelTableEntry tableNumber id
      = some (tableOffset o.descriptor tableNumber + i) := by
  have hlen := table_length o tableNumber hfit
  have hget : ∀ j, j < o.descriptor.getD (tableNumber + 1) 0 →
      ∃ e, (o.table tableNumber).get? j = some e := by
    intro j hj
    exact ⟨(o.table tableNumber).get ⟨j, by omega⟩, List.get?_eq_get _⟩
  have key := searchLoop_finds
    (o.compareAt (tableOffset o.descriptor tableNumber) id) i
    (by
      obtain ⟨e, he⟩ := hget i (by omega)
      rw [find_cmp o tableNumber i id e (by omega) he]
      exact hzero e he)
    (o.descriptor.getD (tableNumber + 1) 0) 0 (o.descriptor.getD (tableNumber + 1) 0)
    (Nat.zero_le _) (by omega) (by omega)
    (by
      intro j _ hj
      obtain ⟨e, he⟩ := hget j (by omega)
      rw [find_cmp o tableNumber j id e (by omega) he]
      exact hbelow j e hj he)
    (by
      intro j hj hj2
      obtain ⟨e, he⟩ := hget j (by omega)
      rw [find_cmp o tableNumber j id e (by omega) he]
      exact habove j e hj he)
  unfold ObjectModel.FindObjectModelTableEntry
  rw [if_neg (by omega)]
  simp only
  rw [key]

theorem sorted_get_lt (t : List ObjectModelTableEntry) (hs : SortedByName t) (i j : Nat)
    (a b : ObjectModelTableEntry) (hij : i < j) (ha : t.get? i = some a) (hb : t.get? j = some b) :
    NameLt a.name b.name := by
  rw [List.get?_eq_getElem?, List.getElem?_eq_some_iff] at ha hb
  obtain ⟨hi, rfl⟩ := ha
  obtain ⟨hj, rfl⟩ := hb
  exact (List.pairwise_iff_getElem.1 hs) i j hi hj hij

theorem peek_append_of_ne_nil {n : List Char} (t : List Char) (h : n ≠ []) :
    peek (n ++ t) = peek n := by
  cases n with
  | nil => exact absurd rfl h
  | cons c n2 => rfl

theorem PlainName.first_seg {n : List Char} (h : PlainName n) (t : List Char) :
    ¬ (peek (n ++ t) = NUL ∨ peek (n ++ t) = '*') := by
  rw [peek_append_of_ne_nil t h.1]
  exact h.first

theorem IdCompare_pos_of_lt (e : ObjectModelTableEntry) (n t : List Char) (hn : PlainName n)
    (hlt : NameLt e.name n) : e.IdCompare (n ++ t) = 1 := by
  rw [IdCompare_eq, if_neg (hn.first_seg t)]
  exact IdCompare_after_of_lt_seg _ _ _ hlt hn.2.1 hn.2.2.2

theorem IdCompare_neg_of_gt (e : ObjectModelTableEntry) (n t : List Char) (hn : PlainName n)
    (he : ∀ c ∈ e.name, peek t < c) (hlt : NameLt n e.name) : e.IdCompare (n ++ t) = -1 := by
  rw [IdCompare_eq, if_neg (hn.first_seg t)]
  exact IdCompare_after_of_gt_seg _ _ _ hlt hn.2.1 he

theorem IdCompare_self (e : ObjectModelTableEntry) (t : List Char) (he : NoNul e.name)
    (ht : peek t = NUL ∨ peek t = '.' ∨ peek t = '[' ∨ peek t = '^') :
    e.IdCompare (e.name ++ t) = 0 := by
  rw [IdCompare_eq]
  split
  · rfl
  · exact IdCompare_after_self_seg _ _ he ht

theorem get?_mem_table {t : List ObjectModelTableEntry} {j : Nat} {e : ObjectModelTableEntry}
    (h : t.get? j = some e) : e ∈ t := List.get?_mem h

/-- In a sorted table of plain names, looking up an identifier made of the name
of the entry at position `i` and a rest `t` that starts with a terminator (or
is empty) returns that entry, provided the first character of `t` is below
every character of every name of the table. -/
theorem find_entry_by_segment (o : ObjectModel) (tableNumber i : Nat)
    (E : ObjectModelTableEntry) (t : List Char)
    (hrange : tableNumber < o.descriptor.getD 0 0)
    (hfit : tableOffset o.descriptor tableNumber + o.descriptor.getD (tableNumber + 1) 0
      ≤ o.tbl.length)
    (hsorted : SortedByName (o.table tableNumber))
    (hnames : ∀ e ∈ o.table tableNumber, PlainName e.name)
    (hE : (o.table tableNumber).get? i = some E)
    (ht : peek t = NUL ∨ peek t = '.' ∨ peek t = '[' ∨ peek t = '^')
    (hlow : ∀ e ∈ o.table tableNumber, ∀ c ∈ e.name, peek t < c) :
    o.FindObjectModelTableEntry tableNumber (E.name ++ t)
        = some (tableOffset o.descriptor tableNumber + i)
      ∧ o.tbl.get? (tableOffset o.descriptor tableNumber + i) = some E := by
  have hlen := table_length o tableNumber hfit
  have hi : i < (o.table tableNumber).length := by
    rw [List.get?_eq_getElem?, List.getElem?_eq_some_iff] at hE
    exact hE.1
  have hEn := hnames E (get?_mem_table hE)
  refine ⟨find_of_ordered o tableNumber i (E.name ++ t) hrange hfit hi ?_ ?_ ?_, ?_⟩
  · intro e he
    rw [hE] at he
    cases he
    exact IdCompare_self E t hEn.2.1 ht
  · intro j e hj he
    rw [IdCompare_pos_of_lt e E.name t hEn (sorted_get_lt _ hsorted j i e E hj he hE)]
    decide
  · intro j e hj he
    rw [IdCompare_neg_of_gt e E.name t hEn (hlow e (get?_mem_table he))
      (sorted_get_lt _ hsorted i j E e hj hE he)]
    decide
  · rw [← table_get? o tableNumber i (by omega)]
    exact hE

/-! ## The context seen through its view -/

theorem map_update_range (f : Nat → Int) (n : Nat) (v : Int) :
    (List.range n).map (Function.update f n v) = (List.range n).map f := by
  apply List.map_congr_left
  intro i hi
  rw [List.mem_range] at hi
  simp [Function.update, Nat.ne_of_lt hi]

theorem AddIndex_ok (M : Nat) (c : ObjectExplorationContext) (v : Int)
    (h : c.numIndicesCounted ≠ M) :
    c.AddIndex M v = .ok { c with indices := Function.update c.indices c.numIndicesCounted v
                                  numIndicesCounted := c.numIndicesCounted + 1 } := by
  simp only [ObjectExplorationContext.AddIndex, if_neg h]

theorem AddIndex_error (M : Nat) (c : ObjectExplorationContext) (v : Int)
    (h : c.numIndicesCounted = M) :
    c.AddIndex M v = .error (.GCodeException (-1) (-1) "Too many indices") := by
  simp only [ObjectExplorationContext.AddIndex, if_pos h]

theorem view_length (c : ObjectExplorationContext) :
    c.view.indices.length = c.numIndicesCounted := by
  simp [ObjectExplorationContext.view]

theorem view_AddIndex (M : Nat) (c c1 : ObjectExplorationContext) (v : Int)
    (h : c.AddIndex M v = .ok c1) :
    c1.view = { c.view with indices := v :: c.view.indices } := by
  by_cases hM : c.numIndicesCounted = M
  · rw [AddIndex_error M c v hM] at h; cases h
  · rw [AddIndex_ok M c v hM] at h
    cases h
    simp [ObjectExplorationContext.view, List.range_succ, map_update_range]

theorem RemoveIndex_ok (c : ObjectExplorationContext) (h : c.numIndicesCounted ≠ 0) :
    c.RemoveIndex = .ok { c with numIndicesCounted := c.numIndicesCounted - 1 } := by
  simp only [ObjectExplorationContext.RemoveIndex, if_neg h]

theorem RemoveIndex_error (c : ObjectExplorationContext) (h : c.numIndicesCounted = 0) :
    c.RemoveIndex = .error .InternalError := by
  simp only [ObjectExplorationContext.RemoveIndex, if_pos h]

theorem view_RemoveIndex (c c2 : ObjectExplorationContext) (h : c.RemoveIndex = .ok c2) :
    c2.view = { c.view with indices := c.view.indices.tail } := by
  by_cases h0 : c.numIndicesCounted = 0
  · rw [RemoveIndex_error c h0] at h; cases h
  · rw [RemoveIndex_ok c h0] at h
    cases h
    obtain ⟨n, hn⟩ := Nat.exists_eq_succ_of_ne_zero h0
    simp [ObjectExplorationContext.view, hn, List.range_succ]

theorem view_counted {c c2 : ObjectExplorationContext} (h : c.view = c2.view) :
    c.numIndicesCounted = c2.numIndicesCounted := by
  rw [← view_length c, ← view_length c2, h]

/-- Contexts with the same view push alike. -/
theorem AddIndex_congr (M : Nat) (c c2 : ObjectExplorationContext) (v : Int)
    (h : c.view = c2.view) :
    (∃ ex, c.AddIndex M v = .error ex ∧ c2.AddIndex M v = .error ex) ∨
    (∃ d d2, c.AddIndex M v = .ok d ∧ c2.AddIndex M v = .ok d2 ∧ d.view = d2.view) := by
  have hc := view_counted h
  by_cases hM : c.numIndicesCounted = M
  · left
    exact ⟨_, AddIndex_error M c v hM, AddIndex_error M c2 v (hc ▸ hM)⟩
  · right
    refine ⟨_, _, AddIndex_ok M c v hM, AddIndex_ok M c2 v (hc ▸ hM), ?_⟩
    rw [view_AddIndex M c _ v (AddIndex_ok M c v hM),
      view_AddIndex M c2 _ v (AddIndex_ok M c2 v (hc ▸ hM)), h]

/-- Contexts with the same view pop alike. -/
theorem RemoveIndex_congr (c c2 : ObjectExplorationContext) (h : c.view = c2.view) :
    (∃ ex, c.RemoveIndex = .error ex ∧ c2.RemoveIndex = .error ex) ∨
    (∃ d d2, c.RemoveIndex = .ok d ∧ c2.RemoveIndex = .ok d2 ∧ d.view = d2.view) := by
  have hc := view_counted h
  by_cases h0 : c.numIndicesCounted = 0
  · left
    exact ⟨_, RemoveIndex_error c h0, RemoveIndex_error c2 (hc ▸ h0)⟩
  · right
    refine ⟨_, _, RemoveIndex_ok c h0, RemoveIndex_ok c2 (hc ▸ h0), ?_⟩
    rw [view_RemoveIndex c _ (RemoveIndex_ok c h0),
      view_RemoveIndex c2 _ (RemoveIndex_ok c2 (hc ▸ h0)), h]

theorem ShouldReport_congr (env : Env) (c c2 : ObjectExplorationContext) (h : c.view = c2.view)
    (f : Nat) : c.ShouldReport env f = c2.ShouldReport env f := by
  have h1 : c.onlyLive = c2.onlyLive := congrArg ContextView.onlyLive h
  have h2 : c.includeVerbose = c2.includeVerbose := congrArg ContextView.includeVerbose h
  simp only [ObjectExplorationContext.ShouldReport, h1, h2]

/-! ## Restored contexts -/

theorem Restored.refl (c : ObjectExplorationContext) : Restored c c :=
  ⟨rfl, rfl, rfl, rfl, rfl, rfl, fun _ _ => rfl⟩

theorem Restored.trans {a b c : ObjectExplorationContext} (h1 : Restored a b)
    (h2 : Restored b c) : Restored a c :=
  ⟨h2.counted.trans h1.counted, h2.provided.trans h1.provided, h2.shortForm.trans h1.shortForm,
    h2.onlyLive.trans h1.onlyLive, h2.includeVerbose.trans h1.includeVerbose,
    h2.wantArrayLength.trans h1.wantArrayLength,
    fun i hi => (h2.below i (h1.counted ▸ hi)).trans (h1.below i hi)⟩

theorem Restored.view_eq {c c2 : ObjectExplorationContext} (h : Restored c c2) :
    c2.view = c.view := by
  have hmap : (List.range c.numIndicesCounted).map c2.indices
      = (List.range c.numIndicesCounted).map c.indices := by
    apply List.map_congr_left
    intro i hi
    exact h.below i (List.mem_range.1 hi)
  simp only [ObjectExplorationContext.view, h.counted, hmap, h.shortForm, h.onlyLive,
    h.includeVerbose, h.wantArrayLength]

/-- A push, a call that restores the pushed context, and a pop restore the
context: the pop cannot fail. -/
theorem Restored.push_pop (M : Nat) (c c1 r : ObjectExplorationContext) (v : Int)
    (hadd : c.AddIndex M v = .ok c1) (hr : Restored c1 r) :
    ∃ c2, r.RemoveIndex = .ok c2 ∧ Restored c c2 := by
  by_cases hM : c.numIndicesCounted = M
  · rw [AddIndex_error M c v hM] at hadd; cases hadd
  · rw [AddIndex_ok M c v hM] at hadd
    cases hadd
    have hcnt : r.numIndicesCounted = c.numIndicesCounted + 1 := hr.counted
    refine ⟨_, RemoveIndex_ok r (by omega), ?_⟩
    refine ⟨by simp [hcnt], hr.provided, hr.shortForm, hr.onlyLive, hr.includeVerbose,
      hr.wantArrayLength, ?_⟩
    intro i hi
    have := hr.below i (by show i < c.numIndicesCounted + 1; omega)
    simp only [Function.update, Nat.ne_of_lt hi] at this
    simpa using this

/-! ## Unfolding the loops -/

theorem Status.noexcept_done {s : Status} (h : s.noexcept = .done) : s = .done := by
  cases s <;> simp [Status.noexcept] at h ⊢

theorem tableLoop_skip (item : ItemReporter) (env : Env) (this : ObjPtr) (f : List Char)
    (e : ObjectModelTableEntry) (rest : List ObjectModelTableEntry) (added : Bool)
    (out : List Char) (c : ObjectExplorationContext) (hm : e.Matches env f c = false) :
    ObjectModel.ReportAsJson.loop item env this f (e :: rest) added out c
      = ObjectModel.ReportAsJson.loop item env this f rest added out c := by
  simp only [ObjectModel.ReportAsJson.loop, hm, Bool.false_eq_true, if_false]

theorem tableLoop_done (item : ItemReporter) (env : Env) (this : ObjPtr) (f : List Char)
    (e : ObjectModelTableEntry) (rest : List ObjectModelTableEntry) (added : Bool)
    (out : List Char) (c : ObjectExplorationContext) (hm : e.Matches env f c = true)
    (hs : (e.ReportAsJson item c this f).status = .done) :
    ObjectModel.ReportAsJson.loop item env this f (e :: rest) added out c
      = ObjectModel.ReportAsJson.loop item env this f rest true
          ((if added then out ++ [','] else if peek f = NUL then out ++ [LBRACE] else out)
            ++ (e.ReportAsJson item c this f).out)
          (e.ReportAsJson item c this f).context := by
  simp only [ObjectModel.ReportAsJson.loop, hm, if_true, hs]

theorem tableLoop_stop (item : ItemReporter) (env : Env) (this : ObjPtr) (f : List Char)
    (e : ObjectModelTableEntry) (rest : List ObjectModelTableEntry) (added : Bool)
    (out : List Char) (c : ObjectExplorationContext) (hm : e.Matches env f c = true)
    (hs : (e.ReportAsJson item c this f).status ≠ .done) :
    ObjectModel.ReportAsJson.loop item env this f (e :: rest) added out c
      = (true, { out := (if added then out ++ [','] else if peek f = NUL then out ++ [LBRACE]
                    else out) ++ (e.ReportAsJson item c this f).out
                 context := (e.ReportAsJson item c this f).context
                 status := (e.ReportAsJson item c this f).status }) := by
  simp only [ObjectModel.ReportAsJson.loop, hm, if_true]

theorem arrayLoop_throw (item : ItemReporter) (env : Env) (this : ObjPtr)
    (omad : ObjectModelArrayDescriptor) (f : List Char) (k i : Nat) (out : List Char)
    (c : ObjectExplorationContext) (ex : Exception)
    (hadd : c.AddIndex env.MaxIndices (toInt32 i) = .error ex) :
    ObjectModel.ReportArrayAsJson.loop item env this omad f (k + 1) i out c
      = { out := if i ≠ 0 then out ++ [','] else out, context := c, status := .thrown ex } := by
  simp only [ObjectModel.ReportArrayAsJson.loop, hadd]

theorem arrayLoop_stop (item : ItemReporter) (env : Env) (this : ObjPtr)
    (omad : ObjectModelArrayDescriptor) (f : List Char) (k i : Nat) (out : List Char)
    (c c1 : ObjectExplorationContext)
    (hadd : c.AddIndex env.MaxIndices (toInt32 i) = .ok c1)
    (hs : (item this c1 (omad.GetElement this c1.view) f).status ≠ .done) :
    ObjectModel.ReportArrayAsJson.loop item env this omad f (k + 1) i out c
      = { out := (if i ≠ 0 then out ++ [','] else out)
                  ++ (item this c1 (omad.GetElement this c1.view) f).out
          context := (item this c1 (omad.GetElement this c1.view) f).context
          status := (item this c1 (omad.GetElement this c1.view) f).status } := by
  simp only [ObjectModel.ReportArrayAsJson.loop, hadd]

theorem arrayLoop_pop_throw (item : ItemReporter) (env : Env) (this : ObjPtr)
    (omad : ObjectModelArrayDescriptor) (f : List Char) (k i : Nat) (out : List Char)
    (c c1 : ObjectExplorationContext) (ex : Exception)
    (hadd : c.AddIndex env.MaxIndices (toInt32 i) = .ok c1)
    (hs : (item this c1 (omad.GetElement this c1.view) f).status = .done)
    (hrem : (item this c1 (omad.GetElement this c1.view) f).context.RemoveIndex = .error ex) :
    ObjectModel.ReportArrayAsJson.loop item env this omad f (k + 1) i out c
      = { out := (if i ≠ 0 then out ++ [','] else out)
                  ++ (item this c1 (omad.GetElement this c1.view) f).out
          context := (item this c1 (omad.GetElement this c1.view) f).context
          status := .thrown ex } := by
  simp only [ObjectModel.ReportArrayAsJson.loop, hadd, hs, hrem]

theorem arrayLoop_next (item : ItemReporter) (env : Env) (this : ObjPtr)
    (omad : ObjectModelArrayDescriptor) (f : List Char) (k i : Nat) (out : List Char)
    (c c1 c2 : ObjectExplorationContext)
    (hadd : c.AddIndex env.MaxIndices (toInt32 i) = .ok c1)
    (hs : (item this c1 (omad.GetElement this c1.view) f).status = .done)
    (hrem : (item this c1 (omad.GetElement this c1.view) f).context.RemoveIndex = .ok c2) :
    ObjectModel.ReportArrayAsJson.loop item env this omad f (k + 1) i out c
      = ObjectModel.ReportArrayAsJson.loop item env this omad f k (i + 1)
          ((if i ≠ 0 then out ++ [','] else out)
            ++ (item this c1 (omad.GetElement this c1.view) f).out) c2 := by
  simp only [ObjectModel.ReportArrayAsJson.loop, hadd, hs, hrem]

/-! ## Reporting restores the context -/

theorem entry_restores (item : ItemReporter) (hitem : item.Restores)
    (e : ObjectModelTableEntry) (c : ObjectExplorationContext) (self : ObjPtr)
    (f : List Char) (h : (e.ReportAsJson item c self f).status = .done) :
    Restored c (e.ReportAsJson item c self f).context :=
  hitem _ _ _ _ (Status.noexcept_done h)

theorem tableLoop_restores (item : ItemReporter) (hitem : item.Restores) (env : Env)
    (this : ObjPtr) (f : List Char) (es : List ObjectModelTableEntry) :
    ∀ (added : Bool) (out : List Char) (c : ObjectExplorationContext),
      (ObjectModel.ReportAsJson.loop item env this f es added out c).2.status = .done →
      Restored c (ObjectModel.ReportAsJson.loop item env this f es added out c).2.context := by
  induction es with
  | nil => intro added out c _; exact Restored.refl c
  | cons e rest ih =>
    intro added out c h
    cases hm : e.Matches env f c with
    | false =>
      rw [tableLoop_skip item env this f e rest added out c hm] at h ⊢
      exact ih _ _ _ h
    | true =>
      by_cases hs : (e.ReportAsJson item c this f).status = .done
      · rw [tableLoop_done item env this f e rest added out c hm hs] at h ⊢
        exact (entry_restores item hitem e c this f hs).trans (ih _ _ _ h)
      · rw [tableLoop_stop item env this f e rest added out c hm hs] at h
        exact absurd h hs

theorem table_restores (item : ItemReporter) (hitem : item.Restores) (env : Env)
    (this : ObjPtr) (c : ObjectExplorationContext) (t : Nat) (f : List Char)
    (h : (ObjectModel.ReportAsJson item env this c t f).status = .done) :
    Restored c (ObjectModel.ReportAsJson item env this c t f).context := by
  by_cases hr : t < (env.objects this).descriptor.getD 0 0
  · by_cases hs : (ObjectModel.ReportAsJson.loop item env this f ((env.objects this).table t)
        false [] c).2.status = .done
    · have hctx : (ObjectModel.ReportAsJson item env this c t f).context
          = (ObjectModel.ReportAsJson.loop item env this f ((env.objects this).table t)
              false [] c).2.context := by
        simp only [ObjectModel.ReportAsJson, if_pos hr, hs]
      rw [hctx]
      exact tableLoop_restores item hitem env this f _ _ _ _ hs
    · have hst : (ObjectModel.ReportAsJson item env this c t f).status
          = (ObjectModel.ReportAsJson.loop item env this f ((env.objects this).table t)
              false [] c).2.status := by
        simp only [ObjectModel.ReportAsJson, if_pos hr]
      rw [hst] at h
      exact absurd h hs
  · simp only [ObjectModel.ReportAsJson, if_neg hr]
    exact Restored.refl c

theorem arrayLoop_restores (item : ItemReporter) (hitem : item.Restores) (env : Env)
    (this : ObjPtr) (omad : ObjectModelArrayDescriptor) (f : List Char) (k : Nat) :
    ∀ (i : Nat) (out : List Char) (c : ObjectExplorationContext),
      (ObjectModel.ReportArrayAsJson.loop item env this omad f k i out c).status = .done →
      Restored c (ObjectModel.ReportArrayAsJson.loop item env this omad f k i out c).context := by
  induction k with
  | zero => intro i out c _; exact Restored.refl c
  | succ k ih =>
    intro i out c h
    cases hadd : c.AddIndex env.MaxIndices (toInt32 i) with
    | error ex =>
      rw [arrayLoop_throw item env this omad f k i out c ex hadd] at h
      cases h
    | ok c1 =>
      by_cases hs : (item this c1 (omad.GetElement this c1.view) f).status = .done
      · obtain ⟨c2, hrem, hres⟩ := Restored.push_pop env.MaxIndices c c1 _ _ hadd (hitem _ _ _ _ hs)
        rw [arrayLoop_next item env this omad f k i out c c1 c2 hadd hs hrem] at h ⊢
        exact hres.trans (ih _ _ _ h)
      · rw [arrayLoop_stop item env this omad f k i out c c1 hadd hs] at h
        exact absurd h hs

theorem array_restores (item : ItemReporter) (hitem : item.Restores) (env : Env)
    (this : ObjPtr) (c : ObjectExplorationContext) (omad : ObjectModelArrayDescriptor)
    (f : List Char) (h : (ObjectModel.ReportArrayAsJson item env this c omad f).status = .done) :
    Restored c (ObjectModel.ReportArrayAsJson item env this c omad f).context := by
  by_cases hs : (ObjectModel.ReportArrayAsJson.loop item env this omad f
      (omad.GetNumElements this c.view) 0 ['['] c).status = .done
  · have hctx : (ObjectModel.ReportArrayAsJson item env this c omad f).context
        = (ObjectModel.ReportArrayAsJson.loop item env this omad f
            (omad.GetNumElements this c.view) 0 ['['] c).context := by
      simp only [ObjectModel.ReportArrayAsJson, hs]
    rw [hctx]
    exact arrayLoop_restores item hitem env this omad f _ _ _ _ hs
  · have hst : (ObjectModel.ReportArrayAsJson item env this c omad f).status
        = (ObjectModel.ReportArrayAsJson.loop item env this omad f
            (omad.GetNumElements this c.view) 0 ['['] c).status := by
      simp only [ObjectModel.ReportArrayAsJson]
    rw [hst] at h
    exact absurd h hs

/-! ## Unfolding `ReportItemAsJson` -/

theorem peek_ne_NUL_of_eq {f : List Char} {ch : Char} (h : peek f = ch) (hc : ch ≠ NUL) :
    ¬ (peek f = NUL) := by
  rw [h]; exact hc

theorem not_wal_of_peek {c : ObjectExplorationContext} {f : List Char}
    (h : ¬ peek f = NUL) : ¬ (c.wantArrayLength = true ∧ peek f = NUL) :=
  fun hw => h hw.2

theorem item_array_all (env : Env) (fuel : Nat) (this : ObjPtr) (c : ObjectExplorationContext)
    (a : ArrPtr) (f : List Char) (h1 : peek f = '[') (h2 : peek f.tail = ']') :
    ObjectModel.ReportItemAsJson env (fuel + 1) this c (.omadVal a) f
      = ObjectModel.ReportArrayAsJson (ObjectModel.ReportItemAsJson env fuel) env this c
          (env.arrays a) f.tail.tail := by
  have hn : ¬ peek f = NUL := peek_ne_NUL_of_eq h1 (by decide)
  simp only [ObjectModel.ReportItemAsJson, if_neg (not_wal_of_peek hn), if_pos h1, if_pos h2]

theorem item_array_null (env : Env) (fuel : Nat) (this : ObjPtr)
    (c : ObjectExplorationContext) (a : ArrPtr) (f : List Char) (h1 : peek f = '[')
    (h2 : peek f.tail ≠ ']')
    (hbad : (env.SafeStrtol f.tail).2 = 0 ∨ peek (f.tail.drop (env.SafeStrtol f.tail).2) ≠ ']'
      ∨ (env.SafeStrtol f.tail).1 < 0
      ∨ (env.SafeStrtol f.tail).1.toNat ≥ (env.arrays a).GetNumElements this c.view) :
    ObjectModel.ReportItemAsJson env (fuel + 1) this c (.omadVal a) f
      = { out := nullText, context := c, status := .done } := by
  have hn : ¬ peek f = NUL := peek_ne_NUL_of_eq h1 (by decide)
  simp only [ObjectModel.ReportItemAsJson, if_neg (not_wal_of_peek hn), if_pos h1, if_neg h2,
    if_pos hbad]

theorem item_array_index (env : Env) (fuel : Nat) (this : ObjPtr)
    (c : ObjectExplorationContext) (a : ArrPtr) (f : List Char) (h1 : peek f = '[')
    (h2 : peek f.tail ≠ ']')
    (hgood : ¬ ((env.SafeStrtol f.tail).2 = 0
      ∨ peek (f.tail.drop (env.SafeStrtol f.tail).2) ≠ ']'
      ∨ (env.SafeStrtol f.tail).1 < 0
      ∨ (env.SafeStrtol f.tail).1.toNat ≥ (env.arrays a).GetNumElements this c.view)) :
    ObjectModel.ReportItemAsJson env (fuel + 1) this c (.omadVal a) f
      = ObjectModel.ReportItemAsJson.element (ObjectModel.ReportItemAsJson env fuel) env this c
          (env.arrays a) (env.SafeStrtol f.tail).1 (peek f.tail = NUL)
          (f.tail.drop (env.SafeStrtol f.tail).2).tail := by
  have hn : ¬ peek f = NUL := peek_ne_NUL_of_eq h1 (by decide)
  simp only [ObjectModel.ReportItemAsJson, if_neg (not_wal_of_peek hn), if_pos h1, if_neg h2,
    if_neg hgood]

theorem item_array_whole (env : Env) (fuel : Nat) (this : ObjPtr)
    (c : ObjectExplorationContext) (a : ArrPtr) (f : List Char)
    (hw : c.wantArrayLength = false) (h1 : peek f = NUL) :
    ObjectModel.ReportItemAsJson env (fuel + 1) this c (.omadVal a) f
      = ObjectModel.ReportArrayAsJson (ObjectModel.ReportItemAsJson env fuel) env this c
          (env.arrays a) f := by
  have hb : ¬ peek f = '[' := by rw [h1]; decide
  simp only [ObjectModel.ReportItemAsJson, hw, Bool.false_eq_true, false_and, if_false,
    if_neg hb, if_pos h1]

theorem item_array_nothing (env : Env) (fuel : Nat) (this : ObjPtr)
    (c : ObjectExplorationContext) (a : ArrPtr) (f : List Char)
    (h0 : ¬ peek f = NUL) (h1 : ¬ peek f = '[') :
    ObjectModel.ReportItemAsJson env (fuel + 1) this c (.omadVal a) f
      = { out := [], context := c, status := .done } := by
  simp only [ObjectModel.ReportItemAsJson, if_neg (not_wal_of_peek h0), if_neg h1, if_neg h0]

theorem item_object (env : Env) (fuel : Nat) (this : ObjPtr) (c : ObjectExplorationContext)
    (p : ObjPtr) (param : Nat) (f : List Char)
    (hw : ¬ (c.wantArrayLength = true ∧ peek f = NUL)) :
    ObjectModel.ReportItemAsJson env (fuel + 1) this c (.omVal (some p) param) f
      = ObjectModel.ReportAsJson (ObjectModel.ReportItemAsJson env fuel) env p c (param % 256)
          (if peek f = '.' then f.tail else f) := by
  simp only [ObjectModel.ReportItemAsJson, if_neg hw]

theorem item_leaf (env : Env) (fuel : Nat) (this : ObjPtr) (c : ObjectExplorationContext)
    (v : ExpressionValue) (f : List Char)
    (h : (c.wantArrayLength = true ∧ peek f = NUL) ∨ v.isLeaf = true) :
    (ObjectModel.ReportItemAsJson env (fuel + 1) this c v f).context = c
      ∧ (ObjectModel.ReportItemAsJson env (fuel + 1) this c v f).status = .done := by
  by_cases hw : c.wantArrayLength = true ∧ peek f = NUL
  · simp only [ObjectModel.ReportItemAsJson, if_pos hw]
    cases v <;> exact ⟨rfl, rfl⟩
  · have hl : v.isLeaf = true := h.resolve_left hw
    simp only [ObjectModel.ReportItemAsJson, if_neg hw]
    cases v with
    | omadVal a => simp [ExpressionValue.isLeaf] at hl
    | omVal om p =>
      cases om with
      | none => exact ⟨rfl, rfl⟩
      | some q => simp [ExpressionValue.isLeaf] at hl
    | _ => exact ⟨rfl, rfl⟩

theorem element_throw (item : ItemReporter) (env : Env) (this : ObjPtr)
    (c : ObjectExplorationContext) (omad : ObjectModelArrayDescriptor) (index : Int)
    (bracket : Bool) (rest : List Char) (ex : Exception)
    (hadd : c.AddIndex env.MaxIndices index = .error ex) :
    ObjectModel.ReportItemAsJson.element item env this c omad index bracket rest
      = { out := if bracket then ['['] else [], context := c, status := .thrown ex } := by
  simp only [ObjectModel.ReportItemAsJson.element, hadd]

theorem element_stop (item : ItemReporter) (env : Env) (this : ObjPtr)
    (c c1 : ObjectExplorationContext) (omad : ObjectModelArrayDescriptor) (index : Int)
    (bracket : Bool) (rest : List Char)
    (hadd : c.AddIndex env.MaxIndices index = .ok c1)
    (hs : (item this c1 (omad.GetElement this c1.view) rest).status ≠ .done) :
    ObjectModel.ReportItemAsJson.element item env this c omad index bracket rest
      = { out := (if bracket then ['['] else [])
                  ++ (item this c1 (omad.GetElement this c1.view) rest).out
          context := (item this c1 (omad.GetElement this c1.view) rest).context
          status := (item this c1 (omad.GetElement this c1.view) rest).status } := by
  simp only [ObjectModel.ReportItemAsJson.element, hadd]

theorem element_pop_throw (item : ItemReporter) (env : Env) (this : ObjPtr)
    (c c1 : ObjectExplorationContext) (omad : ObjectModelArrayDescriptor) (index : Int)
    (bracket : Bool) (rest : List Char) (ex : Exception)
    (hadd : c.AddIndex env.MaxIndices index = .ok c1)
    (hs : (item this c1 (omad.GetElement this c1.view) rest).status = .done)
    (hrem : (item this c1 (omad.GetElement this c1.view) rest).context.RemoveIndex = .error ex) :
    ObjectModel.ReportItemAsJson.element item env this c omad index bracket rest
      = { out := (if bracket then ['['] else [])
                  ++ (item this c1 (omad.GetElement this c1.view) rest).out
          context := (item this c1 (omad.GetElement this c1.view) rest).context
          status := .thrown ex } := by
  simp only [ObjectModel.ReportItemAsJson.element, hadd, hs, hrem]

theorem element_done (item : ItemReporter) (env : Env) (this : ObjPtr)
    (c c1 c2 : ObjectExplorationContext) (omad : ObjectModelArrayDescriptor) (index : Int)
    (bracket : Bool) (rest : List Char)
    (hadd : c.AddIndex env.MaxIndices index = .ok c1)
    (hs : (item this c1 (omad.GetElement this c1.view) rest).status = .done)
    (hrem : (item this c1 (omad.GetElement this c1.view) rest).context.RemoveIndex = .ok c2) :
    ObjectModel.ReportItemAsJson.element item env this c omad index bracket rest
      = { out := if bracket then
                  ['['] ++ (item this c1 (omad.GetElement this c1.view) rest).out ++ [']']
                else (item this c1 (omad.GetElement this c1.view) rest).out
          context := c2, status := .done } := by
  simp only [ObjectModel.ReportItemAsJson.element, hadd, hs, hrem]
  cases bracket <;> simp

theorem element_restores (item : ItemReporter) (hitem : item.Restores) (env : Env)
    (this : ObjPtr) (c : ObjectExplorationContext) (omad : ObjectModelArrayDescriptor)
    (index : Int) (bracket : Bool) (rest : List Char)
    (h : (ObjectModel.ReportItemAsJson.element item env this c omad index bracket rest).status
      = .done) :
    Restored c (ObjectModel.ReportItemAsJson.element item env this c omad index bracket rest).context := by
  cases hadd : c.AddIndex env.MaxIndices index with
  | error ex =>
    rw [element_throw item env this c omad index bracket rest ex hadd] at h
    cases h
  | ok c1 =>
    by_cases hs : (item this c1 (omad.GetElement this c1.view) rest).status = .done
    · obtain ⟨c2, hrem, hres⟩ := Restored.push_pop env.MaxIndices c c1 _ _ hadd (hitem _ _ _ _ hs)
      rw [element_done item env this c c1 c2 omad index bracket rest hadd hs hrem]
      exact hres
    · rw [element_stop item env this c c1 omad index bracket rest hadd hs] at h
      exact absurd h hs

/-- When `ReportItemAsJson` returns, the context is restored: every index it
pushed has been popped. -/
theorem item_restores (env : Env) (fuel : Nat) :
    (ObjectModel.ReportItemAsJson env fuel).Restores := by
  induction fuel with
  | zero =>
    intro this c v f h
    simp [ObjectModel.ReportItemAsJson] at h
  | succ fuel ih =>
    intro this c v f h
    by_cases hl : (c.wantArrayLength = true ∧ peek f = NUL) ∨ v.isLeaf = true
    · rw [(item_leaf env fuel this c v f hl).1]
      exact Restored.refl c
    · have hw : ¬ (c.wantArrayLength = true ∧ peek f = NUL) := fun hw => hl (Or.inl hw)
      have hleaf : ¬ v.isLeaf = true := fun h2 => hl (Or.inr h2)
      cases v with
      | omadVal a =>
        by_cases h1 : peek f = '['
        · by_cases h2 : peek f.tail = ']'
          · rw [item_array_all env fuel this c a f h1 h2] at h ⊢
            exact array_restores _ ih env this c _ _ h
          · by_cases hbad : (env.SafeStrtol f.tail).2 = 0
                ∨ peek (f.tail.drop (env.SafeStrtol f.tail).2) ≠ ']'
                ∨ (env.SafeStrtol f.tail).1 < 0
                ∨ (env.SafeStrtol f.tail).1.toNat ≥ (env.arrays a).GetNumElements this c.view
            · rw [item_array_null env fuel this c a f h1 h2 hbad]
              exact Restored.refl c
            · rw [item_array_index env fuel this c a f h1 h2 hbad] at h ⊢
              exact element_restores _ ih env this c _ _ _ _ h
        · by_cases h0 : peek f = NUL
          · have hwf : c.wantArrayLength = false := by
              cases hc : c.wantArrayLength with
              | false => rfl
              | true => exact absurd ⟨hc, h0⟩ hw
            rw [item_array_whole env fuel this c a f hwf h0] at h ⊢
            exact array_restores _ ih env this c _ _ h
          · rw [item_array_nothing env fuel this c a f h0 h1]
            exact Restored.refl c
      | omVal om param =>
        cases om with
        | none => exact absurd rfl hleaf
        | some p =>
          rw [item_object env fuel this c p param f hw] at h ⊢
          exact table_restores _ ih env p c _ _ h
      | _ => exact absurd rfl hleaf

/-! ## Reporting reads the context through its view -/

theorem Outcome.Sim.refl_of (r r2 : Outcome) (h1 : r.out = r2.out) (h2 : r.status = r2.status)
    (h3 : r.context.view = r2.context.view) : r.Sim r2 := ⟨h1, h2, h3⟩

theorem entry_congr (item : ItemReporter) (hitem : item.Congr) (e : ObjectModelTableEntry)
    (c c2 : ObjectExplorationContext) (self : ObjPtr) (f : List Char) (h : c.view = c2.view) :
    (e.ReportAsJson item c self f).Sim (e.ReportAsJson item c2 self f) := by
  obtain ⟨h1, h2, h3⟩ := hitem self c c2 (e.func self c.view)
    (if peek (GetNextElement f) = '.' then (GetNextElement f).tail else GetNextElement f) h
  refine ⟨?_, ?_, ?_⟩
  · simp only [ObjectModelTableEntry.ReportAsJson, ← h, h1]
  · simp only [ObjectModelTableEntry.ReportAsJson, ← h, h2]
  · simp only [ObjectModelTableEntry.ReportAsJson, ← h, h3]

theorem Matches_congr (env : Env) (e : ObjectModelTableEntry) (f : List Char)
    (c c2 : ObjectExplorationContext) (h : c.view = c2.view) :
    e.Matches env f c = e.Matches env f c2 := by
  simp only [ObjectModelTableEntry.Matches, ShouldReport_congr env c c2 h]

theorem tableLoop_congr (item : ItemReporter) (hitem : item.Congr) (env : Env)
    (this : ObjPtr) (f : List Char) (es : List ObjectModelTableEntry) :
    ∀ (added : Bool) (out : List Char) (c c2 : ObjectExplorationContext), c.view = c2.view →
      (ObjectModel.ReportAsJson.loop item env this f es added out c).1
        = (ObjectModel.ReportAsJson.loop item env this f es added out c2).1 ∧
      (ObjectModel.ReportAsJson.loop item env this f es added out c).2.Sim
        (ObjectModel.ReportAsJson.loop item env this f es added out c2).2 := by
  induction es with
  | nil => intro added out c c2 h; exact ⟨rfl, rfl, rfl, h⟩
  | cons e rest ih =>
    intro added out c c2 h
    have hmc := Matches_congr env e f c c2 h
    obtain ⟨h1, h2, h3⟩ := entry_congr item hitem e c c2 this f h
    cases hm : e.Matches env f c with
    | false =>
      rw [tableLoop_skip item env this f e rest added out c hm,
        tableLoop_skip item env this f e rest added out c2 (hmc ▸ hm)]
      exact ih _ _ _ _ h
    | true =>
      by_cases hs : (e.ReportAsJson item c this f).status = .done
      · rw [tableLoop_done item env this f e rest added out c hm hs,
          tableLoop_done item env this f e rest added out c2 (hmc ▸ hm) (h2 ▸ hs), h1]
        exact ih _ _ _ _ h3
      · rw [tableLoop_stop item env this f e rest added out c hm hs,
          tableLoop_stop item env this f e rest added out c2 (hmc ▸ hm) (h2 ▸ hs)]
        exact ⟨rfl, by simp only [h1], h2, h3⟩

theorem table_congr (item : ItemReporter) (hitem : item.Congr) (env : Env) (this : ObjPtr)
    (c c2 : ObjectExplorationContext) (t : Nat) (f : List Char) (h : c.view = c2.view) :
    (ObjectModel.ReportAsJson item env this c t f).Sim
      (ObjectModel.ReportAsJson item env this c2 t f) := by
  by_cases hr : t < (env.objects this).descriptor.getD 0 0
  · obtain ⟨ha, h1, h2, h3⟩ := tableLoop_congr item hitem env this f
      ((env.objects this).table t) false [] c c2 h
    by_cases hs : (ObjectModel.ReportAsJson.loop item env this f ((env.objects this).table t)
        false [] c).2.status = .done
    · have hs2 := h2 ▸ hs
      refine ⟨?_, ?_, ?_⟩
      · simp only [ObjectModel.ReportAsJson, if_pos hr, hs, hs2, ha, h1]
      · simp only [ObjectModel.ReportAsJson, if_pos hr, hs, hs2]
      · simp only [ObjectModel.ReportAsJson, if_pos hr, hs, hs2, h3]
    · have hs2 : ¬ (ObjectModel.ReportAsJson.loop item env this f ((env.objects this).table t)
        false [] c2).2.status = .done := h2 ▸ hs
      refine ⟨?_, ?_, ?_⟩
      · simp only [ObjectModel.ReportAsJson, if_pos hr]
        exact h1
      · simp only [ObjectModel.ReportAsJson, if_pos hr]
        exact h2
      · simp only [ObjectModel.ReportAsJson, if_pos hr]
        exact h3
  · simp only [ObjectModel.ReportAsJson, if_neg hr]
    exact ⟨rfl, rfl, h⟩

theorem arrayLoop_congr (item : ItemReporter) (hitem : item.Congr) (env : Env)
    (this : ObjPtr) (omad : ObjectModelArrayDescriptor) (f : List Char) (k : Nat) :
    ∀ (i : Nat) (out : List Char) (c c2 : ObjectExplorationContext), c.view = c2.view →
      (ObjectModel.ReportArrayAsJson.loop item env this omad f k i out c).Sim
        (ObjectModel.ReportArrayAsJson.loop item env this omad f k i out c2) := by
  induction k with
  | zero => intro i out c c2 h; exact ⟨rfl, rfl, h⟩
  | succ k ih =>
    intro i out c c2 h
    rcases AddIndex_congr env.MaxIndices c c2 (toInt32 i) h with
      ⟨ex, ha, ha2⟩ | ⟨d, d2, ha, ha2, hd⟩
    · rw [arrayLoop_throw item env this omad f k i out c ex ha,
        arrayLoop_throw item env this omad f k i out c2 ex ha2]
      exact ⟨rfl, rfl, h⟩
    · obtain ⟨h1, h2, h3⟩ := hitem this d d2 (omad.GetElement this d.view) f hd
      rw [hd] at h1 h2 h3
      by_cases hs : (item this d (omad.GetElement this d.view) f).status = .done
      · have hs2 : (item this d2 (omad.GetElement this d2.view) f).status = .done := by
          rw [← h2, ← hd]; exact hs
        rw [hd] at hs
        rcases RemoveIndex_congr _ _ h3 with ⟨ex, hr, hr2⟩ | ⟨q, q2, hr, hr2, hq⟩
        · rw [← hd] at hs hr
          rw [arrayLoop_pop_throw item env this omad f k i out c d ex ha hs hr,
            arrayLoop_pop_throw item env this omad f k i out c2 d2 ex ha2 hs2 hr2]
          rw [hd]
          exact ⟨by simp only [h1], rfl, h3⟩
        · rw [← hd] at hs hr
          rw [arrayLoop_next item env this omad f k i out c d q ha hs hr,
            arrayLoop_next item env this omad f k i out c2 d2 q2 ha2 hs2 hr2]
          rw [hd, h1]
          exact ih _ _ _ _ hq
      · have hs2 : ¬ (item this d2 (omad.GetElement this d2.view) f).status = .done := by
          rw [← h2, ← hd]; exact hs
        rw [arrayLoop_stop item env this omad f k i out c d ha hs,
          arrayLoop_stop item env this omad f k i out c2 d2 ha2 hs2]
        rw [hd]
        exact ⟨by simp only [h1], h2, h3⟩

theorem array_congr (item : ItemReporter) (hitem : item.Congr) (env : Env) (this : ObjPtr)
    (c c2 : ObjectExplorationContext) (omad : ObjectModelArrayDescriptor) (f : List Char)
    (h : c.view = c2.view) :
    (ObjectModel.ReportArrayAsJson item env this c omad f).Sim
      (ObjectModel.ReportArrayAsJson item env this c2 omad f) := by
  obtain ⟨h1, h2, h3⟩ := arrayLoop_congr item hitem env this omad f
    (omad.GetNumElements this c.view) 0 ['['] c c2 h
  rw [h] at h1 h2 h3
  by_cases hs : (ObjectModel.ReportArrayAsJson.loop item env this omad f
      (omad.GetNumElements this c2.view) 0 ['['] c).status = .done
  · have hs2 := h2 ▸ hs
    refine ⟨?_, ?_, ?_⟩
    · simp only [ObjectModel.ReportArrayAsJson, h, hs, hs2, h1]
    · simp only [ObjectModel.ReportArrayAsJson, h, hs, hs2]
    · simp only [ObjectModel.ReportArrayAsJson, h, hs, hs2, h3]
  · have hs2 : ¬ (ObjectModel.ReportArrayAsJson.loop item env this omad f
      (omad.GetNumElements this c2.view) 0 ['['] c2).status = .done := h2 ▸ hs
    refine ⟨?_, ?_, ?_⟩
    · simp only [ObjectModel.ReportArrayAsJson, h]
      exact h1
    · simp only [ObjectModel.ReportArrayAsJson, h]
      exact h2
    · simp only [ObjectModel.ReportArrayAsJson, h]
      exact h3

theorem element_congr (item : ItemReporter) (hitem : item.Congr) (env : Env) (this : ObjPtr)
    (c c2 : ObjectExplorationContext) (omad : ObjectModelArrayDescriptor) (index : Int)
    (bracket : Bool) (rest : List Char) (h : c.view = c2.view) :
    (ObjectModel.ReportItemAsJson.element item env this c omad index bracket rest).Sim
      (ObjectModel.ReportItemAsJson.element item env this c2 omad index bracket rest) := by
  rcases AddIndex_congr env.MaxIndices c c2 index h with ⟨ex, ha, ha2⟩ | ⟨d, d2, ha, ha2, hd⟩
  · rw [element_throw item env this c omad index bracket rest ex ha,
      element_throw item env this c2 omad index bracket rest ex ha2]
    exact ⟨rfl, rfl, h⟩
  · obtain ⟨h1, h2, h3⟩ := hitem this d d2 (omad.GetElement this d.view) rest hd
    rw [hd] at h1 h2 h3
    by_cases hs : (item this d (omad.GetElement this d.view) rest).status = .done
    · have hs2 : (item this d2 (omad.GetElement this d2.view) rest).status = .done := by
        rw [← h2, ← hd]; exact hs
      rw [hd] at hs
      rcases RemoveIndex_congr _ _ h3 with ⟨ex, hr, hr2⟩ | ⟨q, q2, hr, hr2, hq⟩
      · rw [← hd] at hs hr
        rw [element_pop_throw item env this c d omad index bracket rest ex ha hs hr,
          element_pop_throw item env this c2 d2 omad index bracket rest ex ha2 hs2 hr2]
        rw [hd]
        exact ⟨by simp only [h1], rfl, h3⟩
      · rw [← hd] at hs hr
        rw [element_done item env this c d q omad index bracket rest ha hs hr,
          element_done item env this c2 d2 q2 omad index bracket rest ha2 hs2 hr2]
        rw [hd]
        exact ⟨by simp only [h1], rfl, hq⟩
    · have hs2 : ¬ (item this d2 (omad.GetElement this d2.view) rest).status = .done := by
        rw [← h2, ← hd]; exact hs
      rw [element_stop item env this c d omad index bracket rest ha hs,
        element_stop item env this c2 d2 omad index bracket rest ha2 hs2]
      rw [hd]
      exact ⟨by simp only [h1], h2, h3⟩

theorem item_leaf_congr (env : Env) (fuel : Nat) (this : ObjPtr)
    (c c2 : ObjectExplorationContext) (v : ExpressionValue) (f : List Char)
    (h : c.view = c2.view)
    (hl : (c.wantArrayLength = true ∧ peek f = NUL) ∨ v.isLeaf = true) :
    (ObjectModel.ReportItemAsJson env (fuel + 1) this c v f).Sim
      (ObjectModel.ReportItemAsJson env (fuel + 1) this c2 v f) := by
  have hwal : c.wantArrayLength = c2.wantArrayLength := congrArg ContextView.wantArrayLength h
  have hsf : c.shortForm = c2.shortForm := congrArg ContextView.shortForm h
  have hl2 : (c2.wantArrayLength = true ∧ peek f = NUL) ∨ v.isLeaf = true := hwal ▸ hl
  refine ⟨?_, ?_, ?_⟩
  · by_cases hw : c.wantArrayLength = true ∧ peek f = NUL
    · have hw2 : c2.wantArrayLength = true ∧ peek f = NUL := hwal ▸ hw
      simp only [ObjectModel.ReportItemAsJson, if_pos hw, if_pos hw2]
      cases v <;> simp only [h]
    · have hw2 : ¬ (c2.wantArrayLength = true ∧ peek f = NUL) := hwal ▸ hw
      have hleaf : v.isLeaf = true := hl.resolve_left hw
      simp only [ObjectModel.ReportItemAsJson, if_neg hw, if_neg hw2]
      cases v with
      | omadVal a => simp [ExpressionValue.isLeaf] at hleaf
      | omVal om p =>
        cases om with
        | none => rfl
        | some q => simp [ExpressionValue.isLeaf] at hleaf
      | _ => simp only [hsf]
  · rw [(item_leaf env fuel this c v f hl).2, (item_leaf env fuel this c2 v f hl2).2]
  · rw [(item_leaf env fuel this c v f hl).1, (item_leaf env fuel this c2 v f hl2).1, h]

/-- `ReportItemAsJson` reads the context through its view only: from contexts
with the same view it appends the same text, ends the same way and leaves
contexts with the same view. -/
theorem item_congr (env : Env) (fuel : Nat) :
    (ObjectModel.ReportItemAsJson env fuel).Congr := by
  induction fuel with
  | zero =>
    intro this c c2 v f h
    exact ⟨rfl, rfl, h⟩
  | succ fuel ih =>
    intro this c c2 v f h
    have hwal : c.wantArrayLength = c2.wantArrayLength := congrArg ContextView.wantArrayLength h
    by_cases hl : (c.wantArrayLength = true ∧ peek f = NUL) ∨ v.isLeaf = true
    · exact item_leaf_congr env fuel this c c2 v f h hl
    · have hw : ¬ (c.wantArrayLength = true ∧ peek f = NUL) := fun hw => hl (Or.inl hw)
      have hw2 : ¬ (c2.wantArrayLength = true ∧ peek f = NUL) := hwal ▸ hw
      have hleaf : ¬ v.isLeaf = true := fun h2 => hl (Or.inr h2)
      cases v with
      | omadVal a =>
        by_cases h1 : peek f = '['
        · by_cases h2 : peek f.tail = ']'
          · rw [item_array_all env fuel this c a f h1 h2,
              item_array_all env fuel this c2 a f h1 h2]
            exact array_congr _ ih env this c c2 _ _ h
          · by_cases hbad : (env.SafeStrtol f.tail).2 = 0
                ∨ peek (f.tail.drop (env.SafeStrtol f.tail).2) ≠ ']'
                ∨ (env.SafeStrtol f.tail).1 < 0
                ∨ (env.SafeStrtol f.tail).1.toNat ≥ (env.arrays a).GetNumElements this c.view
            · rw [item_array_null env fuel this c a f h1 h2 hbad,
                item_array_null env fuel this c2 a f h1 h2 (h ▸ hbad)]
              exact ⟨rfl, rfl, h⟩
            · rw [item_array_index env fuel this c a f h1 h2 hbad,
                item_array_index env fuel this c2 a f h1 h2 (h ▸ hbad)]
              exact element_congr _ ih env this c c2 _ _ _ _ h
        · by_cases h0 : peek f = NUL
          · have hwf : c.wantArrayLength = false := by
              cases hc : c.wantArrayLength with
              | false => rfl
              | true => exact absurd ⟨hc, h0⟩ hw
            rw [item_array_whole env fuel this c a f hwf h0,
              item_array_whole env fuel this c2 a f (hwal ▸ hwf) h0]
            exact array_congr _ ih env this c c2 _ _ h
          · rw [item_array_nothing env fuel this c a f h0 h1,
              item_array_nothing env fuel this c2 a f h0 h1]
            exact ⟨rfl, rfl, h⟩
      | omVal om param =>
        cases om with
        | none => exact absurd rfl hleaf
        | some p =>
          rw [item_object env fuel this c p param f hw, item_object env fuel this c2 p param f hw2]
          exact table_congr _ ih env p c c2 _ _ h
      | _ => exact absurd rfl hleaf

/-! ## The nesting bound -/

theorem Status.noexcept_outOfFuel {s : Status} : s.noexcept = .outOfFuel ↔ s = .outOfFuel := by
  cases s <;> simp [Status.noexcept]

theorem entry_extends (item item2 : ItemReporter) (hx : item.Extends item2)
    (e : ObjectModelTableEntry) (c : ObjectExplorationContext) (self : ObjPtr) (f : List Char)
    (h : (e.ReportAsJson item c self f).status ≠ .outOfFuel) :
    e.ReportAsJson item2 c self f = e.ReportAsJson item c self f := by
  have h2 : (item self c (e.func self c.view)
      (if peek (GetNextElement f) = '.' then (GetNextElement f).tail else GetNextElement f)).status
      ≠ .outOfFuel := fun h3 => h (Status.noexcept_outOfFuel.2 h3)
  simp only [ObjectModelTableEntry.ReportAsJson, hx _ _ _ _ h2]

theorem tableLoop_extends (item item2 : ItemReporter) (hx : item.Extends item2) (env : Env)
    (this : ObjPtr) (f : List Char) (es : List ObjectModelTableEntry) :
    ∀ (added : Bool) (out : List Char) (c : ObjectExplorationContext),
      (ObjectModel.ReportAsJson.loop item env this f es added out c).2.status ≠ .outOfFuel →
      ObjectModel.ReportAsJson.loop item2 env this f es added out c
        = ObjectModel.ReportAsJson.loop item env this f es added out c := by
  induction es with
  | nil => intro added out c _; rfl
  | cons e rest ih =>
    intro added out c h
    cases hm : e.Matches env f c with
    | false =>
      rw [tableLoop_skip item env this f e rest added out c hm] at h ⊢
      rw [tableLoop_skip item2 env this f e rest added out c hm]
      exact ih _ _ _ h
    | true =>
      by_cases hs : (e.ReportAsJson item c this f).status = .done
      · have he := entry_extends item item2 hx e c this f (by rw [hs]; simp)
        rw [tableLoop_done item env this f e rest added out c hm hs] at h ⊢
        rw [tableLoop_done item2 env this f e rest added out c hm (he ▸ hs), he]
        exact ih _ _ _ h
      · rw [tableLoop_stop item env this f e rest added out c hm hs] at h ⊢
        have he := entry_extends item item2 hx e c this f h
        rw [tableLoop_stop item2 env this f e rest added out c hm (he ▸ hs), he]

theorem table_extends (item item2 : ItemReporter) (hx : item.Extends item2) (env : Env)
    (this : ObjPtr) (c : ObjectExplorationContext) (t : Nat) (f : List Char)
    (h : (ObjectModel.ReportAsJson item env this c t f).status ≠ .outOfFuel) :
    ObjectModel.ReportAsJson item2 env this c t f = ObjectModel.ReportAsJson item env this c t f := by
  by_cases hr : t < (env.objects this).descriptor.getD 0 0
  · have hl : (ObjectModel.ReportAsJson.loop item env this f ((env.objects this).table t)
        false [] c).2.status ≠ .outOfFuel := by
      intro h2
      apply h
      simp only [ObjectModel.ReportAsJson, if_pos hr, h2]
    simp only [ObjectModel.ReportAsJson, if_pos hr,
      tableLoop_extends item item2 hx env this f _ false [] c hl]
  · simp only [ObjectModel.ReportAsJson, if_neg hr]

theorem arrayLoop_extends (item item2 : ItemReporter) (hx : item.Extends item2) (env : Env)
    (this : ObjPtr) (omad : ObjectModelArrayDescriptor) (f : List Char) (k : Nat) :
    ∀ (i : Nat) (out : List Char) (c : ObjectExplorationContext),
      (ObjectModel.ReportArrayAsJson.loop item env this omad f k i out c).status ≠ .outOfFuel →
      ObjectModel.ReportArrayAsJson.loop item2 env this omad f k i out c
        = ObjectModel.ReportArrayAsJson.loop item env this omad f k i out c := by
  induction k with
  | zero => intro i out c _; rfl
  | succ k ih =>
    intro i out c h
    cases hadd : c.AddIndex env.MaxIndices (toInt32 i) with
    | error ex =>
      rw [arrayLoop_throw item env this omad f k i out c ex hadd,
        arrayLoop_throw item2 env this omad f k i out c ex hadd]
    | ok c1 =>
      by_cases hs : (item this c1 (omad.GetElement this c1.view) f).status = .done
      · have he := hx this c1 (omad.GetElement this c1.view) f (by rw [hs]; simp)
        cases hrem : (item this c1 (omad.GetElement this c1.view) f).context.RemoveIndex with
        | error ex =>
          rw [arrayLoop_pop_throw item env this omad f k i out c c1 ex hadd hs hrem,
            arrayLoop_pop_throw item2 env this omad f k i out c c1 ex hadd (he ▸ hs)
              (he ▸ hrem), he]
        | ok c2 =>
          rw [arrayLoop_next item env this omad f k i out c c1 c2 hadd hs hrem] at h ⊢
          rw [arrayLoop_next item2 env this omad f k i out c c1 c2 hadd (he ▸ hs) (he ▸ hrem),
            he]
          exact ih _ _ _ h
      · rw [arrayLoop_stop item env this omad f k i out c c1 hadd hs] at h ⊢
        have he := hx this c1 (omad.GetElement this c1.view) f h
        rw [arrayLoop_stop item2 env this omad f k i out c c1 hadd (he ▸ hs), he]

theorem array_extends (item item2 : ItemReporter) (hx : item.Extends item2) (env : Env)
    (this : ObjPtr) (c : ObjectExplorationContext) (omad : ObjectModelArrayDescriptor)
    (f : List Char)
    (h : (ObjectModel.ReportArrayAsJson item env this c omad f).status ≠ .outOfFuel) :
    ObjectModel.ReportArrayAsJson item2 env this c omad f
      = ObjectModel.ReportArrayAsJson item env this c omad f := by
  have hl : (ObjectModel.ReportArrayAsJson.loop item env this omad f
      (omad.GetNumElements this c.view) 0 ['['] c).status ≠ .outOfFuel := by
    intro h2
    apply h
    simp only [ObjectModel.ReportArrayAsJson, h2]
  simp only [ObjectModel.ReportArrayAsJson, arrayLoop_extends item item2 hx env this omad f _ 0 _ c hl]

theorem element_extends (item item2 : ItemReporter) (hx : item.Extends item2) (env : Env)
    (this : ObjPtr) (c : ObjectExplorationContext) (omad : ObjectModelArrayDescriptor)
    (index : Int) (bracket : Bool) (rest : List Char)
    (h : (ObjectModel.ReportItemAsJson.element item env this c omad index bracket rest).status
      ≠ .outOfFuel) :
    ObjectModel.ReportItemAsJson.element item2 env this c omad index bracket rest
      = ObjectModel.ReportItemAsJson.element item env this c omad index bracket rest := by
  cases hadd : c.AddIndex env.MaxIndices index with
  | error ex =>
    rw [element_throw item env this c omad index bracket rest ex hadd,
      element_throw item2 env this c omad index bracket rest ex hadd]
  | ok c1 =>
    by_cases hs : (item this c1 (omad.GetElement this c1.view) rest).status = .done
    · have he := hx this c1 (omad.GetElement this c1.view) rest (by rw [hs]; simp)
      cases hrem : (item this c1 (omad.GetElement this c1.view) rest).context.RemoveIndex with
      | error ex =>
        rw [element_pop_throw item env this c c1 omad index bracket rest ex hadd hs hrem,
          element_pop_throw item2 env this c c1 omad index bracket rest ex hadd (he ▸ hs)
            (he ▸ hrem), he]
      | ok c2 =>
        rw [element_done item env this c c1 c2 omad index bracket rest hadd hs hrem,
          element_done item2 env this c c1 c2 omad index bracket rest hadd (he ▸ hs)
            (he ▸ hrem), he]
    · rw [element_stop item env this c c1 omad index bracket rest hadd hs] at h ⊢
      have he := hx this c1 (omad.GetElement this c1.view) rest h
      rw [element_stop item2 env this c c1 omad index bracket rest hadd (he ▸ hs), he]

theorem item_leaf_fuel (env : Env) (fuel fuel2 : Nat) (this : ObjPtr)
    (c : ObjectExplorationContext) (v : ExpressionValue) (f : List Char)
    (hl : (c.wantArrayLength = true ∧ peek f = NUL) ∨ v.isLeaf = true) :
    ObjectModel.ReportItemAsJson env (fuel2 + 1) this c v f
      = ObjectModel.ReportItemAsJson env (fuel + 1) this c v f := by
  by_cases hw : c.wantArrayLength = true ∧ peek f = NUL
  · simp only [ObjectModel.ReportItemAsJson, if_pos hw]
  · have hleaf : v.isLeaf = true := hl.resolve_left hw
    simp only [ObjectModel.ReportItemAsJson, if_neg hw]
    cases v with
    | omadVal a => simp [ExpressionValue.isLeaf] at hleaf
    | omVal om p =>
      cases om with
      | none => rfl
      | some q => simp [ExpressionValue.isLeaf] at hleaf
    | _ => rfl

/-- One more level of nesting bound changes no outcome that was reached within
the bound. -/
theorem item_extends (env : Env) (fuel : Nat) :
    (ObjectModel.ReportItemAsJson env fuel).Extends (ObjectModel.ReportItemAsJson env (fuel + 1)) := by
  induction fuel with
  | zero =>
    intro this c v f h
    exact absurd rfl h
  | succ fuel ih =>
    intro this c v f h
    by_cases hl : (c.wantArrayLength = true ∧ peek f = NUL) ∨ v.isLeaf = true
    · exact item_leaf_fuel env fuel (fuel + 1) this c v f hl
    · have hw : ¬ (c.wantArrayLength = true ∧ peek f = NUL) := fun hw => hl (Or.inl hw)
      have hleaf : ¬ v.isLeaf = true := fun h2 => hl (Or.inr h2)
      cases v with
      | omadVal a =>
        by_cases h1 : peek f = '['
        · by_cases h2 : peek f.tail = ']'
          · rw [item_array_all env fuel this c a f h1 h2] at h ⊢
            rw [item_array_all env (fuel + 1) this c a f h1 h2]
            exact array_extends _ _ ih env this c _ _ h
          · by_cases hbad : (env.SafeStrtol f.tail).2 = 0
                ∨ peek (f.tail.drop (env.SafeStrtol f.tail).2) ≠ ']'
                ∨ (env.SafeStrtol f.tail).1 < 0
                ∨ (env.SafeStrtol f.tail).1.toNat ≥ (env.arrays a).GetNumElements this c.view
            · rw [item_array_null env fuel this c a f h1 h2 hbad,
                item_array_null env (fuel + 1) this c a f h1 h2 hbad]
            · rw [item_array_index env fuel this c a f h1 h2 hbad] at h ⊢
              rw [item_array_index env (fuel + 1) this c a f h1 h2 hbad]
              exact element_extends _ _ ih env this c _ _ _ _ h
        · by_cases h0 : peek f = NUL
          · have hwf : c.wantArrayLength = false := by
              cases hc : c.wantArrayLength with
              | false => rfl
              | true => exact absurd ⟨hc, h0⟩ hw
            rw [item_array_whole env fuel this c a f hwf h0] at h ⊢
            rw [item_array_whole env (fuel + 1) this c a f hwf h0]
            exact array_extends _ _ ih env this c _ _ h
          · rw [item_array_nothing env fuel this c a f h0 h1,
              item_array_nothing env (fuel + 1) this c a f h0 h1]
      | omVal om param =>
        cases om with
        | none => exact absurd rfl hleaf
        | some p =>
          rw [item_object env fuel this c p param f hw] at h ⊢
          rw [item_object env (fuel + 1) this c p param f hw]
          exact table_extends _ _ ih env p c _ _ h
      | _ => exact absurd rfl hleaf

/-- The nesting bound is only a bound: an outcome reached within `fuel` levels
is the outcome for every larger bound. -/
theorem item_fuel_mono (env : Env) (fuel k : Nat) (this : ObjPtr)
    (c : ObjectExplorationContext) (v : ExpressionValue) (f : List Char)
    (h : (ObjectModel.ReportItemAsJson env fuel this c v f).status ≠ .outOfFuel) :
    ObjectModel.ReportItemAsJson env (fuel + k) this c v f
      = ObjectModel.ReportItemAsJson env fuel this c v f := by
  induction k with
  | zero => rfl
  | succ k ih =>
    have h2 : (ObjectModel.ReportItemAsJson env (fuel + k) this c v f).status ≠ .outOfFuel := by
      rw [ih]; exact h
    rw [← Nat.add_assoc, item_extends env (fuel + k) this c v f h2, ih]

/-! ## Lookup by a selector -/

theorem alnum_facts {c : Char} (h : c.isAlphanum = true) :
    '.' < c ∧ c ≠ NUL ∧ c ≠ '*' ∧ isTerminator c = false := by
  have h48 : 48 ≤ c.toNat := by
    simp only [Char.isAlphanum, Char.isAlpha, Char.isUpper, Char.isLower, Char.isDigit,
      Bool.or_eq_true, Bool.and_eq_true, decide_eq_true_eq] at h
    have e1 : ∀ k : UInt32, k ≤ c.val → k.toNat ≤ c.toNat := fun k hk => hk
    rcases h with (h | h) | h
    · exact le_trans (by decide) (e1 65 h.1)
    · exact le_trans (by decide) (e1 97 h.1)
    · exact e1 48 h.1
  have hne : ∀ d : Char, d.toNat < 48 → c ≠ d := by
    intro d hd e; subst e; omega
  have hterm : ¬ c = '[' ∧ ¬ c = '^' := by
    simp only [Char.isAlphanum, Char.isAlpha, Char.isUpper, Char.isLower, Char.isDigit,
      Bool.or_eq_true, Bool.and_eq_true, decide_eq_true_eq] at h
    constructor
    · rintro rfl; revert h; decide
    · rintro rfl; revert h; decide
  refine ⟨?_, hne NUL (by decide), hne '*' (by decide), ?_⟩
  · show ('.' : Char).toNat < c.toNat
    have : ('.' : Char).toNat = 46 := by decide
    omega
  · simp only [isTerminator, Bool.or_eq_false_iff, beq_eq_false_iff_ne]
    exact ⟨⟨hne '.' (by decide), hterm.1⟩, hterm.2⟩

theorem AlnumName.chars {n : List Char} (h : AlnumName n) :
    ∀ c ∈ n, c.isAlphanum = true := by
  have h2 := h.2
  rw [List.all_eq_true] at h2
  exact h2

theorem AlnumName.plain {n : List Char} (h : AlnumName n) : PlainName n := by
  refine ⟨h.1, fun c hc => (alnum_facts (h.chars c hc)).2.1, ?_,
    fun c hc => (alnum_facts (h.chars c hc)).2.2.2⟩
  cases n with
  | nil => exact absurd rfl h.1
  | cons c n2 => exact (alnum_facts (h.chars c (List.mem_cons_self _ _))).2.2.1

/-- In a table sorted by name whose names are made of letters and digits, a
selector made of the name of an entry, a dot and anything more resolves to that
entry. -/
theorem find_entry_by_dot_selector (o : ObjectModel) (tableNumber i : Nat)
    (E : ObjectModelTableEntry) (s : List Char)
    (hrange : tableNumber < o.descriptor.getD 0 0)
    (hfit : tableOffset o.descriptor tableNumber + o.descriptor.getD (tableNumber + 1) 0
      ≤ o.tbl.length)
    (hsorted : SortedByName (o.table tableNumber))
    (hnames : ∀ e ∈ o.table tableNumber, AlnumName e.name)
    (hE : (o.table tableNumber).get? i = some E) :
    o.FindObjectModelTableEntry tableNumber (E.name ++ '.' :: s)
        = some (tableOffset o.descriptor tableNumber + i)
      ∧ o.tbl.get? (tableOffset o.descriptor tableNumber + i) = some E :=
  find_entry_by_segment o tableNumber i E ('.' :: s) hrange hfit hsorted
    (fun e he => (hnames e he).plain) hE (Or.inr (Or.inl rfl))
    (fun e he c hc => (alnum_facts ((hnames e he).chars c hc)).1)

/-- C1, on the code.  The table of `tempObject` is sorted strictly ascending by
name and its names `temp` and `tempLimit` are made of letters; the entry `temp`
compares equal to the selectors `temp[0]` and `temp^`; yet the lookup of these
selectors returns no entry, because the search first meets `tempLimit`, whose
letter `L` is below the terminators `[` and `^`.  The serial scan of the
tolerant report does resolve `temp[0]`. -/
theorem find_misses_bracket_selector :
    SortedByName (tempObject.table 0)
      ∧ (∀ e ∈ tempObject.table 0, AlnumName e.name)
      ∧ (tempObject.table 0).map (fun e => e.name) = ["temp".toList, "tempLimit".toList]
      ∧ (∀ e ∈ (tempObject.table 0).get? 0, e.IdCompare "temp[0]".toList = 0
          ∧ e.IdCompare "temp^".toList = 0)
      ∧ tempObject.FindObjectModelTableEntry 0 "temp[0]".toList = none
      ∧ tempObject.FindObjectModelTableEntry 0 "temp^".toList = none
      ∧ tempObject.FindObjectModelTableEntry 0 "temp.x".toList = some 0
      ∧ ((sampleEnv.ReportAsJson 4 2 freshContext 0 "temp[0].current".toList).out
          = "12.3".toList) := by
  refine ⟨by decide, by decide, by decide, by decide, by decide, by decide, by decide, by decide⟩

theorem searchLoop_range (cmp : Nat → Int) (fuel low high mid : Nat)
    (h : searchLoop cmp fuel low high = .inl mid) : low ≤ mid ∧ mid < high := by
  induction fuel generalizing low high with
  | zero => simp [searchLoop] at h
  | succ fuel ih =>
    simp only [searchLoop] at h
    split at h
    · rename_i hgt
      split at h
      · cases h
        constructor <;> omega
      · split at h
        · have := ih _ _ h
          constructor <;> omega
        · have := ih _ _ h
          constructor <;> omega
    · cases h

/-- Whatever entry the lookup returns is an entry of the selected table that
compares equal to the identifier. -/
theorem find_sound (o : ObjectModel) (tableNumber k : Nat) (id : List Char)
    (h : o.FindObjectModelTableEntry tableNumber id = some k) :
    ∃ j e, k = tableOffset o.descriptor tableNumber + j
      ∧ (o.table tableNumber).get? j = some e ∧ e.IdCompare id = 0 := by
  have hcmp : ∀ j, j < o.descriptor.getD (tableNumber + 1) 0 →
      o.compareAt (tableOffset o.descriptor tableNumber) id j = 0 →
      ∃ e, (o.table tableNumber).get? j = some e ∧ e.IdCompare id = 0 := by
    intro j hj h0
    rw [table_get? o tableNumber j hj]
    unfold ObjectModel.compareAt at h0
    cases hg : o.tbl.get? (tableOffset o.descriptor tableNumber + j) with
    | none => rw [hg] at h0; simp at h0
    | some e => rw [hg] at h0; exact ⟨e, rfl, h0⟩
  unfold ObjectModel.FindObjectModelTableEntry at h
  split at h
  · cases h
  · simp only at h
    split at h
    · rename_i mid hs
      cases h
      have hr := searchLoop_range _ _ _ _ _ hs
      obtain ⟨e, he, h0⟩ := hcmp mid hr.2 (searchLoop_sound _ _ _ _ _ hs)
      exact ⟨mid, e, rfl, he, h0⟩
    · rename_i low hs
      split at h
      · rename_i hc
        cases h
        obtain ⟨e, he, h0⟩ := hcmp low hc.1 hc.2
        exact ⟨low, e, rfl, he, h0⟩
      · cases h

/-- An identifier compares equal to a name only as a wildcard or when the name
is its first segment. -/
theorem IdCompare_zero (e : ObjectModelTableEntry) (id : List Char) (hn : NoNul e.name)
    (hid : NoNul id) (h : e.IdCompare id = 0) :
    id = [] ∨ peek id = '*' ∨
      ∃ s, id = e.name ++ s ∧ (s = [] ∨ peek s = '.' ∨ peek s = '[' ∨ peek s = '^') := by
  rw [IdCompare_eq] at h
  split at h
  · rename_i h1
    rcases h1 with h1 | h1
    · exact Or.inl ((peek_eq_NUL_iff hid).1 h1)
    · exact Or.inr (Or.inl h1)
  · right; right
    obtain ⟨p, h1, h2, _⟩ := IdCompare_loop_spec e.name id
    unfold IdCompare.after at h
    simp only at h
    generalize IdCompare.loop id e.name = r at h h1 h2
    split at h
    · rename_i hc
      have hn2 : NoNul r.2 := by
        rw [h2] at hn; exact (NoNul_append.1 hn).2
      have hid2 : NoNul r.1 := by
        rw [h1] at hid; exact (NoNul_append.1 hid).2
      have he : r.2 = [] := (peek_eq_NUL_iff hn2).1 hc.1
      rw [he, List.append_nil] at h2
      refine ⟨r.1, by rw [h2]; exact h1, ?_⟩
      rcases hc.2 with h3 | h3 | h3 | h3
      · exact Or.inl ((peek_eq_NUL_iff hid2).1 h3)
      · exact Or.inr (Or.inl h3)
      · exact Or.inr (Or.inr (Or.inl h3))
      · exact Or.inr (Or.inr (Or.inr h3))
    · split at h <;> simp at h

/-- C3, counterexample.  The table of `axObject` is sorted by name and holds the
entry `a`; looking up its name followed by `x` finds the entry `ax`. -/
theorem find_name_x_found :
    SortedByName (axObject.table 0)
      ∧ (∀ e ∈ axObject.table 0, AlnumName e.name)
      ∧ (∃ E ∈ axObject.table 0, E.name = "a".toList
          ∧ axObject.FindObjectModelTableEntry 0 (E.name ++ ['x']) = some 1
          ∧ axObject.FindObjectModelTableEntry 0 (E.name ++ ['x']) ≠ none) := by
  refine ⟨by decide, by decide, ?_⟩
  refine ⟨{ name := "a".toList, func := fun _ _ => .iVal 1, flags := 0 }, ?_, rfl, by decide,
    by decide⟩
  simp [axObject, ObjectModel.table, tableOffset]

/-- C3, amended.  For a table of plain names and an entry `E` of it, looking up
the name of `E` followed by `x` finds nothing, unless that text is itself the
name of an entry of the table. -/
theorem find_name_x_not_found (o : ObjectModel) (tableNumber : Nat) (E : ObjectModelTableEntry)
    (hnames : ∀ e ∈ o.table tableNumber, PlainName e.name)
    (hE : E ∈ o.table tableNumber)
    (hfree : ∀ e ∈ o.table tableNumber, e.name ≠ E.name ++ ['x']) :
    o.FindObjectModelTableEntry tableNumber (E.name ++ ['x']) = none := by
  have hEn := hnames E hE
  cases hf : o.FindObjectModelTableEntry tableNumber (E.name ++ ['x']) with
  | none => rfl
  | some k =>
    exfalso
    obtain ⟨j, e, _, he, h0⟩ := find_sound o tableNumber k _ hf
    have hmem := get?_mem_table he
    have hen := hnames e hmem
    have hx : NoNul ['x'] := by decide
    have hid : NoNul (E.name ++ ['x']) := NoNul_append.2 ⟨hEn.2.1, hx⟩
    rcases IdCompare_zero e _ hen.2.1 hid h0 with h1 | h1 | ⟨s, hs, hterm⟩
    · simp at h1
    · rw [peek_append_of_ne_nil _ hEn.1] at h1
      exact hEn.2.2.1 h1
    · rcases hterm with h2 | h2
      · subst h2
        rw [List.append_nil] at hs
        exact hfree e hmem hs.symm
      · cases s with
        | nil => revert h2; decide
        | cons ch s2 =>
          have hch : isTerminator ch = true := by
            simp only [peek] at h2
            rcases h2 with h2 | h2 | h2 <;> subst h2 <;> decide
          have hmem2 : ch ∈ E.name ++ ['x'] := by
            rw [hs]; simp
          rcases List.mem_append.1 hmem2 with h3 | h3
          · have := hEn.2.2.2 ch h3
            rw [hch] at this
            cases this
          · simp only [List.mem_singleton] at h3
            subst h3
            revert hch
            decide

/-- C4.  For C strings `name` and `id`: `IdCompare(id)` is zero exactly when
`id` is empty, or begins with a star, or consists of the name followed by
end-of-string, a dot, an opening bracket or a caret.  So `heaters` matches
`heaters.state` and not `heatersX`.  When the result is not zero, the two
strings differ first after a common part `p`, and the result is 1 when the
character of `id` there (NUL at its end) is greater than that of the name, and
-1 otherwise. -/
theorem IdCompare_spec (e : ObjectModelTableEntry) (id : List Char) (hn : NoNul e.name)
    (hid : NoNul id) :
    (e.IdCompare id = 0 ↔
        id = [] ∨ (∃ t, id = '*' :: t) ∨
          ∃ s, id = e.name ++ s ∧
            (s = [] ∨ ∃ ch t, s = ch :: t ∧ (ch = '.' ∨ ch = '[' ∨ ch = '^')))
      ∧ (e.IdCompare id ≠ 0 →
          ∃ p a b, id = p ++ a ∧ e.name = p ++ b ∧ peek a ≠ peek b
            ∧ e.IdCompare id = if peek a > peek b then 1 else -1)
      ∧ (∀ func flags,
          (ObjectModelTableEntry.mk "heaters".toList func flags).IdCompare "heaters.state".toList
              = 0
            ∧ (ObjectModelTableEntry.mk "heaters".toList func flags).IdCompare "heatersX".toList
              = 1) := by
  have hpeek : ∀ (s : List Char) (ch : Char), ch ≠ NUL → (peek s = ch ↔ ∃ t, s = ch :: t) := by
    intro s ch hch
    cases s with
    | nil => simp [peek, Ne.symm hch]
    | cons d t => simp [peek]
  refine ⟨⟨?_, ?_⟩, ?_, ?_⟩
  · intro h
    rcases IdCompare_zero e id hn hid h with h1 | h1 | ⟨s, hs, hterm⟩
    · exact Or.inl h1
    · exact Or.inr (Or.inl ((hpeek id '*' (by decide)).1 h1))
    · refine Or.inr (Or.inr ⟨s, hs, ?_⟩)
      rcases hterm with h2 | h2 | h2 | h2
      · exact Or.inl h2
      · obtain ⟨t, ht⟩ := (hpeek s '.' (by decide)).1 h2
        exact Or.inr ⟨'.', t, ht, Or.inl rfl⟩
      · obtain ⟨t, ht⟩ := (hpeek s '[' (by decide)).1 h2
        exact Or.inr ⟨'[', t, ht, Or.inr (Or.inl rfl)⟩
      · obtain ⟨t, ht⟩ := (hpeek s '^' (by decide)).1 h2
        exact Or.inr ⟨'^', t, ht, Or.inr (Or.inr rfl)⟩
  · rintro (h | ⟨t, h⟩ | ⟨s, hs, hterm⟩)
    · subst h
      rw [IdCompare_eq]
      exact if_pos (Or.inl rfl)
    · subst h
      rw [IdCompare_eq]
      exact if_pos (Or.inr rfl)
    · subst hs
      apply IdCompare_self e s hn
      rcases hterm with h2 | ⟨ch, t, h2, h3⟩
      · subst h2; exact Or.inl rfl
      · subst h2
        rcases h3 with h3 | h3 | h3 <;> subst h3
        · exact Or.inr (Or.inl rfl)
        · exact Or.inr (Or.inr (Or.inl rfl))
        · exact Or.inr (Or.inr (Or.inr rfl))
  · intro hne
    obtain ⟨p, h1, h2, h3⟩ := IdCompare_loop_spec e.name id
    rw [IdCompare_eq] at hne ⊢
    split at hne
    · exact absurd rfl hne
    · rename_i hfirst
      rw [if_neg hfirst]
      unfold IdCompare.after at hne ⊢
      simp only at hne ⊢
      generalize IdCompare.loop id e.name = r at hne h1 h2 h3
      split at hne
      · exact absurd rfl hne
      · rename_i hsecond
        refine ⟨p, r.1, r.2, h1, h2, ?_, ?_⟩
        · intro heq
          have hb := h3 heq
          exact hsecond ⟨hb, Or.inl (heq.trans hb)⟩
        · rw [if_neg hsecond]
  · intro func flags
    exact ⟨rfl, rfl⟩

/-- C4, at an instance: the name `heaters` and the identifier `heaters[1]`. -/
theorem IdCompare_spec_witness :
    NoNul "heaters".toList ∧ NoNul "heaters[1]".toList ∧
      (ObjectModelTableEntry.mk "heaters".toList (fun _ _ => .noType) 0).IdCompare
        "heaters[1]".toList = 0 :=
  ⟨by decide, by decide,
    ((IdCompare_spec (ObjectModelTableEntry.mk "heaters".toList (fun _ _ => .noType) 0)
      "heaters[1]".toList (by decide) (by decide)).1).2
      (Or.inr (Or.inr ⟨"[1]".toList, rfl, Or.inr ⟨'[', "1]".toList, rfl, Or.inr (Or.inl rfl)⟩⟩))⟩

/-- C2.  In a table sorted strictly ascending by name, whose names are not
empty, hold no NUL, do not start with a star and hold no dot, bracket or caret,
looking up the name of the entry at position `i` of the table returns the
pointer to that very entry. -/
theorem find_entry_by_own_name (o : ObjectModel) (tableNumber i : Nat)
    (E : ObjectModelTableEntry)
    (hrange : tableNumber < o.descriptor.getD 0 0)
    (hfit : tableOffset o.descriptor tableNumber + o.descriptor.getD (tableNumber + 1) 0
      ≤ o.tbl.length)
    (hsorted : SortedByName (o.table tableNumber))
    (hnames : ∀ e ∈ o.table tableNumber, PlainName e.name)
    (hE : (o.table tableNumber).get? i = some E) :
    o.FindObjectModelTableEntry tableNumber E.name
        = some (tableOffset o.descriptor tableNumber + i)
      ∧ o.tbl.get? (tableOffset o.descriptor tableNumber + i) = some E := by
  have h := find_entry_by_segment o tableNumber i E [] hrange hfit hsorted hnames hE
    (Or.inl rfl) (fun e he c hc => NUL_lt ((hnames e he).2.1 c hc))
  rw [List.append_nil] at h
  exact h

/-- C2, at an instance: the entry `tempLimit` of `tempObject`, at position 1. -/
theorem find_entry_by_own_name_witness :
    tempObject.FindObjectModelTableEntry 0 "tempLimit".toList = some 1
      ∧ tempObject.tbl.get? 1
          = some { name := "tempLimit".toList, func := fun _ _ => .iVal 300, flags := 0 } :=
  find_entry_by_own_name tempObject 0 1
    { name := "tempLimit".toList, func := fun _ _ => .iVal 300, flags := 0 }
    (by decide) (by decide) (by decide) (by decide) rfl

/-- C3, amended, at an instance: the entry `temp` of `tempObject`. -/
theorem find_name_x_not_found_witness :
    tempObject.FindObjectModelTableEntry 0 "tempx".toList = none :=
  find_name_x_not_found tempObject 0
    { name := "temp".toList, func := fun _ _ => .omadVal 0, flags := 0 }
    (by decide) (by simp [tempObject, ObjectModel.table, tableOffset]) (by decide)

/-! ## Table-level reporting -/

theorem GetNextElement_eq (f : List Char) (hf : NoNul f) :
    GetNextElement f = f.dropWhile (fun ch => !isTerminator ch) := by
  induction f with
  | nil => rfl
  | cons c f ih =>
    have hc := (NoNul_cons.1 hf).1
    by_cases ht : isTerminator c = true
    · have h2 : ¬ (c ≠ NUL ∧ c ≠ '.' ∧ c ≠ '[' ∧ c ≠ '^') := by
        rintro ⟨_, h1, h2, h3⟩
        simp [isTerminator, h1, h2, h3] at ht
      simp only [GetNextElement, if_neg h2, List.dropWhile, ht, Bool.not_true]
    · have ht2 : isTerminator c = false := by simpa using ht
      have h3 := isTerminator_false ht2
      have h4 : c ≠ NUL ∧ c ≠ '.' ∧ c ≠ '[' ∧ c ≠ '^' := ⟨hc, h3⟩
      simp only [GetNextElement, if_pos h4, List.dropWhile, ht2, Bool.not_false]
      exact ih (NoNul_cons.1 hf).2

theorem next_filter_eq (f : List Char) (hf : NoNul f) :
    (if peek (GetNextElement f) = '.' then (GetNextElement f).tail else GetNextElement f)
      = restOfFilter f := by
  rw [GetNextElement_eq f hf]
  unfold restOfFilter
  generalize f.dropWhile (fun ch => !isTerminator ch) = r
  cases r with
  | nil => simp [peek]
  | cons d t =>
    by_cases hd : d = '.'
    · subst hd; simp [peek]
    · simp only [peek, if_neg hd]
      split
      · rename_i heq; cases heq; exact absurd rfl hd
      · rfl

/-- A loop over entries none of which matches appends nothing. -/
theorem tableLoop_none (item : ItemReporter) (env : Env) (this : ObjPtr) (f : List Char)
    (es : List ObjectModelTableEntry) (added : Bool) (out : List Char)
    (c : ObjectExplorationContext) (h : ∀ e ∈ es, e.Matches env f c = false) :
    ObjectModel.ReportAsJson.loop item env this f es added out c
      = (added, { out := out, context := c, status := .done }) := by
  induction es with
  | nil => rfl
  | cons e rest ih =>
    rw [tableLoop_skip item env this f e rest added out c (h e (List.mem_cons_self _ _))]
    exact ih (fun x hx => h x (List.mem_cons_of_mem _ hx))

theorem table_null (item : ItemReporter) (env : Env) (this : ObjPtr)
    (c : ObjectExplorationContext) (t : Nat) (f : List Char)
    (h : ¬ t < (env.objects this).descriptor.getD 0 0
      ∨ ∀ e ∈ (env.objects this).table t, e.Matches env f c = false) :
    ObjectModel.ReportAsJson item env this c t f
      = { out := nullText, context := c, status := .done } := by
  by_cases hr : t < (env.objects this).descriptor.getD 0 0
  · have hm := h.resolve_left (not_not.2 hr)
    simp only [ObjectModel.ReportAsJson, if_pos hr,
      tableLoop_none item env this f _ false [] c hm]
    simp
  · simp only [ObjectModel.ReportAsJson, if_neg hr]

/-- C7.  Table-level `ReportAsJson` appends exactly `null`, returns and leaves
the context as it was, whenever no entry is reported: the table number is not
below the number of tables, or the table is empty, or no name matches the
filter, or every entry whose name matches is excluded by `ShouldReport` (also
for the empty filter). -/
theorem table_report_null (env : Env) (fuel : Nat) (this : ObjPtr)
    (c : ObjectExplorationContext) (tableNumber : Nat) (filter : List Char)
    (h : ¬ tableNumber < (env.objects this).descriptor.getD 0 0
      ∨ (env.objects this).table tableNumber = []
      ∨ (∀ e ∈ (env.objects this).table tableNumber, e.IdCompare filter ≠ 0)
      ∨ (∀ e ∈ (env.objects this).table tableNumber,
          e.IdCompare filter = 0 → c.ShouldReport env e.flags = false)) :
    env.ReportAsJson fuel this c tableNumber filter
      = { out := nullText, context := c, status := .done } := by
  apply table_null
  rcases h with h | h | h | h
  · exact Or.inl h
  · right; rw [h]; intro e he; cases he
  · right; intro e he
    simp [ObjectModelTableEntry.Matches, h e he]
  · right; intro e he
    by_cases h0 : e.IdCompare filter = 0
    · simp [ObjectModelTableEntry.Matches, h e he h0]
    · simp [ObjectModelTableEntry.Matches, h0]

/-- C7, at instances on `sampleEnv`: the name `upTimeX` matches no entry of the
root table; with the flag `f` (live only) the entry `state` of a heater is
excluded; table number 1 is out of range; and with the flag `f` the empty
filter on `tempObject`, none of whose entries is live, yields `null`. -/
theorem table_report_null_witness :
    (sampleEnv.ReportAsJson 3 0 freshContext 0 "upTimeX".toList).out = nullText
      ∧ (sampleEnv.ReportAsJson 3 1 (ObjectExplorationContext.create (fun _ => 0) ['f'] false) 0
          "state".toList).out = nullText
      ∧ (sampleEnv.ReportAsJson 3 0 freshContext 1 []).out = nullText
      ∧ (sampleEnv.ReportAsJson 3 2 (ObjectExplorationContext.create (fun _ => 0) ['f'] false) 0
          []).out = nullText :=
  ⟨congrArg Outcome.out (table_report_null sampleEnv 3 0 freshContext 0 "upTimeX".toList
      (Or.inr (Or.inr (Or.inl (by decide))))),
    congrArg Outcome.out (table_report_null sampleEnv 3 1
      (ObjectExplorationContext.create (fun _ => 0) ['f'] false) 0 "state".toList
      (Or.inr (Or.inr (Or.inr (by decide))))),
    congrArg Outcome.out (table_report_null sampleEnv 3 0 freshContext 1 []
      (Or.inl (by decide))),
    congrArg Outcome.out (table_report_null sampleEnv 3 2
      (ObjectExplorationContext.create (fun _ => 0) ['f'] false) 0 []
      (Or.inr (Or.inr (Or.inr (by decide)))))⟩

/-- C8.  `ShouldReport(flags)` holds exactly when (not `onlyLive`, or the live
bit is set) and (`includeVerbose`, or the verbose bit is clear).  So setting
`includeVerbose` never hides an entry, and setting `onlyLive` never reveals one. -/
theorem ShouldReport_spec (env : Env) (c : ObjectExplorationContext) (f : Nat) :
    (c.ShouldReport env f = true ↔
        (c.onlyLive = false ∨ f &&& env.live ≠ 0)
          ∧ (c.includeVerbose = true ∨ f &&& env.verbose = 0))
      ∧ (c.ShouldReport env f = true →
          ({ c with includeVerbose := true } : ObjectExplorationContext).ShouldReport env f
            = true)
      ∧ (({ c with onlyLive := true } : ObjectExplorationContext).ShouldReport env f = true →
          c.ShouldReport env f = true) := by
  refine ⟨?_, ?_, ?_⟩
  · cases h1 : c.onlyLive <;> cases h2 : c.includeVerbose <;>
      simp [ObjectExplorationContext.ShouldReport, h1, h2]
  · cases h1 : c.onlyLive <;> cases h2 : c.includeVerbose <;>
      simp [ObjectExplorationContext.ShouldReport, h1, h2]
    intro h _; exact h
  · cases h1 : c.onlyLive <;> cases h2 : c.includeVerbose <;>
      simp [ObjectExplorationContext.ShouldReport, h1, h2]

theorem commaJoin_cons (x : List Char) (xs : List (List Char)) :
    commaJoin (x :: xs) = x ++ (xs.map (fun t => ',' :: t)).flatten := by
  induction xs generalizing x with
  | nil => simp [commaJoin]
  | cons y ys ih =>
    simp only [commaJoin, ih y, List.map_cons, List.flatten_cons, List.cons_append]

theorem Matches_empty (env : Env) (e : ObjectModelTableEntry) (c : ObjectExplorationContext) :
    e.Matches env [] c = c.ShouldReport env e.flags := by
  have h0 : e.IdCompare [] = 0 := by
    rw [IdCompare_eq]; exact if_pos (Or.inl rfl)
  simp [ObjectModelTableEntry.Matches, h0]

/-- One member of the object reported for the empty filter, from a context with
the view of `c`. -/
theorem entry_empty_filter (item : ItemReporter) (hC : item.Congr) (hR : item.Restores)
    (e : ObjectModelTableEntry) (this : ObjPtr) (c ck : ObjectExplorationContext)
    (hv : ck.view = c.view)
    (hdone : (item this c (e.func this c.view) []).status = .done) :
    (e.ReportAsJson item ck this []).out
        = memberText e.name (item this c (e.func this c.view) []).out
      ∧ (e.ReportAsJson item ck this []).status = .done
      ∧ (e.ReportAsJson item ck this []).context.view = c.view := by
  obtain ⟨h1, h2, h3⟩ := hC this ck c (e.func this c.view) [] hv
  have hp : peek ([] : List Char) = NUL := rfl
  have hq : ¬ (NUL = '.') := by decide
  refine ⟨?_, ?_, ?_⟩
  · simp only [ObjectModelTableEntry.ReportAsJson, GetNextElement, hp, if_true, if_neg hq, hv,
      h1, memberText]
  · simp only [ObjectModelTableEntry.ReportAsJson, GetNextElement, hp, if_neg hq, hv, h2, hdone,
      Status.noexcept]
  · simp only [ObjectModelTableEntry.ReportAsJson, GetNextElement, hp, if_neg hq, hv, h3]
    exact (hR this c _ _ hdone).view_eq

theorem tableLoop_all_added (item : ItemReporter) (hC : item.Congr) (hR : item.Restores)
    (env : Env) (this : ObjPtr) (c : ObjectExplorationContext)
    (es : List ObjectModelTableEntry) :
    ∀ (out : List Char) (ck : ObjectExplorationContext), ck.view = c.view →
      (∀ e ∈ es, c.ShouldReport env e.flags = true →
        (item this c (e.func this c.view) []).status = .done) →
      (ObjectModel.ReportAsJson.loop item env this [] es true out ck).1 = true
      ∧ (ObjectModel.ReportAsJson.loop item env this [] es true out ck).2.out
          = out ++ (((es.filter (fun e => c.ShouldReport env e.flags)).map
              (fun e => memberText e.name (item this c (e.func this c.view) []).out)).map
              (fun t => ',' :: t)).flatten
      ∧ (ObjectModel.ReportAsJson.loop item env this [] es true out ck).2.status = .done
      ∧ (ObjectModel.ReportAsJson.loop item env this [] es true out ck).2.context.view
          = c.view := by
  induction es with
  | nil => intro out ck hv _; exact ⟨rfl, by simp [ObjectModel.ReportAsJson.loop], rfl, hv⟩
  | cons e rest ih =>
    intro out ck hv hdone
    have hrest : ∀ x ∈ rest, c.ShouldReport env x.flags = true →
        (item this c (x.func this c.view) []).status = .done :=
      fun x hx => hdone x (List.mem_cons_of_mem _ hx)
    have hm : e.Matches env [] ck = c.ShouldReport env e.flags := by
      rw [Matches_empty, ShouldReport_congr env ck c hv]
    cases hrep : c.ShouldReport env e.flags with
    | false =>
      rw [tableLoop_skip item env this [] e rest true out ck (hm.trans hrep)]
      simp only [List.filter_cons, hrep, Bool.false_eq_true, if_false]
      exact ih out ck hv hrest
    | true =>
      obtain ⟨h1, h2, h3⟩ := entry_empty_filter item hC hR e this c ck hv
        (hdone e (List.mem_cons_self _ _) hrep)
      rw [tableLoop_done item env this [] e rest true out ck (hm.trans hrep) h2]
      obtain ⟨i1, i2, i3, i4⟩ := ih _ _ h3 hrest
      refine ⟨i1, ?_, i3, i4⟩
      rw [i2, h1]
      simp only [List.filter_cons, hrep, if_true, List.map_cons, List.flatten_cons,
        List.append_assoc, List.singleton_append]

theorem tableLoop_all_fresh (item : ItemReporter) (hC : item.Congr) (hR : item.Restores)
    (env : Env) (this : ObjPtr) (c : ObjectExplorationContext)
    (es : List ObjectModelTableEntry) :
    ∀ (ck : ObjectExplorationContext), ck.view = c.view →
      (∃ e ∈ es, c.ShouldReport env e.flags = true) →
      (∀ e ∈ es, c.ShouldReport env e.flags = true →
        (item this c (e.func this c.view) []).status = .done) →
      (ObjectModel.ReportAsJson.loop item env this [] es false [] ck).1 = true
      ∧ (ObjectModel.ReportAsJson.loop item env this [] es false [] ck).2.out
          = LBRACE :: commaJoin ((es.filter (fun e => c.ShouldReport env e.flags)).map
              (fun e => memberText e.name (item this c (e.func this c.view) []).out))
      ∧ (ObjectModel.ReportAsJson.loop item env this [] es false [] ck).2.status = .done
      ∧ (ObjectModel.ReportAsJson.loop item env this [] es false [] ck).2.context.view
          = c.view := by
  induction es with
  | nil => intro ck _ hex; obtain ⟨e, he, _⟩ := hex; cases he
  | cons e rest ih =>
    intro ck hv hex hdone
    have hrest : ∀ x ∈ rest, c.ShouldReport env x.flags = true →
        (item this c (x.func this c.view) []).status = .done :=
      fun x hx => hdone x (List.mem_cons_of_mem _ hx)
    have hm : e.Matches env [] ck = c.ShouldReport env e.flags := by
      rw [Matches_empty, ShouldReport_congr env ck c hv]
    cases hrep : c.ShouldReport env e.flags with
    | false =>
      rw [tableLoop_skip item env this [] e rest false [] ck (hm.trans hrep)]
      simp only [List.filter_cons, hrep, Bool.false_eq_true, if_false]
      apply ih ck hv _ hrest
      obtain ⟨x, hx, hxr⟩ := hex
      rcases List.mem_cons.1 hx with hx | hx
      · subst hx; rw [hrep] at hxr; cases hxr
      · exact ⟨x, hx, hxr⟩
    | true =>
      obtain ⟨h1, h2, h3⟩ := entry_empty_filter item hC hR e this c ck hv
        (hdone e (List.mem_cons_self _ _) hrep)
      rw [tableLoop_done item env this [] e rest false [] ck (hm.trans hrep) h2]
      obtain ⟨i1, i2, i3, i4⟩ := tableLoop_all_added item hC hR env this c rest _ _ h3 hrest
      refine ⟨i1, ?_, i3, i4⟩
      have hp : peek ([] : List Char) = NUL := rfl
      rw [i2, h1]
      simp only [List.filter_cons, hrep, if_true, List.map_cons, commaJoin_cons, hp,
        Bool.false_eq_true, if_false, List.nil_append, List.singleton_append, List.cons_append]

/-- C5, counterexample.  On `nestEnv`, under the empty filter, with the table
number 0 in range and the entry `nest` of the table satisfying `ShouldReport`,
table-level `ReportAsJson` appends the opening brace, the name and what the
report of the member appended before it failed, and no closing brace: the
report of the member `nest`, an array nested deeper than the index stack
holds, does not return, and the program ends. -/
theorem table_report_cut_short :
    0 < (nestEnv.objects 0).descriptor.getD 0 0
      ∧ (∃ e ∈ (nestEnv.objects 0).table 0, freshContext.ShouldReport nestEnv e.flags = true)
      ∧ (nestEnv.ReportAsJson 10 0 freshContext 0 []).out = "\x7b\"nest\":[[[[[".toList
      ∧ (nestEnv.ReportAsJson 10 0 freshContext 0 []).status = .terminated
      ∧ (nestEnv.ReportAsJson 10 0 freshContext 0 []).out
          ≠ LBRACE :: (commaJoin
              ((((nestEnv.objects 0).table 0).filter
                  (fun e => freshContext.ShouldReport nestEnv e.flags)).map
                (fun e => memberText e.name
                  (ObjectModel.ReportItemAsJson nestEnv 10 0 freshContext
                    (e.func 0 freshContext.view) []).out))
              ++ [RBRACE]) := by
  decide

/-- C5, amended.  For the empty filter, a table number in range and a context
under which some entry of the table satisfies `ShouldReport`, and provided that
the report of the value of every such entry returns normally: table-level
`ReportAsJson` appends
exactly an opening brace, the comma-joined members `"name":value` of the
entries that satisfy `ShouldReport`, in table order and of no other entry, and
a closing brace, where `value` is what `ReportItemAsJson` appends for the
result of the accessor of the entry under the empty filter; it returns
normally and leaves the context restored. -/
theorem table_report_all (env : Env) (fuel : Nat) (this : ObjPtr)
    (c : ObjectExplorationContext) (tableNumber : Nat)
    (hrange : tableNumber < (env.objects this).descriptor.getD 0 0)
    (hsome : ∃ e ∈ (env.objects this).table tableNumber, c.ShouldReport env e.flags = true)
    (hitems : ∀ e ∈ (env.objects this).table tableNumber, c.ShouldReport env e.flags = true →
      (ObjectModel.ReportItemAsJson env fuel this c (e.func this c.view) []).status = .done) :
    (env.ReportAsJson fuel this c tableNumber []).out
        = LBRACE :: (commaJoin
            ((((env.objects this).table tableNumber).filter
                (fun e => c.ShouldReport env e.flags)).map
              (fun e => memberText e.name
                (ObjectModel.ReportItemAsJson env fuel this c (e.func this c.view) []).out))
            ++ [RBRACE])
      ∧ (env.ReportAsJson fuel this c tableNumber []).status = .done
      ∧ Restored c (env.ReportAsJson fuel this c tableNumber []).context := by
  obtain ⟨h1, h2, h3, _⟩ := tableLoop_all_fresh _ (item_congr env fuel) (item_restores env fuel)
    env this c ((env.objects this).table tableNumber) c rfl hsome hitems
  have hst : (env.ReportAsJson fuel this c tableNumber []).status = .done := by
    simp only [Env.ReportAsJson, ObjectModel.ReportAsJson, if_pos hrange, h3]
  refine ⟨?_, hst, table_restores _ (item_restores env fuel) env this c _ _ hst⟩
  have hp : peek ([] : List Char) = NUL := rfl
  simp only [Env.ReportAsJson, ObjectModel.ReportAsJson, if_pos hrange, h3, h1, h2, hp, and_self,
    if_true, List.cons_append]

/-- C5, amended, at an instance: the root table of `sampleEnv` under the empty filter. -/
theorem table_report_all_witness :
    (sampleEnv.ReportAsJson 4 0 freshContext 0 []).out
        = LBRACE :: (commaJoin
            [memberText "heaters".toList
               (ObjectModel.ReportItemAsJson sampleEnv 4 0 freshContext (.omadVal 0) []).out,
             memberText "upTime".toList "77".toList] ++ [RBRACE])
      ∧ (sampleEnv.ReportAsJson 4 0 freshContext 0 []).status = .done :=
  ⟨(table_report_all sampleEnv 4 0 freshContext 0 (by decide)
      ⟨_, List.mem_cons_self _ _, by decide⟩
      (by
        intro e he _
        simp only [sampleEnv, rootObject, ObjectModel.table, tableOffset, List.getD_cons_succ,
          List.getD_cons_zero, List.drop_zero, List.take_succ_cons, List.take_zero,
          List.mem_cons, List.mem_singleton, List.not_mem_nil, or_false] at he
        rcases he with rfl | rfl <;> decide)).1,
    (table_report_all sampleEnv 4 0 freshContext 0 (by decide)
      ⟨_, List.mem_cons_self _ _, by decide⟩
      (by
        intro e he _
        simp only [sampleEnv, rootObject, ObjectModel.table, tableOffset, List.getD_cons_succ,
          List.getD_cons_zero, List.drop_zero, List.take_succ_cons, List.take_zero,
          List.mem_cons, List.mem_singleton, List.not_mem_nil, or_false] at he
        rcases he with rfl | rfl <;> decide)).2.1⟩

theorem Matches_of_ne (env : Env) (e : ObjectModelTableEntry) (f : List Char)
    (c : ObjectExplorationContext) (h : e.IdCompare f ≠ 0) : e.Matches env f c = false := by
  simp [ObjectModelTableEntry.Matches, h]

theorem tableLoop_append_none (item : ItemReporter) (env : Env) (this : ObjPtr)
    (f : List Char) (pre rest : List ObjectModelTableEntry) (added : Bool) (out : List Char)
    (c : ObjectExplorationContext) (h : ∀ e ∈ pre, e.Matches env f c = false) :
    ObjectModel.ReportAsJson.loop item env this f (pre ++ rest) added out c
      = ObjectModel.ReportAsJson.loop item env this f rest added out c := by
  induction pre with
  | nil => rfl
  | cons p ps ih =>
    rw [List.cons_append, tableLoop_skip item env this f p _ added out c
      (h p (List.mem_cons_self _ _))]
    exact ih (fun e he => h e (List.mem_cons_of_mem _ he))

/-- C6.  For a filter that is not empty, and a table in which exactly one
entry `E` compares equal to the filter, `E` satisfying `ShouldReport`:
table-level `ReportAsJson` appends exactly what `ReportItemAsJson` appends for
the result of the accessor of `E` under the rest of the filter (from its first
dot, bracket or caret onward, one leading dot removed), with no brace, no name
and nothing from another entry; it leaves the context that call leaves, and
ends as that call ends (an exception ends the program at the `noexcept`
boundary). -/
theorem table_report_one (env : Env) (fuel : Nat) (this : ObjPtr)
    (c : ObjectExplorationContext) (tableNumber : Nat) (filter : List Char)
    (pre post : List ObjectModelTableEntry) (E : ObjectModelTableEntry)
    (hrange : tableNumber < (env.objects this).descriptor.getD 0 0)
    (hfilter : filter ≠ []) (hnul : NoNul filter)
    (htable : (env.objects this).table tableNumber = pre ++ E :: post)
    (hE : E.IdCompare filter = 0)
    (hothers : ∀ e ∈ pre ++ post, e.IdCompare filter ≠ 0)
    (hrep : c.ShouldReport env E.flags = true) :
    (env.ReportAsJson fuel this c tableNumber filter).out
        = (ObjectModel.ReportItemAsJson env fuel this c (E.func this c.view)
            (restOfFilter filter)).out
      ∧ (env.ReportAsJson fuel this c tableNumber filter).context
        = (ObjectModel.ReportItemAsJson env fuel this c (E.func this c.view)
            (restOfFilter filter)).context
      ∧ (env.ReportAsJson fuel this c tableNumber filter).status
        = (ObjectModel.ReportItemAsJson env fuel this c (E.func this c.view)
            (restOfFilter filter)).status.noexcept := by
  have hne : ¬ peek filter = NUL := fun h => hfilter ((peek_eq_NUL_iff hnul).1 h)
  have hm : E.Matches env filter c = true := by
    simp [ObjectModelTableEntry.Matches, hE, hrep]
  have hentry : E.ReportAsJson (ObjectModel.ReportItemAsJson env fuel) c this filter
      = { out := (ObjectModel.ReportItemAsJson env fuel this c (E.func this c.view)
            (restOfFilter filter)).out
          context := (ObjectModel.ReportItemAsJson env fuel this c (E.func this c.view)
            (restOfFilter filter)).context
          status := (ObjectModel.ReportItemAsJson env fuel this c (E.func this c.view)
            (restOfFilter filter)).status.noexcept } := by
    simp only [ObjectModelTableEntry.ReportAsJson, if_neg hne, next_filter_eq filter hnul,
      List.nil_append]
  have hpost : ∀ added out ck,
      ObjectModel.ReportAsJson.loop (ObjectModel.ReportItemAsJson env fuel) env this filter
        post added out ck = (added, { out := out, context := ck, status := .done }) :=
    fun added out ck => tableLoop_none _ env this filter post added out ck
      (fun e he => Matches_of_ne env e filter ck (hothers e (List.mem_append_right _ he)))
  have hsplit : ObjectModel.ReportAsJson.loop (ObjectModel.ReportItemAsJson env fuel) env this
      filter (pre ++ E :: post) false [] c
      = ObjectModel.ReportAsJson.loop (ObjectModel.ReportItemAsJson env fuel) env this filter
        (E :: post) false [] c :=
    tableLoop_append_none _ env this filter pre (E :: post) false [] c
      (fun e he => Matches_of_ne env e filter c (hothers e (List.mem_append_left _ he)))
  by_cases hs : (E.ReportAsJson (ObjectModel.ReportItemAsJson env fuel) c this filter).status
      = .done
  · have hloop := tableLoop_done _ env this filter E post false [] c hm hs
    rw [hpost] at hloop
    have hs2 := hs
    rw [hentry] at hs2
    simp only at hs2
    simp only [Env.ReportAsJson, ObjectModel.ReportAsJson, if_pos hrange, htable, hsplit, hloop,
      if_neg hne, hentry, Bool.false_eq_true, if_false, List.nil_append, and_false, if_true,
      hs2, and_self, true_and, and_true]
  · have hloop := tableLoop_stop _ env this filter E post false [] c hm hs
    have hs2 := hs
    rw [hentry] at hs2
    simp only at hs2
    simp only [Env.ReportAsJson, ObjectModel.ReportAsJson, if_pos hrange, htable, hsplit, hloop,
      if_neg hne, hentry, Bool.false_eq_true, if_false, List.nil_append, and_self]

/-! ## Array elements -/

/-- C6, at an instance: the filter `heaters[1].current` on the root table of
`sampleEnv` selects the entry `heaters` alone. -/
theorem table_report_one_witness :
    (sampleEnv.ReportAsJson 4 0 freshContext 0 "heaters[1].current".toList).out
        = (ObjectModel.ReportItemAsJson sampleEnv 4 0 freshContext (.omadVal 0)
            "[1].current".toList).out
      ∧ (sampleEnv.ReportAsJson 4 0 freshContext 0 "heaters[1].current".toList).out
        = "12.4".toList :=
  ⟨(table_report_one sampleEnv 4 0 freshContext 0 "heaters[1].current".toList []
      [{ name := "upTime".toList, func := fun _ _ => .uVal 77, flags := 0 }]
      { name := "heaters".toList, func := fun _ _ => .omadVal 0, flags := 1 }
      (by decide) (by decide) (by decide) rfl (by decide) (by decide) (by decide)).1,
    by decide⟩

theorem digit_facts {ch : Char} (h : ch.isDigit = true) : ch ≠ ']' ∧ ch ≠ NUL := by
  constructor
  · rintro rfl; revert h; decide
  · rintro rfl; revert h; decide

/-- C9, counterexample.  On `sampleEnv`, whose array of heaters has two
elements, with the filter `[1].current` and a context whose index stack is
full (four counted indices, `MaxIndices` being four), `ReportItemAsJson`
appends nothing and throws `Too many indices`: the index 1 is not pushed, and
the element is not reported (from a context with 1 pushed its report would
append `12.4`). -/
theorem item_array_element_full_stack :
    fullContext.numIndicesCounted = sampleEnv.MaxIndices
      ∧ 1 < (sampleEnv.arrays 0).GetNumElements 0 fullContext.view
      ∧ (ObjectModel.ReportItemAsJson sampleEnv 3 0 fullContext (.omadVal 0)
          "[1].current".toList).out = []
      ∧ (ObjectModel.ReportItemAsJson sampleEnv 3 0 fullContext (.omadVal 0)
          "[1].current".toList).status
          = .thrown (.GCodeException (-1) (-1) "Too many indices")
      ∧ (ObjectModel.ReportItemAsJson sampleEnv 2 0 (fullContext.pushed 1)
          ((sampleEnv.arrays 0).GetElement 0 (fullContext.pushed 1).view)
          ".current".toList).out = "12.4".toList
      ∧ (runOps sampleEnv.MaxIndices
          [.AddIndex 0, .AddIndex 0, .AddIndex 0, .AddIndex 0] freshContext).map
            (fun c => c.view) = some fullContext.view := by
  decide

/-- C9, amended.  For an array of `count` elements and a filter made of an opening
bracket, a decimal numeral that `SafeStrtol` reads as `n`, a closing bracket
and a rest, with `n < count`, and a context whose index stack is not full, so
that `AddIndex` pushes `n`: let `c1` be the context with `n` pushed as its top
index.  `ReportItemAsJson` appends exactly what reporting the element
obtained under `c1` with the filter `rest` appends, without brackets around
it, and ends as that call ends; when that call returns, the context is
restored.  This holds for every `n` below `count`, so for `count - 1`. -/
theorem item_array_element (env : Env) (fuel : Nat) (this : ObjPtr)
    (c c1 : ObjectExplorationContext) (a : ArrPtr) (ds rest : List Char) (n : Nat)
    (hds : ds ≠ []) (hdigits : ∀ ch ∈ ds, ch.isDigit = true)
    (hparse : env.SafeStrtol (ds ++ ']' :: rest) = ((n : Int), ds.length))
    (hn : n < (env.arrays a).GetNumElements this c.view)
    (hpush : c.AddIndex env.MaxIndices n = .ok c1) :
    c1.view.indices = (n : Int) :: c.view.indices
      ∧ (ObjectModel.ReportItemAsJson env (fuel + 1) this c (.omadVal a)
            ('[' :: (ds ++ ']' :: rest))).out
          = (ObjectModel.ReportItemAsJson env fuel this c1
              ((env.arrays a).GetElement this c1.view) rest).out
      ∧ (ObjectModel.ReportItemAsJson env (fuel + 1) this c (.omadVal a)
            ('[' :: (ds ++ ']' :: rest))).status
          = (ObjectModel.ReportItemAsJson env fuel this c1
              ((env.arrays a).GetElement this c1.view) rest).status
      ∧ ((ObjectModel.ReportItemAsJson env fuel this c1
              ((env.arrays a).GetElement this c1.view) rest).status = .done →
          Restored c (ObjectModel.ReportItemAsJson env (fuel + 1) this c (.omadVal a)
            ('[' :: (ds ++ ']' :: rest))).context) := by
  obtain ⟨d, ds2, rfl⟩ := List.exists_cons_of_ne_nil hds
  have hd := digit_facts (hdigits d (List.mem_cons_self _ _))
  have h1 : peek ('[' :: (d :: ds2 ++ ']' :: rest)) = '[' := rfl
  have h2 : peek ('[' :: (d :: ds2 ++ ']' :: rest)).tail ≠ ']' := hd.1
  have hdrop : List.drop (d :: ds2).length (d :: ds2 ++ ']' :: rest) = ']' :: rest :=
    List.drop_left _ _
  have hgood : ¬ ((env.SafeStrtol ('[' :: (d :: ds2 ++ ']' :: rest)).tail).2 = 0
      ∨ peek (('[' :: (d :: ds2 ++ ']' :: rest)).tail.drop
          (env.SafeStrtol ('[' :: (d :: ds2 ++ ']' :: rest)).tail).2) ≠ ']'
      ∨ (env.SafeStrtol ('[' :: (d :: ds2 ++ ']' :: rest)).tail).1 < 0
      ∨ (env.SafeStrtol ('[' :: (d :: ds2 ++ ']' :: rest)).tail).1.toNat
          ≥ (env.arrays a).GetNumElements this c.view) := by
    simp only [List.tail_cons, hparse, hdrop]
    simp only [peek, List.length_cons, Int.toNat_ofNat]
    rintro (h | h | h | h)
    · omega
    · exact h rfl
    · omega
    · omega
  have hbr : decide (peek ('[' :: (d :: ds2 ++ ']' :: rest)).tail = NUL) = false :=
    decide_eq_false hd.2
  have houter := item_array_index env fuel this c a _ h1 h2 hgood
  simp only [List.tail_cons, hparse, hdrop] at houter
  rw [List.tail_cons] at hbr
  rw [hbr] at houter
  refine ⟨?_, ?_⟩
  · rw [view_AddIndex env.MaxIndices c c1 n hpush]
  · by_cases hs : (ObjectModel.ReportItemAsJson env fuel this c1
        ((env.arrays a).GetElement this c1.view) rest).status = .done
    · obtain ⟨c2, hrem, hres⟩ := Restored.push_pop env.MaxIndices c c1 _ _ hpush
        (item_restores env fuel this c1 _ rest hs)
      rw [houter, element_done _ env this c c1 c2 _ _ _ _ hpush hs hrem]
      exact ⟨by simp, hs.symm, fun _ => hres⟩
    · rw [houter, element_stop _ env this c c1 _ _ _ _ hpush hs]
      exact ⟨by simp, rfl, fun h => absurd h hs⟩

/-- C9, amended, at an instance: the last of the two heaters, `[1].current`. -/
theorem item_array_element_witness :
    (ObjectModel.ReportItemAsJson sampleEnv 4 0 freshContext (.omadVal 0)
        "[1].current".toList).out = "12.4".toList
      ∧ (ObjectModel.ReportItemAsJson sampleEnv 4 0 freshContext (.omadVal 0)
        "[1].current".toList).status = .done :=
  ⟨(item_array_element sampleEnv 3 0 freshContext
      { freshContext with indices := Function.update freshContext.indices 0 1
                          numIndicesCounted := 1 }
      0 ['1'] ".current".toList 1 (by decide) (by decide) (by decide) (by decide) rfl).2.1.trans
      (by decide),
    (item_array_element sampleEnv 3 0 freshContext
      { freshContext with indices := Function.update freshContext.indices 0 1
                          numIndicesCounted := 1 }
      0 ['1'] ".current".toList 1 (by decide) (by decide) (by decide) (by decide) rfl).2.2.1.trans
      (by decide)⟩

theorem withGetElement_same (env : Env) (a : ArrPtr)
    (g : ObjPtr → ContextView → ExpressionValue) :
    (env.withGetElement a g).SafeStrtol = env.SafeStrtol
      ∧ ((env.withGetElement a g).arrays a).GetNumElements = (env.arrays a).GetNumElements := by
  simp [Env.withGetElement]

/-- C10.  For an array of `count` elements and a filter that starts with an
opening bracket not followed at once by a closing bracket: if `SafeStrtol`
reads no number after the bracket, or the number is not followed at once by a
closing bracket, or it is negative, or it is `count` or more, then
`ReportItemAsJson` appends exactly `null`, returns and leaves the context as
it was; and it does so whatever the element accessor of the array is, so the
accessor is not consulted. -/
theorem item_array_bad_index (env : Env) (fuel : Nat) (this : ObjPtr)
    (c : ObjectExplorationContext) (a : ArrPtr) (t : List Char)
    (hopen : peek t ≠ ']')
    (hbad : (env.SafeStrtol t).2 = 0 ∨ peek (t.drop (env.SafeStrtol t).2) ≠ ']'
      ∨ (env.SafeStrtol t).1 < 0
      ∨ (env.SafeStrtol t).1.toNat ≥ (env.arrays a).GetNumElements this c.view) :
    ObjectModel.ReportItemAsJson env (fuel + 1) this c (.omadVal a) ('[' :: t)
        = { out := nullText, context := c, status := .done }
      ∧ ∀ g, ObjectModel.ReportItemAsJson (env.withGetElement a g) (fuel + 1) this c
          (.omadVal a) ('[' :: t) = { out := nullText, context := c, status := .done } := by
  refine ⟨item_array_null env fuel this c a ('[' :: t) rfl hopen hbad, ?_⟩
  intro g
  apply item_array_null (env.withGetElement a g) fuel this c a ('[' :: t) rfl hopen
  rw [(withGetElement_same env a g).1, (withGetElement_same env a g).2]
  exact hbad

/-- C10, at instances on the two heaters of `sampleEnv`: the index `2` equals
the count, `-1` is negative, `x` is no number and `1x` is not closed. -/
theorem item_array_bad_index_witness :
    (ObjectModel.ReportItemAsJson sampleEnv 1 0 freshContext (.omadVal 0) "[2]".toList).out
        = nullText
      ∧ (ObjectModel.ReportItemAsJson sampleEnv 1 0 freshContext (.omadVal 0)
          "[-1]".toList).out = nullText
      ∧ (ObjectModel.ReportItemAsJson sampleEnv 1 0 freshContext (.omadVal 0)
          "[x]".toList).out = nullText
      ∧ (ObjectModel.ReportItemAsJson sampleEnv 1 0 freshContext (.omadVal 0)
          "[1x]".toList).out = nullText :=
  ⟨congrArg Outcome.out (item_array_bad_index sampleEnv 0 0 freshContext 0 "2]".toList
      (by decide) (Or.inr (Or.inr (Or.inr (by decide))))).1,
    congrArg Outcome.out (item_array_bad_index sampleEnv 0 0 freshContext 0 "-1]".toList
      (by decide) (Or.inr (Or.inr (Or.inl (by decide))))).1,
    congrArg Outcome.out (item_array_bad_index sampleEnv 0 0 freshContext 0 "x]".toList
      (by decide) (Or.inl (by decide))).1,
    congrArg Outcome.out (item_array_bad_index sampleEnv 0 0 freshContext 0 "1x]".toList
      (by decide) (Or.inr (Or.inl (by decide)))).1⟩

theorem toInt32_of_lt (n : Nat) (h : n < 2147483648) : toInt32 (n : Int) = (n : Int) := by
  unfold toInt32
  omega

/-! ## The whole array -/

theorem AddIndex_pushed (M : Nat) (c : ObjectExplorationContext) (v : Int)
    (h : c.numIndicesCounted ≠ M) : c.AddIndex M v = .ok (c.pushed v) :=
  AddIndex_ok M c v h

/-- One turn of the loop of `ReportArrayAsJson` from a context with the view of
`c`: the element is reported as from `c` with the index pushed, and the next
turn starts from a context with the view of `c` again. -/
theorem arrayLoop_turn (item : ItemReporter) (hcongr : item.Congr) (hres : item.Restores)
    (env : Env) (this : ObjPtr) (omad : ObjectModelArrayDescriptor) (f : List Char)
    (c ck : ObjectExplorationContext) (hck : Restored c ck)
    (hcap : c.numIndicesCounted ≠ env.MaxIndices) (k i : Nat) (out : List Char)
    (hi : i < 2147483648)
    (hs : (item this (c.pushed i) (omad.GetElement this (c.pushed i).view) f).status = .done) :
    ∃ c2, Restored c c2 ∧
      ObjectModel.ReportArrayAsJson.loop item env this omad f (k + 1) i out ck
        = ObjectModel.ReportArrayAsJson.loop item env this omad f k (i + 1)
            ((if i ≠ 0 then out ++ [','] else out)
              ++ (item this (c.pushed i) (omad.GetElement this (c.pushed i).view) f).out) c2 := by
  have hcap2 : ck.numIndicesCounted ≠ env.MaxIndices := by rw [hck.counted]; exact hcap
  have hadd := AddIndex_pushed env.MaxIndices ck (toInt32 i) hcap2
  have hv : (ck.pushed (toInt32 i)).view = (c.pushed i).view := by
    rw [view_AddIndex env.MaxIndices ck _ _ hadd,
      view_AddIndex env.MaxIndices c _ _ (AddIndex_pushed env.MaxIndices c i hcap),
      hck.view_eq, toInt32_of_lt i hi]
  obtain ⟨h1, h2, _⟩ := hcongr this (ck.pushed (toInt32 i)) (c.pushed i)
    (omad.GetElement this (c.pushed i).view) f hv
  have hs2 : (item this (ck.pushed (toInt32 i))
      (omad.GetElement this (ck.pushed (toInt32 i)).view) f).status = .done := by
    rw [hv, h2]; exact hs
  obtain ⟨c2, hrem, hr2⟩ := Restored.push_pop env.MaxIndices ck _ _ _ hadd (hres _ _ _ _ hs2)
  refine ⟨c2, hck.trans hr2, ?_⟩
  rw [arrayLoop_next item env this omad f k i out ck _ c2 hadd hs2 hrem, hv, h1]

/-- The loop of `ReportArrayAsJson` from element `i + 1` on: every element is
preceded by a comma. -/
theorem arrayLoop_rest (item : ItemReporter) (hcongr : item.Congr) (hres : item.Restores)
    (env : Env) (this : ObjPtr) (omad : ObjectModelArrayDescriptor) (f : List Char)
    (c : ObjectExplorationContext) (hcap : c.numIndicesCounted ≠ env.MaxIndices) (k : Nat) :
    ∀ (i : Nat) (out : List Char) (ck : ObjectExplorationContext), Restored c ck →
      i + 1 + k ≤ 2147483648 →
      (∀ j, i < j → j < i + 1 + k →
        (item this (c.pushed j) (omad.GetElement this (c.pushed j).view) f).status = .done) →
      (ObjectModel.ReportArrayAsJson.loop item env this omad f k (i + 1) out ck).status = .done
        ∧ Restored c (ObjectModel.ReportArrayAsJson.loop item env this omad f k (i + 1) out ck).context
        ∧ (ObjectModel.ReportArrayAsJson.loop item env this omad f k (i + 1) out ck).out
            = out ++ ((List.range' (i + 1) k).map (fun (j : Nat) => ',' ::
                (item this (c.pushed j) (omad.GetElement this (c.pushed j).view) f).out)).flatten := by
  induction k with
  | zero =>
    intro i out ck hck _ _
    exact ⟨rfl, hck, by simp [ObjectModel.ReportArrayAsJson.loop]⟩
  | succ k ih =>
    intro i out ck hck hb hs
    obtain ⟨c2, hc2, heq⟩ := arrayLoop_turn item hcongr hres env this omad f c ck hck hcap k
      (i + 1) out (by omega) (hs (i + 1) (by omega) (by omega))
    rw [heq]
    obtain ⟨h1, h2, h3⟩ := ih (i + 1) _ c2 hc2 (by omega)
      (fun j hj1 hj2 => hs j (by omega) (by omega))
    refine ⟨h1, h2, ?_⟩
    rw [h3, if_pos (Nat.succ_ne_zero i)]
    simp [List.range'_succ]

/-- `ReportArrayAsJson` on an array whose elements are reported normally. -/
theorem array_all (item : ItemReporter) (hcongr : item.Congr) (hres : item.Restores)
    (env : Env) (this : ObjPtr) (omad : ObjectModelArrayDescriptor) (f : List Char)
    (c : ObjectExplorationContext)
    (hcap : omad.GetNumElements this c.view ≠ 0 → c.numIndicesCounted ≠ env.MaxIndices)
    (hb : omad.GetNumElements this c.view ≤ 2147483648)
    (hs : ∀ j, j < omad.GetNumElements this c.view →
      (item this (c.pushed j) (omad.GetElement this (c.pushed j).view) f).status = .done) :
    (ObjectModel.ReportArrayAsJson item env this c omad f).status = .done
      ∧ Restored c (ObjectModel.ReportArrayAsJson item env this c omad f).context
      ∧ (ObjectModel.ReportArrayAsJson item env this c omad f).out
          = '[' :: (commaJoin ((List.range (omad.GetNumElements this c.view)).map (fun (j : Nat) =>
              (item this (c.pushed j) (omad.GetElement this (c.pushed j).view) f).out))
              ++ [']']) := by
  cases hn : omad.GetNumElements this c.view with
  | zero =>
    have hA : ObjectModel.ReportArrayAsJson item env this c omad f
        = { out := ['[', ']'], context := c, status := .done } := by
      simp only [ObjectModel.ReportArrayAsJson, hn, ObjectModel.ReportArrayAsJson.loop]
      rfl
    rw [hA]
    exact ⟨rfl, Restored.refl c, rfl⟩
  | succ k =>
    rw [hn] at hb hs
    have hcap2 := hcap (by rw [hn]; exact Nat.succ_ne_zero k)
    obtain ⟨c2, hc2, heq⟩ := arrayLoop_turn item hcongr hres env this omad f c c
      (Restored.refl c) hcap2 k 0 ['['] (by omega) (hs 0 (by omega))
    obtain ⟨h1, h2, h3⟩ := arrayLoop_rest item hcongr hres env this omad f c hcap2 k 0
      ((if 0 ≠ 0 then ['['] ++ [','] else ['['])
        ++ (item this (c.pushed ((0 : Nat) : Int))
        (omad.GetElement this (c.pushed ((0 : Nat) : Int)).view) f).out) c2 hc2 (by omega)
      (fun j _ hj2 => hs j (by omega))
    rw [← heq] at h1 h2 h3
    have hA : ObjectModel.ReportArrayAsJson item env this c omad f
        = { ObjectModel.ReportArrayAsJson.loop item env this omad f (k + 1) 0 ['['] c with
            out := (ObjectModel.ReportArrayAsJson.loop item env this omad f (k + 1) 0 ['['] c).out
              ++ [']'] } := by
      simp only [ObjectModel.ReportArrayAsJson, hn, h1]
    rw [hA]
    refine ⟨h1, h2, ?_⟩
    show (ObjectModel.ReportArrayAsJson.loop item env this omad f (k + 1) 0 ['['] c).out ++ [']']
      = _
    rw [h3, List.range_eq_range', List.range'_succ, List.map_cons, commaJoin_cons, List.map_map]
    simp [Function.comp_def]

/-- C11, counterexample.  When the request asks for array lengths, the output
for the array of the two heaters and the empty remaining filter is the count
`2`, not the bracketed list of the elements. -/
theorem array_length_instead_of_elements :
    (ObjectModel.ReportItemAsJson sampleEnv 5 0
        (ObjectExplorationContext.create (fun _ => 0) [] true) (.omadVal 0) []).out = ['2']
      ∧ (ObjectModel.ReportItemAsJson sampleEnv 5 0
        (ObjectExplorationContext.create (fun _ => 0) [] true) (.omadVal 0) []).out
        ≠ '[' :: (commaJoin ((List.range 2).map (fun (j : Nat) =>
            (ObjectModel.ReportItemAsJson sampleEnv 4 0
              ((ObjectExplorationContext.create (fun _ => 0) [] true).pushed j)
              (heatersArray.GetElement 0
                ((ObjectExplorationContext.create (fun _ => 0) [] true).pushed j).view) []).out))
          ++ [']']) := by
  decide

/-- C11, amended.  For an array value with `count` elements, at most 2^31 of
them, and a remaining filter `"[]" ++ rest`, or an empty remaining filter (with
`rest` empty) in a request that does not ask for array lengths: if the index
stack is not full (or the array is empty) and the report of every element
returns normally, then `ReportItemAsJson` appends exactly `[`, the
comma-joined reports of the elements 0..count-1 in ascending order, and `]`,
where element `i` is obtained and reported with `i` pushed as the top index and
with filter `rest`; the call returns normally and leaves the context restored.
An array of zero elements yields `[]`. -/
theorem array_report_all (env : Env) (fuel : Nat) (this : ObjPtr)
    (c : ObjectExplorationContext) (a : ArrPtr) (f rest : List Char)
    (hf : f = '[' :: ']' :: rest ∨ (f = [] ∧ rest = [] ∧ c.wantArrayLength = false))
    (hcap : (env.arrays a).GetNumElements this c.view ≠ 0 →
      c.numIndicesCounted ≠ env.MaxIndices)
    (hb : (env.arrays a).GetNumElements this c.view ≤ 2147483648)
    (hs : ∀ j : Nat, j < (env.arrays a).GetNumElements this c.view →
      (ObjectModel.ReportItemAsJson env fuel this (c.pushed j)
        ((env.arrays a).GetElement this (c.pushed j).view) rest).status = .done) :
    (ObjectModel.ReportItemAsJson env (fuel + 1) this c (.omadVal a) f).out
        = '[' :: (commaJoin ((List.range ((env.arrays a).GetNumElements this c.view)).map
            (fun (j : Nat) => (ObjectModel.ReportItemAsJson env fuel this (c.pushed j)
              ((env.arrays a).GetElement this (c.pushed j).view) rest).out)) ++ [']'])
      ∧ (ObjectModel.ReportItemAsJson env (fuel + 1) this c (.omadVal a) f).status = .done
      ∧ Restored c (ObjectModel.ReportItemAsJson env (fuel + 1) this c (.omadVal a) f).context
      ∧ ((env.arrays a).GetNumElements this c.view = 0 →
          (ObjectModel.ReportItemAsJson env (fuel + 1) this c (.omadVal a) f).out = ['[', ']']) := by
  have hcall : ObjectModel.ReportItemAsJson env (fuel + 1) this c (.omadVal a) f
      = ObjectModel.ReportArrayAsJson (ObjectModel.ReportItemAsJson env fuel) env this c
          (env.arrays a) rest := by
    rcases hf with rfl | ⟨rfl, rfl, hw⟩
    · exact item_array_all env fuel this c a _ rfl rfl
    · exact item_array_whole env fuel this c a [] hw rfl
  obtain ⟨h1, h2, h3⟩ := array_all (ObjectModel.ReportItemAsJson env fuel) (item_congr env fuel)
    (item_restores env fuel) env this (env.arrays a) rest c hcap hb hs
  rw [hcall]
  refine ⟨h3, h1, h2, ?_⟩
  intro h0
  rw [h3, h0]
  rfl

/-- C11, amended, at an instance: the two heaters under the filter `[].current`. -/
theorem array_report_all_witness :
    (ObjectModel.ReportItemAsJson sampleEnv 4 0 freshContext (.omadVal 0)
        "[].current".toList).out = "[12.3,12.4]".toList :=
  (array_report_all sampleEnv 3 0 freshContext 0 "[].current".toList ".current".toList
    (Or.inl rfl) (fun _ => by decide) (by decide)
    (by
      intro j hj
      have hj2 : j < 2 := hj
      interval_cases j <;> decide)).1.trans (by decide)

/-! ## An array under a field filter -/

/-- C12, on the code.  For an array value and the remaining filter `current`, which is not
empty and does not start with a bracket, `ReportItemAsJson` appends nothing
instead of the array: the root report of `sampleEnv` for the filter
`heaters.current` is the empty text, while `heaters[].current` gives the
current of every heater. -/
theorem array_field_filter_appends_nothing :
    ObjectModel.ReportItemAsJson sampleEnv 4 0 freshContext (.omadVal 0) "current".toList
        = { out := [], context := freshContext, status := .done }
      ∧ (sampleEnv.ReportRootAsJson 4 0 (fun _ => 0) "heaters.current".toList [] false).out = []
      ∧ (sampleEnv.ReportRootAsJson 4 0 (fun _ => 0) "heaters.current".toList [] false).status
          = .done
      ∧ (sampleEnv.ReportRootAsJson 4 0 (fun _ => 0) "heaters[].current".toList [] false).out
          = "[12.3,12.4]".toList := by
  refine ⟨?_, by decide, by decide, by decide⟩
  exact item_array_nothing sampleEnv 3 0 freshContext 0 _ (by decide) (by decide)

/-! ## Unfolding `GetObjectValue` -/

theorem strict_array_length (env : Env) (fuel : Nat) (this : ObjPtr)
    (c : ObjectExplorationContext) (a : ArrPtr) (s : List Char)
    (h : peek s = NUL ∧ c.wantArrayLength = true) :
    ObjectModel.GetObjectValue.ofValue env (fuel + 1) this c (.omadVal a) s
      = { result := .value (.iVal (toInt32 ((env.arrays a).GetNumElements this c.view)))
          context := c } := by
  simp only [ObjectModel.GetObjectValue.ofValue, if_pos h]

theorem strict_array_missing (env : Env) (fuel : Nat) (this : ObjPtr)
    (c : ObjectExplorationContext) (a : ArrPtr) (s : List Char)
    (h1 : ¬ (peek s = NUL ∧ c.wantArrayLength = true)) (h2 : peek s ≠ '^') :
    ObjectModel.GetObjectValue.ofValue env (fuel + 1) this c (.omadVal a) s
      = { result := .thrown (parseError "missing array index"), context := c } := by
  simp only [ObjectModel.GetObjectValue.ofValue, if_neg h1, if_pos h2]

theorem strict_array_caret (env : Env) (fuel : Nat) (this : ObjPtr)
    (c : ObjectExplorationContext) (a : ArrPtr) (rest : List Char) :
    ObjectModel.GetObjectValue.ofValue env (fuel + 1) this c (.omadVal a) ('^' :: rest)
      = ObjectModel.GetObjectValue.element (ObjectModel.GetObjectValue.ofValue env fuel) this c
          (env.arrays a) rest := by
  have h1 : ¬ (peek ('^' :: rest) = NUL ∧ c.wantArrayLength = true) := by
    rintro ⟨h, _⟩; revert h; simp only [peek]; decide
  have h2 : ¬ (peek ('^' :: rest) ≠ '^') := by simp [peek]
  simp only [ObjectModel.GetObjectValue.ofValue, if_neg h1, if_neg h2, List.tail_cons]

theorem strict_object_dot (env : Env) (fuel : Nat) (this : ObjPtr)
    (c : ObjectExplorationContext) (p : ObjPtr) (param : Nat) (s : List Char)
    (h : peek s = '.') :
    ObjectModel.GetObjectValue.ofValue env (fuel + 1) this c (.omVal (some p) param) s
      = ObjectModel.GetObjectValue (ObjectModel.GetObjectValue.ofValue env fuel) env p c s.tail
          (param % 256) := by
  simp only [ObjectModel.GetObjectValue.ofValue, if_pos h]

theorem strict_object_null (env : Env) (fuel : Nat) (this : ObjPtr)
    (c : ObjectExplorationContext) (param : Nat) (s : List Char) (h : peek s = '.') :
    ObjectModel.GetObjectValue.ofValue env (fuel + 1) this c (.omVal none param) s
      = { result := .undefined, context := c } := by
  simp only [ObjectModel.GetObjectValue.ofValue, if_pos h]

theorem strict_object_other (env : Env) (fuel : Nat) (this : ObjPtr)
    (c : ObjectExplorationContext) (om : Option ObjPtr) (param : Nat) (s : List Char)
    (h : peek s ≠ '.') :
    ObjectModel.GetObjectValue.ofValue env (fuel + 1) this c (.omVal om param) s
      = { result := .thrown (parseError
            (if peek s = NUL then "selected value has non-primitive type"
              else "syntax error in value selector string"))
          context := c } := by
  simp only [ObjectModel.GetObjectValue.ofValue, if_neg h]

theorem strict_primitive (env : Env) (fuel : Nat) (this : ObjPtr)
    (c : ObjectExplorationContext) (v : ExpressionValue) (s : List Char)
    (hv : v.isPrimitive = true) :
    ObjectModel.GetObjectValue.ofValue env (fuel + 1) this c v s
      = if peek s = NUL then { result := .value v, context := c }
        else { result := .thrown
                (parseError "reached primitive type before end of selector string")
               context := c } := by
  cases v <;> first
    | (simp [ExpressionValue.isPrimitive] at hv; done)
    | simp only [ObjectModel.GetObjectValue.ofValue]

theorem AddProvidedIndex_ok (c : ObjectExplorationContext)
    (h : c.numIndicesCounted ≠ c.numIndicesProvided) : c.AddProvidedIndex = .ok c.stepped := by
  simp only [ObjectExplorationContext.AddProvidedIndex, if_neg h,
    ObjectExplorationContext.stepped]

theorem AddProvidedIndex_error (c : ObjectExplorationContext)
    (h : c.numIndicesCounted = c.numIndicesProvided) :
    c.AddProvidedIndex = .error .InternalError := by
  simp only [ObjectExplorationContext.AddProvidedIndex, if_pos h]

theorem stepped_last (c : ObjectExplorationContext) :
    c.stepped.GetLastIndex = .ok (c.indices c.numIndicesCounted) := by
  simp [ObjectExplorationContext.GetLastIndex, ObjectExplorationContext.stepped]

theorem stepped_view (c : ObjectExplorationContext) :
    c.stepped.view = { c.view with indices := c.indices c.numIndicesCounted :: c.view.indices } := by
  simp [ObjectExplorationContext.view, ObjectExplorationContext.stepped, List.range_succ]

/-- The array step of strict evaluation when a provided index is left: the
index read is the one in the slot of the counted cursor. -/
theorem strict_element_step (getter : ValueGetter) (this : ObjPtr)
    (c : ObjectExplorationContext) (omad : ObjectModelArrayDescriptor) (rest : List Char)
    (h : c.numIndicesCounted ≠ c.numIndicesProvided) :
    ObjectModel.GetObjectValue.element getter this c omad rest
      = if c.indices c.numIndicesCounted < 0
            ∨ (c.indices c.numIndicesCounted).toNat ≥ omad.GetNumElements this c.stepped.view then
          { result := .thrown (parseError "array index out of bounds"), context := c.stepped }
        else getter this c.stepped (omad.GetElement this c.stepped.view) rest := by
  simp only [ObjectModel.GetObjectValue.element, AddProvidedIndex_ok c h, stepped_last]

theorem strict_element_none (getter : ValueGetter) (this : ObjPtr)
    (c : ObjectExplorationContext) (omad : ObjectModelArrayDescriptor) (rest : List Char)
    (h : c.numIndicesCounted = c.numIndicesProvided) :
    ObjectModel.GetObjectValue.element getter this c omad rest
      = { result := .thrown .InternalError, context := c } := by
  simp only [ObjectModel.GetObjectValue.element, AddProvidedIndex_error c h]

/-! ## The length of an array on request -/

/-- C13.  With `wantArrayLength` set and the selector fully consumed: for an
array of `k` elements, tolerant `ReportItemAsJson` appends exactly the decimal
text of `k` and strict `GetObjectValue` returns the `int32_t` conversion of `k`,
which is `Int32 k` whenever `k` is below 2^31; for a value that is not an
array, tolerant `ReportItemAsJson` appends exactly `null`.  Both leave the
context as it was. -/
theorem array_length_on_request (env : Env) (fuel : Nat) (this : ObjPtr)
    (c : ObjectExplorationContext) (f : List Char)
    (hw : c.wantArrayLength = true) (hf : peek f = NUL) :
    (∀ a, ObjectModel.ReportItemAsJson env (fuel + 1) this c (.omadVal a) f
        = { out := formatUnsigned ((env.arrays a).GetNumElements this c.view)
            context := c, status := .done })
      ∧ (∀ a, ObjectModel.GetObjectValue.ofValue env (fuel + 1) this c (.omadVal a) f
        = { result := .value (.iVal (toInt32 ((env.arrays a).GetNumElements this c.view)))
            context := c })
      ∧ (∀ a, (env.arrays a).GetNumElements this c.view < 2147483648 →
          ObjectModel.GetObjectValue.ofValue env (fuel + 1) this c (.omadVal a) f
            = { result := .value (.iVal ((env.arrays a).GetNumElements this c.view))
                context := c })
      ∧ (∀ v, (∀ a, v ≠ .omadVal a) →
          ObjectModel.ReportItemAsJson env (fuel + 1) this c v f
            = { out := nullText, context := c, status := .done }) := by
  have hwf : c.wantArrayLength = true ∧ peek f = NUL := ⟨hw, hf⟩
  refine ⟨?_, ?_, ?_, ?_⟩
  · intro a
    simp only [ObjectModel.ReportItemAsJson, if_pos hwf]
  · intro a
    exact strict_array_length env fuel this c a f ⟨hf, hw⟩
  · intro a hk
    rw [strict_array_length env fuel this c a f ⟨hf, hw⟩, toInt32_of_lt _ hk]
  · intro v hv
    cases v with
    | omadVal a => exact absurd rfl (hv a)
    | _ => simp only [ObjectModel.ReportItemAsJson, if_pos hwf]

/-- C13, at an instance: the two heaters of `sampleEnv` with the length wanted. -/
theorem array_length_on_request_witness :
    (ObjectModel.ReportItemAsJson sampleEnv 1 0 (providedContext [] true) (.omadVal 0) []).out
        = ['2']
      ∧ (ObjectModel.GetObjectValue.ofValue sampleEnv 1 0 (providedContext [] true)
          (.omadVal 0) []).result = .value (.iVal 2)
      ∧ (ObjectModel.ReportItemAsJson sampleEnv 1 0 (providedContext [] true) (.uVal 7) []).out
        = nullText :=
  ⟨congrArg Outcome.out
      ((array_length_on_request sampleEnv 0 0 (providedContext [] true) [] rfl rfl).1 0),
    congrArg StrictOutcome.result
      ((array_length_on_request sampleEnv 0 0 (providedContext [] true) [] rfl rfl).2.2.1 0
        (by decide)),
    congrArg Outcome.out
      ((array_length_on_request sampleEnv 0 0 (providedContext [] true) [] rfl rfl).2.2.2
        (.uVal 7) (by intro a h; cases h))⟩

/-! ## What the tolerant path can raise -/

theorem Status.noexcept_not_thrown (s : Status) (ex : Exception) : s.noexcept ≠ .thrown ex := by
  cases s <;> simp [Status.noexcept]

theorem Status.calm_noexcept {s : Status} (h : s.calm) : s.noexcept.calm := by
  rcases h with rfl | rfl
  · exact Or.inl rfl
  · exact Or.inr rfl

/-- Nothing is thrown out of the loop over the entries of a table: the entries
are reported by a `noexcept` function. -/
theorem tableLoop_not_thrown (item : ItemReporter) (env : Env) (this : ObjPtr) (f : List Char)
    (ex : Exception) (es : List ObjectModelTableEntry) :
    ∀ (added : Bool) (out : List Char) (c : ObjectExplorationContext),
      (ObjectModel.ReportAsJson.loop item env this f es added out c).2.status ≠ .thrown ex := by
  induction es with
  | nil => intro added out c h; cases h
  | cons e rest ih =>
    intro added out c
    cases hm : e.Matches env f c with
    | false =>
      rw [tableLoop_skip item env this f e rest added out c hm]
      exact ih _ _ _
    | true =>
      by_cases hs : (e.ReportAsJson item c this f).status = .done
      · rw [tableLoop_done item env this f e rest added out c hm hs]
        exact ih _ _ _
      · rw [tableLoop_stop item env this f e rest added out c hm hs]
        exact Status.noexcept_not_thrown _ ex

theorem table_status (item : ItemReporter) (env : Env) (this : ObjPtr)
    (c : ObjectExplorationContext) (t : Nat) (f : List Char) :
    (ObjectModel.ReportAsJson item env this c t f).status = .done
      ∨ (ObjectModel.ReportAsJson item env this c t f).status
          = (ObjectModel.ReportAsJson.loop item env this f ((env.objects this).table t)
              false [] c).2.status := by
  by_cases hr : t < (env.objects this).descriptor.getD 0 0
  · by_cases hs : (ObjectModel.ReportAsJson.loop item env this f ((env.objects this).table t)
        false [] c).2.status = .done
    · left
      simp only [ObjectModel.ReportAsJson, if_pos hr, hs]
    · right
      simp only [ObjectModel.ReportAsJson, if_pos hr]
  · left
    simp only [ObjectModel.ReportAsJson, if_neg hr]

/-- Table-level `ReportAsJson` throws nothing. -/
theorem table_not_thrown (item : ItemReporter) (env : Env) (this : ObjPtr)
    (c : ObjectExplorationContext) (t : Nat) (f : List Char) (ex : Exception) :
    (ObjectModel.ReportAsJson item env this c t f).status ≠ .thrown ex := by
  rcases table_status item env this c t f with h | h
  · rw [h]; simp
  · rw [h]; exact tableLoop_not_thrown item env this f ex _ _ _ _

theorem tableLoop_calm (item : ItemReporter) (hres : item.Restores) (n : Nat)
    (hcalm : item.CalmUpTo n) (env : Env) (this : ObjPtr) (f : List Char)
    (es : List ObjectModelTableEntry) :
    ∀ (added : Bool) (out : List Char) (c : ObjectExplorationContext),
      c.numIndicesCounted ≤ n →
      (ObjectModel.ReportAsJson.loop item env this f es added out c).2.status.calm := by
  induction es with
  | nil => intro added out c _; exact Or.inl rfl
  | cons e rest ih =>
    intro added out c hc
    cases hm : e.Matches env f c with
    | false =>
      rw [tableLoop_skip item env this f e rest added out c hm]
      exact ih _ _ _ hc
    | true =>
      by_cases hs : (e.ReportAsJson item c this f).status = .done
      · rw [tableLoop_done item env this f e rest added out c hm hs]
        apply ih
        rw [(entry_restores item hres e c this f hs).counted]
        exact hc
      · rw [tableLoop_stop item env this f e rest added out c hm hs]
        exact Status.calm_noexcept (hcalm _ _ _ _ hc)

theorem table_calm (item : ItemReporter) (hres : item.Restores) (n : Nat)
    (hcalm : item.CalmUpTo n) (env : Env) (this : ObjPtr) (c : ObjectExplorationContext)
    (t : Nat) (f : List Char) (hc : c.numIndicesCounted ≤ n) :
    (ObjectModel.ReportAsJson item env this c t f).status.calm := by
  rcases table_status item env this c t f with h | h
  · exact Or.inl h
  · rw [h]; exact tableLoop_calm item hres n hcalm env this f _ _ _ _ hc

theorem arrayLoop_calm (item : ItemReporter) (hres : item.Restores) (n : Nat)
    (hcalm : item.CalmUpTo (n + 1)) (env : Env) (hn : n < env.MaxIndices) (this : ObjPtr)
    (omad : ObjectModelArrayDescriptor) (f : List Char) (k : Nat) :
    ∀ (i : Nat) (out : List Char) (c : ObjectExplorationContext), c.numIndicesCounted ≤ n →
      (ObjectModel.ReportArrayAsJson.loop item env this omad f k i out c).status.calm := by
  induction k with
  | zero => intro i out c _; exact Or.inl rfl
  | succ k ih =>
    intro i out c hc
    have hadd := AddIndex_pushed env.MaxIndices c (toInt32 i) (by omega)
    have hcalm1 := hcalm this (c.pushed (toInt32 i))
      (omad.GetElement this (c.pushed (toInt32 i)).view) f
      (show c.numIndicesCounted + 1 ≤ n + 1 by omega)
    by_cases hs : (item this (c.pushed (toInt32 i))
      (omad.GetElement this (c.pushed (toInt32 i)).view) f).status = .done
    · obtain ⟨c2, hrem, hr2⟩ := Restored.push_pop env.MaxIndices c _ _ _ hadd (hres _ _ _ _ hs)
      rw [arrayLoop_next item env this omad f k i out c _ c2 hadd hs hrem]
      apply ih
      rw [hr2.counted]
      exact hc
    · rw [arrayLoop_stop item env this omad f k i out c _ hadd hs]
      exact hcalm1

theorem array_calm (item : ItemReporter) (hres : item.Restores) (n : Nat)
    (hcalm : item.CalmUpTo (n + 1)) (env : Env) (hn : n < env.MaxIndices) (this : ObjPtr)
    (c : ObjectExplorationContext) (omad : ObjectModelArrayDescriptor) (f : List Char)
    (hc : c.numIndicesCounted ≤ n) :
    (ObjectModel.ReportArrayAsJson item env this c omad f).status.calm := by
  have h := arrayLoop_calm item hres n hcalm env hn this omad f
    (omad.GetNumElements this c.view) 0 ['['] c hc
  by_cases hs : (ObjectModel.ReportArrayAsJson.loop item env this omad f
      (omad.GetNumElements this c.view) 0 ['['] c).status = .done
  · left
    simp only [ObjectModel.ReportArrayAsJson, hs]
  · have hst : (ObjectModel.ReportArrayAsJson item env this c omad f).status
        = (ObjectModel.ReportArrayAsJson.loop item env this omad f
            (omad.GetNumElements this c.view) 0 ['['] c).status := by
      simp only [ObjectModel.ReportArrayAsJson]
    rw [hst]; exact h

theorem element_calm (item : ItemReporter) (hres : item.Restores) (n : Nat)
    (hcalm : item.CalmUpTo (n + 1)) (env : Env) (hn : n < env.MaxIndices) (this : ObjPtr)
    (c : ObjectExplorationContext) (omad : ObjectModelArrayDescriptor) (index : Int)
    (bracket : Bool) (rest : List Char) (hc : c.numIndicesCounted ≤ n) :
    (ObjectModel.ReportItemAsJson.element item env this c omad index bracket rest).status.calm := by
  have hadd := AddIndex_pushed env.MaxIndices c index (by omega)
  have hcalm1 := hcalm this (c.pushed index) (omad.GetElement this (c.pushed index).view) rest
    (show c.numIndicesCounted + 1 ≤ n + 1 by omega)
  by_cases hs : (item this (c.pushed index)
    (omad.GetElement this (c.pushed index).view) rest).status = .done
  · obtain ⟨c2, hrem, _⟩ := Restored.push_pop env.MaxIndices c _ _ _ hadd (hres _ _ _ _ hs)
    rw [element_done item env this c _ c2 omad index bracket rest hadd hs hrem]
    exact Or.inl rfl
  · rw [element_stop item env this c _ omad index bracket rest hadd hs]
    exact hcalm1

/-- Within a nesting bound that the index stack can hold, `ReportItemAsJson`
raises nothing. -/
theorem item_calm (env : Env) :
    ∀ (fuel n : Nat), n + fuel ≤ env.MaxIndices →
      (ObjectModel.ReportItemAsJson env fuel).CalmUpTo n := by
  intro fuel
  induction fuel with
  | zero =>
    intro n _ this c v f _
    exact Or.inr rfl
  | succ fuel ih =>
    intro n hn this c v f hc
    by_cases hl : (c.wantArrayLength = true ∧ peek f = NUL) ∨ v.isLeaf = true
    · exact Or.inl (item_leaf env fuel this c v f hl).2
    · have hw : ¬ (c.wantArrayLength = true ∧ peek f = NUL) := fun hw => hl (Or.inl hw)
      have hleaf : ¬ v.isLeaf = true := fun h2 => hl (Or.inr h2)
      cases v with
      | omadVal a =>
        have hin := ih (n + 1) (by omega)
        by_cases h1 : peek f = '['
        · by_cases h2 : peek f.tail = ']'
          · rw [item_array_all env fuel this c a f h1 h2]
            exact array_calm _ (item_restores env fuel) n hin env (by omega) this c _ _ hc
          · by_cases hbad : (env.SafeStrtol f.tail).2 = 0
                ∨ peek (f.tail.drop (env.SafeStrtol f.tail).2) ≠ ']'
                ∨ (env.SafeStrtol f.tail).1 < 0
                ∨ (env.SafeStrtol f.tail).1.toNat ≥ (env.arrays a).GetNumElements this c.view
            · rw [item_array_null env fuel this c a f h1 h2 hbad]
              exact Or.inl rfl
            · rw [item_array_index env fuel this c a f h1 h2 hbad]
              exact element_calm _ (item_restores env fuel) n hin env (by omega) this c _ _ _ _ hc
        · by_cases h0 : peek f = NUL
          · have hwal : c.wantArrayLength = false := by
              cases hb : c.wantArrayLength with
              | false => rfl
              | true => exact absurd ⟨hb, h0⟩ hw
            rw [item_array_whole env fuel this c a f hwal h0]
            exact array_calm _ (item_restores env fuel) n hin env (by omega) this c _ _ hc
          · rw [item_array_nothing env fuel this c a f h0 h1]
            exact Or.inl rfl
      | omVal om param =>
        cases om with
        | none => exact absurd rfl hleaf
        | some p =>
          rw [item_object env fuel this c p param f hw]
          exact table_calm _ (item_restores env fuel) n (ih n (by omega)) env p c _ _ hc
      | _ => exact absurd rfl hleaf

theorem parseFlags_counted (reportFlags : List Char) :
    ∀ c : ObjectExplorationContext,
      (ObjectExplorationContext.parseFlags reportFlags c).numIndicesCounted
        = c.numIndicesCounted := by
  induction reportFlags with
  | nil => intro c; rfl
  | cons ch rest ih =>
    intro c
    simp only [ObjectExplorationContext.parseFlags]
    split
    · rfl
    · split
      · exact ih _
      · split
        · exact ih _
        · split
          · exact ih _
          · exact ih _

theorem create_counted (garbage : Nat → Int) (reportFlags : List Char) (wal : Bool) :
    (ObjectExplorationContext.create garbage reportFlags wal).numIndicesCounted = 0 :=
  parseFlags_counted reportFlags _

theorem table_fuel_mono (env : Env) (fuel k : Nat) (this : ObjPtr)
    (c : ObjectExplorationContext) (t : Nat) (f : List Char)
    (h : (env.ReportAsJson fuel this c t f).status ≠ .outOfFuel) :
    env.ReportAsJson (fuel + k) this c t f = env.ReportAsJson fuel this c t f :=
  table_extends _ _ (fun this c v f h2 => item_fuel_mono env fuel k this c v f h2) env this c t f h

theorem Status.doneOr_noexcept {deeper : Prop} {s : Status} (h : s.doneOr deeper) :
    s.noexcept.doneOr deeper := by
  rcases h with rfl | ⟨hd, rfl⟩
  · exact Or.inl rfl
  · exact Or.inr ⟨hd, rfl⟩

theorem Status.doneOr_false {s : Status} (h : s.doneOr False) : s = .done :=
  h.resolve_right (fun h2 => h2.1)

theorem Status.doneOr_true {s : Status} (h : s.doneOr True) (hs : s ≠ .outOfFuel) : s = .done :=
  h.resolve_right (fun h2 => hs h2.2)

theorem tableLoop_fit (item : ItemReporter) (hres : item.Restores) (deeper : Prop) (env : Env)
    (this : ObjPtr) (f : List Char) (n : Nat) (es : List ObjectModelTableEntry)
    (hitem : ∀ e ∈ es, ∀ c f2, c.numIndicesCounted = n →
      (item this c (e.func this c.view) f2).status.doneOr deeper) :
    ∀ (added : Bool) (out : List Char) (c : ObjectExplorationContext),
      c.numIndicesCounted = n →
      (ObjectModel.ReportAsJson.loop item env this f es added out c).2.status.doneOr deeper := by
  induction es with
  | nil => intro added out c _; exact Or.inl rfl
  | cons e rest ih =>
    intro added out c hc
    have ih2 := ih (fun x hx => hitem x (List.mem_cons_of_mem _ hx))
    cases hm : e.Matches env f c with
    | false =>
      rw [tableLoop_skip item env this f e rest added out c hm]
      exact ih2 _ _ _ hc
    | true =>
      by_cases hs : (e.ReportAsJson item c this f).status = .done
      · rw [tableLoop_done item env this f e rest added out c hm hs]
        apply ih2
        rw [(entry_restores item hres e c this f hs).counted]
        exact hc
      · rw [tableLoop_stop item env this f e rest added out c hm hs]
        exact Status.doneOr_noexcept (hitem e (List.mem_cons_self _ _) c _ hc)

theorem table_fit (item : ItemReporter) (hres : item.Restores) (deeper : Prop) (env : Env)
    (this : ObjPtr) (c : ObjectExplorationContext) (t : Nat) (f : List Char)
    (hitem : ∀ e ∈ (env.objects this).table t, ∀ c2 f2,
      c2.numIndicesCounted = c.numIndicesCounted →
      (item this c2 (e.func this c2.view) f2).status.doneOr deeper) :
    (ObjectModel.ReportAsJson item env this c t f).status.doneOr deeper := by
  rcases table_status item env this c t f with h | h
  · exact Or.inl h
  · rw [h]; exact tableLoop_fit item hres deeper env this f _ _ hitem _ _ _ rfl

theorem arrayLoop_fit (item : ItemReporter) (hres : item.Restores) (deeper : Prop) (env : Env)
    (this : ObjPtr) (omad : ObjectModelArrayDescriptor) (f : List Char) (n : Nat)
    (hn : n < env.MaxIndices)
    (hitem : ∀ c, c.numIndicesCounted = n + 1 →
      (item this c (omad.GetElement this c.view) f).status.doneOr deeper) (k : Nat) :
    ∀ (i : Nat) (out : List Char) (c : ObjectExplorationContext), c.numIndicesCounted = n →
      (ObjectModel.ReportArrayAsJson.loop item env this omad f k i out c).status.doneOr deeper := by
  induction k with
  | zero => intro i out c _; exact Or.inl rfl
  | succ k ih =>
    intro i out c hc
    have hadd := AddIndex_pushed env.MaxIndices c (toInt32 i) (by omega)
    have h1 := hitem (c.pushed (toInt32 i))
      (show c.numIndicesCounted + 1 = n + 1 by omega)
    by_cases hs : (item this (c.pushed (toInt32 i))
      (omad.GetElement this (c.pushed (toInt32 i)).view) f).status = .done
    · obtain ⟨c2, hrem, hr2⟩ := Restored.push_pop env.MaxIndices c _ _ _ hadd (hres _ _ _ _ hs)
      rw [arrayLoop_next item env this omad f k i out c _ c2 hadd hs hrem]
      apply ih
      rw [hr2.counted]
      exact hc
    · rw [arrayLoop_stop item env this omad f k i out c _ hadd hs]
      exact h1

theorem array_status (item : ItemReporter) (env : Env) (this : ObjPtr)
    (c : ObjectExplorationContext) (omad : ObjectModelArrayDescriptor) (f : List Char) :
    (ObjectModel.ReportArrayAsJson item env this c omad f).status
      = (ObjectModel.ReportArrayAsJson.loop item env this omad f
          (omad.GetNumElements this c.view) 0 ['['] c).status := by
  by_cases hs : (ObjectModel.ReportArrayAsJson.loop item env this omad f
      (omad.GetNumElements this c.view) 0 ['['] c).status = .done
  · simp only [ObjectModel.ReportArrayAsJson, hs]
  · simp only [ObjectModel.ReportArrayAsJson]

theorem array_fit (item : ItemReporter) (hres : item.Restores) (deeper : Prop) (env : Env)
    (this : ObjPtr) (c : ObjectExplorationContext) (omad : ObjectModelArrayDescriptor)
    (f : List Char)
    (hfit : omad.GetNumElements this c.view = 0
      ∨ (c.numIndicesCounted < env.MaxIndices ∧ ∀ c2,
          c2.numIndicesCounted = c.numIndicesCounted + 1 →
          (item this c2 (omad.GetElement this c2.view) f).status.doneOr deeper)) :
    (ObjectModel.ReportArrayAsJson item env this c omad f).status.doneOr deeper := by
  rw [array_status]
  rcases hfit with h0 | ⟨hn, hitem⟩
  · rw [h0]
    exact Or.inl rfl
  · exact arrayLoop_fit item hres deeper env this omad f _ hn hitem _ _ _ _ rfl

theorem element_fit (item : ItemReporter) (hres : item.Restores) (deeper : Prop) (env : Env)
    (this : ObjPtr) (c : ObjectExplorationContext) (omad : ObjectModelArrayDescriptor)
    (index : Int) (bracket : Bool) (rest : List Char)
    (hn : c.numIndicesCounted < env.MaxIndices)
    (hitem : ∀ c2, c2.numIndicesCounted = c.numIndicesCounted + 1 →
      (item this c2 (omad.GetElement this c2.view) rest).status.doneOr deeper) :
    (ObjectModel.ReportItemAsJson.element item env this c omad index bracket rest).status.doneOr
      deeper := by
  have hadd := AddIndex_pushed env.MaxIndices c index (by omega)
  have h1 := hitem (c.pushed index) rfl
  by_cases hs : (item this (c.pushed index)
    (omad.GetElement this (c.pushed index).view) rest).status = .done
  · obtain ⟨c2, hrem, _⟩ := Restored.push_pop env.MaxIndices c _ _ _ hadd (hres _ _ _ _ hs)
    rw [element_done item env this c _ c2 omad index bracket rest hadd hs hrem]
    exact Or.inl rfl
  · rw [element_stop item env this c _ omad index bracket rest hadd hs]
    exact h1

/-- On a graph of values whose arrays fit the index stack, `ReportItemAsJson`
returns normally, or reaches the bound on the nesting depth when values may
lie deeper. -/
theorem item_fit (env : Env) (deeper : Prop) :
    ∀ (fuel n : Nat) (this : ObjPtr) (c : ObjectExplorationContext) (v : ExpressionValue)
      (f : List Char), c.numIndicesCounted = n → env.ArraysFit deeper fuel n this v →
      (ObjectModel.ReportItemAsJson env fuel this c v f).status.doneOr deeper := by
  intro fuel
  induction fuel with
  | zero =>
    intro n this c v f _ hfit
    exact Or.inr ⟨by simpa only [Env.ArraysFit] using hfit, rfl⟩
  | succ fuel ih =>
    intro n this c v f hc hfit
    by_cases hl : (c.wantArrayLength = true ∧ peek f = NUL) ∨ v.isLeaf = true
    · exact Or.inl (item_leaf env fuel this c v f hl).2
    · have hw : ¬ (c.wantArrayLength = true ∧ peek f = NUL) := fun hw => hl (Or.inl hw)
      have hleaf : ¬ v.isLeaf = true := fun h2 => hl (Or.inr h2)
      cases v with
      | omadVal a =>
        simp only [Env.ArraysFit] at hfit
        have hview : c.view.indices.length = n := by rw [view_length]; exact hc
        have harr : ∀ g : List Char,
            (env.arrays a).GetNumElements this c.view = 0
            ∨ (c.numIndicesCounted < env.MaxIndices ∧ ∀ c2,
                c2.numIndicesCounted = c.numIndicesCounted + 1 →
                (ObjectModel.ReportItemAsJson env fuel this c2
                  ((env.arrays a).GetElement this c2.view) g).status.doneOr deeper) := by
          intro g
          rcases hfit with h0 | ⟨hn, hel⟩
          · exact Or.inl (h0 _ hview)
          · refine Or.inr ⟨by omega, fun c2 hc2 => ?_⟩
            exact ih (n + 1) this c2 _ g (by omega)
              (hel c2.view (by rw [view_length]; omega))
        by_cases h1 : peek f = '['
        · by_cases h2 : peek f.tail = ']'
          · rw [item_array_all env fuel this c a f h1 h2]
            exact array_fit _ (item_restores env fuel) deeper env this c _ _ (harr _)
          · by_cases hbad : (env.SafeStrtol f.tail).2 = 0
                ∨ peek (f.tail.drop (env.SafeStrtol f.tail).2) ≠ ']'
                ∨ (env.SafeStrtol f.tail).1 < 0
                ∨ (env.SafeStrtol f.tail).1.toNat ≥ (env.arrays a).GetNumElements this c.view
            · rw [item_array_null env fuel this c a f h1 h2 hbad]
              exact Or.inl rfl
            · rw [item_array_index env fuel this c a f h1 h2 hbad]
              rcases harr ((f.tail.drop (env.SafeStrtol f.tail).2).tail) with h0 | ⟨hn, hel⟩
              · exact absurd (Or.inr (Or.inr (Or.inr (by rw [h0]; exact Nat.zero_le _)))) hbad
              · exact element_fit _ (item_restores env fuel) deeper env this c _ _ _ _ hn hel
        · by_cases h0 : peek f = NUL
          · have hwal : c.wantArrayLength = false := by
              cases hb : c.wantArrayLength with
              | false => rfl
              | true => exact absurd ⟨hb, h0⟩ hw
            rw [item_array_whole env fuel this c a f hwal h0]
            exact array_fit _ (item_restores env fuel) deeper env this c _ _ (harr _)
          · rw [item_array_nothing env fuel this c a f h0 h1]
            exact Or.inl rfl
      | omVal om param =>
        cases om with
        | none => exact absurd rfl hleaf
        | some p =>
          simp only [Env.ArraysFit] at hfit
          rw [item_object env fuel this c p param f hw]
          apply table_fit _ (item_restores env fuel) deeper env p c
          intro e he c2 f2 hc2
          exact ih n p c2 _ f2 (by omega) (hfit e he c2.view (by rw [view_length]; omega))
      | _ => exact absurd rfl hleaf

theorem root_fit (env : Env) (deeper : Prop) (fuel : Nat) (this : ObjPtr) (garbage : Nat → Int)
    (filter reportFlags : List Char) (wal : Bool)
    (hfit : env.ArraysFit deeper (fuel + 1) 0 this (.omVal (some this) 0)) :
    (env.ReportRootAsJson fuel this garbage filter reportFlags wal).status.doneOr deeper := by
  simp only [Env.ArraysFit, Nat.zero_mod] at hfit
  apply table_fit _ (item_restores env fuel) deeper env this
  intro e he c2 f2 hc2
  rw [create_counted] at hc2
  exact item_fit env deeper fuel 0 this c2 _ f2 hc2 (hfit e he c2.view (by rw [view_length, hc2]))

/-- C14, counterexample.  On a schema whose arrays nest deeper than the index
stack holds, the root `ReportAsJson` does not complete.  `AddIndex`
throws `Too many indices`, and the exception ends the program at the `noexcept`
boundary of the entry's `ReportAsJson`. -/
theorem root_report_too_deep :
    (nestEnv.ReportRootAsJson 10 0 (fun _ => 0) [] [] false).status = .terminated
      ∧ (nestEnv.ReportRootAsJson 10 0 (fun _ => 0) "nest[0][0][0][0][0]".toList [] false).status
          = .terminated
      ∧ (ObjectModel.ReportItemAsJson nestEnv 10 0 freshContext (.omadVal 0) []).status
          = .thrown (.GCodeException (-1) (-1) "Too many indices") := by
  decide

/-- C14, amended.  The root `ReportAsJson` (fresh context) lets no exception
escape, for every schema, value graph, filter string and report flags.  It
completes whenever the arrays of the value graph fit the index stack, however
deep objects and scalars nest: if below the root no value lies deeper than
`fuel` levels and every array that can have elements has fewer than
`MaxIndices` arrays around it, the run returns normally within every nesting
bound from `fuel` on; if the arrays fit down to level `fuel` and the run within
the bound `fuel` does not need a deeper nesting, it returns normally, and so
does the run within every greater bound.  The same holds without a condition
on the arrays for a run within a nesting bound of at most `MaxIndices`.
(Arrays nested deeper can end the program instead.) -/
theorem root_report_never_throws (env : Env) (fuel : Nat) (this : ObjPtr) (garbage : Nat → Int)
    (filter reportFlags : List Char) (wal : Bool) :
    (∀ ex, (env.ReportRootAsJson fuel this garbage filter reportFlags wal).status ≠ .thrown ex)
      ∧ (env.ArraysFit False (fuel + 1) 0 this (.omVal (some this) 0) →
          ∀ k, (env.ReportRootAsJson (fuel + k) this garbage filter reportFlags wal).status
            = .done)
      ∧ (env.ArraysFit True (fuel + 1) 0 this (.omVal (some this) 0) →
          (env.ReportRootAsJson fuel this garbage filter reportFlags wal).status ≠ .outOfFuel →
          ∀ k, (env.ReportRootAsJson (fuel + k) this garbage filter reportFlags wal).status
            = .done)
      ∧ (fuel ≤ env.MaxIndices →
          (env.ReportRootAsJson fuel this garbage filter reportFlags wal).status ≠ .outOfFuel →
          ∀ k, (env.ReportRootAsJson (fuel + k) this garbage filter reportFlags wal).status
            = .done) := by
  have hmono : (env.ReportRootAsJson fuel this garbage filter reportFlags wal).status = .done →
      ∀ k, (env.ReportRootAsJson (fuel + k) this garbage filter reportFlags wal).status
        = .done := by
    intro hd k
    have hne : (env.ReportRootAsJson fuel this garbage filter reportFlags wal).status
        ≠ .outOfFuel := by
      rw [hd]
      exact fun h => Status.noConfusion h
    have hk : env.ReportRootAsJson (fuel + k) this garbage filter reportFlags wal
        = env.ReportRootAsJson fuel this garbage filter reportFlags wal :=
      table_fuel_mono env fuel k this _ 0 filter hne
    rw [hk]
    exact hd
  refine ⟨fun ex => table_not_thrown _ env this _ 0 filter ex, ?_, ?_, ?_⟩
  · intro hfit
    exact hmono (Status.doneOr_false (root_fit env False fuel this garbage filter reportFlags wal hfit))
  · intro hfit hs
    exact hmono (Status.doneOr_true (root_fit env True fuel this garbage filter reportFlags wal hfit) hs)
  · intro hf hs
    have hcalm : (env.ReportRootAsJson fuel this garbage filter reportFlags wal).status.calm :=
      table_calm _ (item_restores env fuel) 0 (item_calm env fuel 0 (by omega)) env this _ 0 filter
        (by rw [create_counted])
    exact hmono (hcalm.resolve_right hs)

/-- C14, amended, at an instance: on `chainEnv`, where six objects nest and no
array is met, the root report completes within every nesting bound from seven
on; so does the root report of `sampleEnv`, whose one array fits the index
stack, from three on. -/
theorem root_report_never_throws_witness :
    chainEnv.MaxIndices = 4
      ∧ (chainEnv.ReportRootAsJson (7 + 0) 0 (fun _ => 0) [] [] false).status = .done
      ∧ (sampleEnv.ReportRootAsJson (3 + 2) 0 (fun _ => 0) [] [] false).status = .done :=
  ⟨rfl,
    (root_report_never_throws chainEnv 7 0 (fun _ => 0) [] [] false).2.1
      (by simp [Env.ArraysFit, chainEnv, linkObject, heaterObject, ObjectModel.table,
        tableOffset]) 0,
    (root_report_never_throws sampleEnv 3 0 (fun _ => 0) [] [] false).2.1
      (by simp [Env.ArraysFit, sampleEnv, rootObject, heaterObject, heatersArray,
        ObjectModel.table, tableOffset]) 2⟩

/-! ## Filters that do not yield one JSON value -/

/-- C15, on the code.  The text the root `ReportAsJson` appends is not always one JSON
value: for the filter `*` the two members of the root of `sampleEnv` are
appended one after the other with a comma between them and no braces around
them, and for the filter `heaters.current` nothing is appended at all.  Both
calls return normally. -/
theorem root_report_not_one_value :
    (sampleEnv.ReportRootAsJson 4 0 (fun _ => 0) ['*'] [] false).out
        = "[\x7b\"current\":12.3,\"state\":\"unimplemented\"\x7d,\x7b\"current\":12.4,\"state\":\"unimplemented\"\x7d],77".toList
      ∧ (sampleEnv.ReportRootAsJson 4 0 (fun _ => 0) ['*'] [] false).status = .done
      ∧ (sampleEnv.ReportRootAsJson 4 0 (fun _ => 0) "heaters.current".toList [] false).out
          = []
      ∧ (sampleEnv.ReportRootAsJson 4 0 (fun _ => 0) "heaters.current".toList [] false).status
          = .done := by
  decide

/-! ## Strict evaluation: unknown names -/

theorem GetNextElement_length (s : List Char) : (GetNextElement s).length ≤ s.length := by
  induction s with
  | nil => simp [GetNextElement]
  | cons c s ih =>
    simp only [GetNextElement]
    split
    · simp only [List.length_cons]; omega
    · exact Nat.le_refl _

theorem parseError_ne_unknown (msg : String) (arg : List Char)
    (h : msg ≠ "unknown value %s") :
    parseError msg ≠ .ParseException "unknown value %s" arg := by
  intro h2
  simp only [parseError, Exception.ParseException.injEq] at h2
  exact h h2.1

/-- The table overload raises `unknown value` with its own selector exactly
for a failed lookup; an `unknown value` raised further down carries a shorter
text. -/
theorem strict_lookup_unknown (getter : ValueGetter) (hg : getter.ShorterUnknown) (env : Env)
    (this : ObjPtr) (c : ObjectExplorationContext) (id : List Char) (t : Nat) (arg : List Char)
    (h : (ObjectModel.GetObjectValue getter env this c id t).result
      = .thrown (.ParseException "unknown value %s" arg)) :
    ((env.objects this).FindObjectModelTableEntry t id = none ∧ arg = id)
      ∨ arg.length < id.length := by
  unfold ObjectModel.GetObjectValue at h
  split at h
  · rename_i hf
    simp only [StrictResult.thrown.injEq, Exception.ParseException.injEq, true_and] at h
    exact Or.inl ⟨hf, h.symm⟩
  · split at h
    · cases h
    · right
      exact Nat.lt_of_lt_of_le (hg _ _ _ _ _ h) (GetNextElement_length id)

theorem strict_element_shorter (getter : ValueGetter) (hg : getter.ShorterUnknown)
    (this : ObjPtr) (c : ObjectExplorationContext) (omad : ObjectModelArrayDescriptor)
    (rest arg : List Char)
    (h : (ObjectModel.GetObjectValue.element getter this c omad rest).result
      = .thrown (.ParseException "unknown value %s" arg)) : arg.length < rest.length := by
  by_cases hj : c.numIndicesCounted = c.numIndicesProvided
  · rw [strict_element_none getter this c omad rest hj] at h
    cases h
  · rw [strict_element_step getter this c omad rest hj] at h
    split at h
    · simp only [StrictResult.thrown.injEq] at h
      exact absurd h (parseError_ne_unknown _ arg (by decide))
    · exact hg _ _ _ _ _ h

theorem peek_eq_cons {s : List Char} {ch : Char} (h : peek s = ch) (hc : ch ≠ NUL) :
    ∃ t, s = ch :: t := by
  cases s with
  | nil => exact absurd h.symm hc
  | cons d t => exact ⟨t, by simp only [peek] at h; rw [h]⟩

/-- An `unknown value` error raised by the value overload carries a text
shorter than the selector. -/
theorem strict_value_shorter (env : Env) (fuel : Nat) :
    (ObjectModel.GetObjectValue.ofValue env fuel).ShorterUnknown := by
  induction fuel with
  | zero =>
    intro this c v s arg h
    cases h
  | succ fuel ih =>
    intro this c v s arg h
    by_cases hp : v.isPrimitive = true
    · rw [strict_primitive env fuel this c v s hp] at h
      split at h
      · cases h
      · simp only [StrictResult.thrown.injEq] at h
        exact absurd h (parseError_ne_unknown _ arg (by decide))
    · cases v with
      | omadVal a =>
        by_cases h1 : peek s = NUL ∧ c.wantArrayLength = true
        · rw [strict_array_length env fuel this c a s h1] at h
          cases h
        · by_cases h2 : peek s = '^'
          · obtain ⟨rest, rfl⟩ := peek_eq_cons h2 (by decide)
            rw [strict_array_caret] at h
            have := strict_element_shorter _ ih this c _ rest arg h
            simp only [List.length_cons]
            omega
          · rw [strict_array_missing env fuel this c a s h1 h2] at h
            simp only [StrictResult.thrown.injEq] at h
            exact absurd h (parseError_ne_unknown _ arg (by decide))
      | omVal om param =>
        by_cases h1 : peek s = '.'
        · obtain ⟨rest, rfl⟩ := peek_eq_cons h1 (by decide)
          cases om with
          | none =>
            rw [strict_object_null env fuel this c param _ h1] at h
            cases h
          | some p =>
            rw [strict_object_dot env fuel this c p param _ h1] at h
            simp only [List.tail_cons] at h
            rcases strict_lookup_unknown _ ih env p c rest _ arg h with ⟨_, h3⟩ | h3
            · subst h3; simp
            · simp only [List.length_cons]; omega
        · rw [strict_object_other env fuel this c om param s h1] at h
          simp only [StrictResult.thrown.injEq] at h
          split at h
          · exact absurd h (parseError_ne_unknown _ arg (by decide))
          · exact absurd h (parseError_ne_unknown _ arg (by decide))
      | _ => exact absurd rfl hp

/-- The comparison made by the search reads only the names of the entries. -/
theorem compareAt_names (o o2 : ObjectModel)
    (hn : o2.tbl.map (fun e => e.name) = o.tbl.map (fun e => e.name)) (base : Nat)
    (id : List Char) : o2.compareAt base id = o.compareAt base id := by
  funext i
  have h := congrArg (fun l => l[base + i]?) hn
  simp only [List.getElem?_map] at h
  unfold ObjectModel.compareAt
  simp only [List.get?_eq_getElem?]
  cases h1 : o.tbl[base + i]? with
  | none =>
    cases h2 : o2.tbl[base + i]? with
    | none => rfl
    | some e2 => rw [h1, h2] at h; cases h
  | some e =>
    cases h2 : o2.tbl[base + i]? with
    | none => rw [h1, h2] at h; cases h
    | some e2 =>
      rw [h1, h2] at h
      simp only [Option.map_some', Option.some.injEq] at h
      simp only [IdCompare_eq, h]

/-- The lookup reads only the descriptor and the names of the entries. -/
theorem find_names (o o2 : ObjectModel) (hd : o2.descriptor = o.descriptor)
    (hn : o2.tbl.map (fun e => e.name) = o.tbl.map (fun e => e.name)) (t : Nat)
    (id : List Char) :
    o2.FindObjectModelTableEntry t id = o.FindObjectModelTableEntry t id := by
  simp only [ObjectModel.FindObjectModelTableEntry, hd, compareAt_names o o2 hn]

/-- C16.  Strict `GetObjectValue(context, idString, tableNumber)` raises the
parse error `unknown value` carrying `idString` if and only if
`FindObjectModelTableEntry(tableNumber, idString)` finds no entry.  In that
case the context is left as it was, and the outcome is the same whatever the
accessor functions of the schema are: it depends on the descriptor and the
names of the entries of the object only. -/
theorem strict_unknown_value (env : Env) (fuel : Nat) (this : ObjPtr)
    (c : ObjectExplorationContext) (idString : List Char) (tableNumber : Nat) :
    ((env.GetObjectValue fuel this c idString tableNumber).result
          = .thrown (.ParseException "unknown value %s" idString)
        ↔ (env.objects this).FindObjectModelTableEntry tableNumber idString = none)
      ∧ ((env.objects this).FindObjectModelTableEntry tableNumber idString = none →
          (env.GetObjectValue fuel this c idString tableNumber).context = c
            ∧ ∀ env2 : Env,
                (env2.objects this).descriptor = (env.objects this).descriptor →
                (env2.objects this).tbl.map (fun e => e.name)
                  = (env.objects this).tbl.map (fun e => e.name) →
                env2.GetObjectValue fuel this c idString tableNumber
                  = { result := .thrown (.ParseException "unknown value %s" idString)
                      context := c }) := by
  have hnone : ∀ env2 : Env,
      (env2.objects this).FindObjectModelTableEntry tableNumber idString = none →
      env2.GetObjectValue fuel this c idString tableNumber
        = { result := .thrown (.ParseException "unknown value %s" idString), context := c } := by
    intro env2 h
    simp only [Env.GetObjectValue, ObjectModel.GetObjectValue, h]
  refine ⟨⟨?_, ?_⟩, ?_⟩
  · intro h
    rcases strict_lookup_unknown _ (strict_value_shorter env fuel) env this c idString
      tableNumber idString h with ⟨h1, _⟩ | h1
    · exact h1
    · exact absurd h1 (Nat.lt_irrefl _)
  · intro h
    rw [hnone env h]
  · intro h
    refine ⟨by rw [hnone env h], ?_⟩
    intro env2 hd hn
    exact hnone env2 ((find_names _ _ hd hn tableNumber idString).trans h)

/-! ## Strict evaluation: arrays -/

/-- C17.  In strict evaluation of an array, when the next character of the
selector is not a caret, `GetObjectValue` raises `missing array index` and
leaves the context as it was, so that no provided index is consumed; the one
exception is the fully consumed selector with `wantArrayLength` set, which
returns the number of elements.  So an array at the end of the selector
without `wantArrayLength`, and an array followed by an opening bracket, raise
`missing array index`. -/
theorem strict_missing_array_index (env : Env) (fuel : Nat) (this : ObjPtr)
    (c : ObjectExplorationContext) (a : ArrPtr) (s : List Char) (hs : peek s ≠ '^') :
    (¬ (peek s = NUL ∧ c.wantArrayLength = true) →
        ObjectModel.GetObjectValue.ofValue env (fuel + 1) this c (.omadVal a) s
          = { result := .thrown (parseError "missing array index"), context := c })
      ∧ (peek s = NUL ∧ c.wantArrayLength = true →
        ObjectModel.GetObjectValue.ofValue env (fuel + 1) this c (.omadVal a) s
          = { result := .value
                (.iVal (toInt32 ((env.arrays a).GetNumElements this c.view)))
              context := c })
      ∧ (c.wantArrayLength = false →
        ObjectModel.GetObjectValue.ofValue env (fuel + 1) this c (.omadVal a) []
          = { result := .thrown (parseError "missing array index"), context := c })
      ∧ (∀ t, ObjectModel.GetObjectValue.ofValue env (fuel + 1) this c (.omadVal a) ('[' :: t)
          = { result := .thrown (parseError "missing array index"), context := c }) := by
  refine ⟨fun h => strict_array_missing env fuel this c a s h hs,
    fun h => strict_array_length env fuel this c a s h, ?_, ?_⟩
  · intro hw
    apply strict_array_missing env fuel this c a []
    · rintro ⟨_, h⟩; rw [hw] at h; cases h
    · simp only [peek]; decide
  · intro t
    apply strict_array_missing env fuel this c a ('[' :: t)
    · rintro ⟨h, _⟩; revert h; simp only [peek]; decide
    · simp only [peek]; decide

/-- C17, at an instance: the selector `heaters[1]` under strict evaluation, with
one provided index that stays unconsumed. -/
theorem strict_missing_array_index_witness :
    (threeHeaters.GetObjectValue 3 0 (providedContext [1] false) "heaters[1]".toList 0).result
        = .thrown (parseError "missing array index")
      ∧ (threeHeaters.GetObjectValue 3 0 (providedContext [1] false) "heaters[1]".toList
          0).context.numIndicesCounted = 0
      ∧ ObjectModel.GetObjectValue.ofValue threeHeaters 1 0 (providedContext [1] false)
          (.omadVal 0) "[1]".toList
        = { result := .thrown (parseError "missing array index")
            context := providedContext [1] false } :=
  ⟨by decide, by decide,
    (strict_missing_array_index threeHeaters 0 0 (providedContext [1] false) 0 "[1]".toList
      (by decide)).1 (by decide)⟩

/-- C18.  In strict evaluation of an array whose selector continues with a
caret, from a context with `j` counted of `k` provided indices, `j < k`: the
index used is the provided index in slot `j`.  After the step `j + 1` indices
are counted, `GetLastIndex()` is that index and it is what the accessors see
as the innermost index; when it is within the bounds of the array the result
is that of evaluating the element fetched under it with the selector after
the caret.  With the single provided index 2 the selector `heaters^.current`
yields the current of heater 2. -/
theorem strict_caret_uses_provided (env : Env) (fuel : Nat) (this : ObjPtr)
    (c : ObjectExplorationContext) (a : ArrPtr) (rest : List Char)
    (hj : c.numIndicesCounted < c.numIndicesProvided) :
    c.stepped.numIndicesCounted = c.numIndicesCounted + 1
      ∧ c.stepped.GetLastIndex = .ok (c.indices c.numIndicesCounted)
      ∧ c.stepped.view.indices = c.indices c.numIndicesCounted :: c.view.indices
      ∧ (0 ≤ c.indices c.numIndicesCounted →
          (c.indices c.numIndicesCounted).toNat
            < (env.arrays a).GetNumElements this c.stepped.view →
          ObjectModel.GetObjectValue.ofValue env (fuel + 1) this c (.omadVal a) ('^' :: rest)
            = ObjectModel.GetObjectValue.ofValue env fuel this c.stepped
                ((env.arrays a).GetElement this c.stepped.view) rest)
      ∧ (∀ c2, freshContext.ProvideIndex threeHeaters.MaxIndices 2 = .ok c2 →
          (threeHeaters.GetObjectValue 4 0 c2 "heaters^.current".toList 0).result
            = .value (.fVal 125 1)) := by
  refine ⟨rfl, stepped_last c, ?_, ?_, ?_⟩
  · rw [stepped_view]
  · intro h0 h1
    rw [strict_array_caret, strict_element_step _ this c _ rest (by omega), if_neg]
    rintro (h | h)
    · omega
    · omega
  · intro c2 h
    have h2 : c2 = { freshContext with
        indices := Function.update freshContext.indices 0 2, numIndicesProvided := 1 } := by
      simp only [ObjectExplorationContext.ProvideIndex] at h
      split at h
      · cases h
      · cases h; rfl
    subst h2
    decide

/-- C18, at an instance: two provided indices, the first of them counted; the
index used for the heaters is the second one. -/
theorem strict_caret_uses_provided_witness :
    ({ providedContext [0, 2] false with numIndicesCounted := 1 }
        : ObjectExplorationContext).stepped.GetLastIndex = .ok 2
      ∧ ObjectModel.GetObjectValue.ofValue threeHeaters 4 0
          { providedContext [0, 2] false with numIndicesCounted := 1 } (.omadVal 0)
          "^.current".toList
        = ObjectModel.GetObjectValue.ofValue threeHeaters 3 0
          ({ providedContext [0, 2] false with numIndicesCounted := 1 }
            : ObjectExplorationContext).stepped (.omVal (some 1) 0) ".current".toList :=
  ⟨(strict_caret_uses_provided threeHeaters 3 0
      { providedContext [0, 2] false with numIndicesCounted := 1 } 0 ".current".toList
      (by decide)).2.1,
    (strict_caret_uses_provided threeHeaters 3 0
      { providedContext [0, 2] false with numIndicesCounted := 1 } 0 ".current".toList
      (by decide)).2.2.2.1 (by decide) (by decide)⟩

/-- C19.  In strict evaluation of an array via a caret, with a provided index
left, let `i` be the index consumed and `count` the number of elements.  If
`i < 0` or `i >= count`, so also for `i = count`, `GetObjectValue` raises
`array index out of bounds`, whatever the element accessor is.  If
`0 <= i < count`, so also for `i = count - 1`, no bounds error is raised at this
step and the result is that of evaluating the element fetched under index `i`
with the rest of the selector. -/
theorem strict_caret_bounds (env : Env) (fuel : Nat) (this : ObjPtr)
    (c : ObjectExplorationContext) (a : ArrPtr) (rest : List Char)
    (hj : c.numIndicesCounted ≠ c.numIndicesProvided) :
    (c.indices c.numIndicesCounted < 0
          ∨ ((env.arrays a).GetNumElements this c.stepped.view : Int)
              ≤ c.indices c.numIndicesCounted →
        ObjectModel.GetObjectValue.ofValue env (fuel + 1) this c (.omadVal a) ('^' :: rest)
            = { result := .thrown (parseError "array index out of bounds")
                context := c.stepped }
          ∧ ∀ g, ObjectModel.GetObjectValue.ofValue (env.withGetElement a g) (fuel + 1) this c
              (.omadVal a) ('^' :: rest)
            = { result := .thrown (parseError "array index out of bounds")
                context := c.stepped })
      ∧ (0 ≤ c.indices c.numIndicesCounted
          ∧ c.indices c.numIndicesCounted
              < ((env.arrays a).GetNumElements this c.stepped.view : Int) →
        c.stepped.GetLastIndex = .ok (c.indices c.numIndicesCounted)
          ∧ ObjectModel.GetObjectValue.ofValue env (fuel + 1) this c (.omadVal a) ('^' :: rest)
            = ObjectModel.GetObjectValue.ofValue env fuel this c.stepped
                ((env.arrays a).GetElement this c.stepped.view) rest) := by
  constructor
  · intro hbad
    have key : ∀ env2 : Env, (env2.arrays a).GetNumElements = (env.arrays a).GetNumElements →
        ObjectModel.GetObjectValue.ofValue env2 (fuel + 1) this c (.omadVal a) ('^' :: rest)
          = { result := .thrown (parseError "array index out of bounds")
              context := c.stepped } := by
      intro env2 h2
      rw [strict_array_caret, strict_element_step _ this c _ rest hj, if_pos]
      rw [h2]
      rcases hbad with h | h
      · exact Or.inl h
      · right
        show (env.arrays a).GetNumElements this c.stepped.view
          ≤ (c.indices c.numIndicesCounted).toNat
        omega
    exact ⟨key env rfl, fun g => key _ (withGetElement_same env a g).2⟩
  · intro hgood
    refine ⟨stepped_last c, ?_⟩
    rw [strict_array_caret, strict_element_step _ this c _ rest hj, if_neg]
    rintro (h | h)
    · omega
    · have : (c.indices c.numIndicesCounted).toNat
          < (env.arrays a).GetNumElements this c.stepped.view := by omega
      omega

/-- C19, at instances on the three heaters: the provided index 3 equals the
count and is refused, the provided index 2 is the last element and is
evaluated. -/
theorem strict_caret_bounds_witness :
    ObjectModel.GetObjectValue.ofValue threeHeaters 4 0 (providedContext [3] false) (.omadVal 0)
        "^.current".toList
        = { result := .thrown (parseError "array index out of bounds")
            context := (providedContext [3] false).stepped }
      ∧ (ObjectModel.GetObjectValue.ofValue threeHeaters 4 0 (providedContext [2] false)
          (.omadVal 0) "^.current".toList).result = .value (.fVal 125 1) :=
  ⟨((strict_caret_bounds threeHeaters 3 0 (providedContext [3] false) 0 ".current".toList
      (by decide)).1 (Or.inr (by decide))).1,
    (congrArg StrictOutcome.result
      ((strict_caret_bounds threeHeaters 3 0 (providedContext [2] false) 0 ".current".toList
        (by decide)).2 ⟨by decide, by decide⟩).2).trans (by decide)⟩

/-- C20.  In strict evaluation of a value that is not an array.  A primitive
value is returned unchanged when the rest of the selector is empty, and
otherwise `reached primitive type before end of selector string` is raised;
so it is returned exactly when the rest is empty.  A nested object, when the
rest of the selector does not start with a dot, raises `selected value has
non-primitive type` for an empty rest and `syntax error in value selector
string` otherwise.  The context stays as it was. -/
theorem strict_non_array (env : Env) (fuel : Nat) (this : ObjPtr)
    (c : ObjectExplorationContext) :
    (∀ v s, v.isPrimitive = true → peek s = NUL →
        ObjectModel.GetObjectValue.ofValue env (fuel + 1) this c v s
          = { result := .value v, context := c })
      ∧ (∀ v s, v.isPrimitive = true → peek s ≠ NUL →
        ObjectModel.GetObjectValue.ofValue env (fuel + 1) this c v s
          = { result := .thrown
                (parseError "reached primitive type before end of selector string")
              context := c })
      ∧ (∀ v s, v.isPrimitive = true →
        ((ObjectModel.GetObjectValue.ofValue env (fuel + 1) this c v s).result = .value v
          ↔ peek s = NUL))
      ∧ (∀ om param s, peek s = NUL →
        ObjectModel.GetObjectValue.ofValue env (fuel + 1) this c (.omVal om param) s
          = { result := .thrown (parseError "selected value has non-primitive type")
              context := c })
      ∧ (∀ om param s, peek s ≠ '.' → peek s ≠ NUL →
        ObjectModel.GetObjectValue.ofValue env (fuel + 1) this c (.omVal om param) s
          = { result := .thrown (parseError "syntax error in value selector string")
              context := c }) := by
  refine ⟨?_, ?_, ?_, ?_, ?_⟩
  · intro v s hv hs
    rw [strict_primitive env fuel this c v s hv, if_pos hs]
  · intro v s hv hs
    rw [strict_primitive env fuel this c v s hv, if_neg hs]
  · intro v s hv
    rw [strict_primitive env fuel this c v s hv]
    by_cases hs : peek s = NUL
    · simp [hs]
    · simp [hs]
  · intro om param s hs
    have h : peek s ≠ '.' := by rw [hs]; decide
    rw [strict_object_other env fuel this c om param s h, if_pos hs]
  · intro om param s h1 h2
    rw [strict_object_other env fuel this c om param s h1, if_neg h2]

/-! ## Strict evaluation: what is returned -/

theorem strict_element_cases (getter : ValueGetter) (this : ObjPtr)
    (c : ObjectExplorationContext) (omad : ObjectModelArrayDescriptor) (rest : List Char) :
    ObjectModel.GetObjectValue.element getter this c omad rest
        = { result := .thrown .InternalError, context := c }
      ∨ ObjectModel.GetObjectValue.element getter this c omad rest
        = { result := .thrown (parseError "array index out of bounds"), context := c.stepped }
      ∨ (c.numIndicesCounted ≠ c.numIndicesProvided
        ∧ ObjectModel.GetObjectValue.element getter this c omad rest
          = getter this c.stepped (omad.GetElement this c.stepped.view) rest) := by
  by_cases hj : c.numIndicesCounted = c.numIndicesProvided
  · exact Or.inl (strict_element_none getter this c omad rest hj)
  · rw [strict_element_step getter this c omad rest hj]
    split
    · exact Or.inr (Or.inl rfl)
    · exact Or.inr (Or.inr ⟨hj, rfl⟩)

theorem strict_lookup_cases (getter : ValueGetter) (env : Env) (this : ObjPtr)
    (c : ObjectExplorationContext) (id : List Char) (t : Nat) :
    ObjectModel.GetObjectValue getter env this c id t
        = { result := .thrown (.ParseException "unknown value %s" id), context := c }
      ∨ ObjectModel.GetObjectValue getter env this c id t = { result := .undefined, context := c }
      ∨ ∃ k e, (env.objects this).FindObjectModelTableEntry t id = some k
          ∧ (env.objects this).tbl.get? k = some e
          ∧ ObjectModel.GetObjectValue getter env this c id t
            = getter this c (e.func this c.view) (GetNextElement id) := by
  unfold ObjectModel.GetObjectValue
  cases hf : (env.objects this).FindObjectModelTableEntry t id with
  | none => exact Or.inl rfl
  | some k =>
    cases hg : (env.objects this).tbl.get? k with
    | none => exact Or.inr (Or.inl (by simp only [hg]))
    | some e => exact Or.inr (Or.inr ⟨k, e, rfl, hg, by simp only [hg]⟩)

theorem strict_lookup_primitive (getter : ValueGetter) (env : Env)
    (hg : getter.ReturnsPrimitive env) (this : ObjPtr) (c : ObjectExplorationContext)
    (id : List Char) (t : Nat) (v : ExpressionValue)
    (h : (ObjectModel.GetObjectValue getter env this c id t).result = .value v) :
    v.isPrimitive = true ∧ (env.YieldsNoNull → v ≠ .noType) := by
  rcases strict_lookup_cases getter env this c id t with h1 | h1 | ⟨k, e, _, he, h1⟩
  · rw [h1] at h; cases h
  · rw [h1] at h; cases h
  · rw [h1] at h
    obtain ⟨hp, hn⟩ := hg _ _ _ _ _ h
    exact ⟨hp, fun hy => hn hy (hy.1 this k e he this c.view)⟩

/-- Whatever strict evaluation returns is primitive, and null only when the
schema or the caller supplied a null value. -/
theorem strict_value_primitive (env : Env) (fuel : Nat) :
    (ObjectModel.GetObjectValue.ofValue env fuel).ReturnsPrimitive env := by
  induction fuel with
  | zero => intro this c val s v h; cases h
  | succ fuel ih =>
    intro this c val s v h
    by_cases hp : val.isPrimitive = true
    · rw [strict_primitive env fuel this c val s hp] at h
      split at h
      · simp only [StrictResult.value.injEq] at h
        subst h
        exact ⟨hp, fun _ hv => hv⟩
      · cases h
    · cases val with
      | omadVal a =>
        by_cases h1 : peek s = NUL ∧ c.wantArrayLength = true
        · rw [strict_array_length env fuel this c a s h1] at h
          simp only [StrictResult.value.injEq] at h
          subst h
          exact ⟨rfl, fun _ _ hv => by cases hv⟩
        · by_cases h2 : peek s = '^'
          · obtain ⟨rest, rfl⟩ := peek_eq_cons h2 (by decide)
            rw [strict_array_caret] at h
            rcases strict_element_cases (ObjectModel.GetObjectValue.ofValue env fuel) this c
              (env.arrays a) rest with h3 | h3 | ⟨_, h3⟩
            · rw [h3] at h; cases h
            · rw [h3] at h; cases h
            · rw [h3] at h
              obtain ⟨hp2, hn⟩ := ih _ _ _ _ _ h
              exact ⟨hp2, fun hy _ => hn hy (hy.2 a this c.stepped.view)⟩
          · rw [strict_array_missing env fuel this c a s h1 h2] at h
            cases h
      | omVal om param =>
        by_cases h1 : peek s = '.'
        · cases om with
          | none =>
            rw [strict_object_null env fuel this c param s h1] at h
            cases h
          | some p =>
            rw [strict_object_dot env fuel this c p param s h1] at h
            obtain ⟨hp2, hn⟩ := strict_lookup_primitive _ env ih p c _ _ v h
            exact ⟨hp2, fun hy _ => hn hy⟩
        · rw [strict_object_other env fuel this c om param s h1] at h
          cases h
      | _ => exact absurd rfl hp

theorem threeHeaters_no_null : threeHeaters.YieldsNoNull := by
  constructor
  · intro p k e he this v
    have hcases : ∀ (o : ObjectModel), o = rootObject ∨ o = heaterObject ∨ o = tempObject →
        o.tbl.get? k = some e → e.func this v ≠ .noType := by
      intro o ho hk
      rcases ho with rfl | rfl | rfl
      · match k, hk with
        | 0, hk => cases hk; intro h; cases h
        | 1, hk => cases hk; intro h; cases h
        | (n + 2), hk => cases hk
      · match k, hk with
        | 0, hk => cases hk; intro h; cases h
        | 1, hk => cases hk; intro h; cases h
        | (n + 2), hk => cases hk
      · match k, hk with
        | 0, hk => cases hk; intro h; cases h
        | 1, hk => cases hk; intro h; cases h
        | (n + 2), hk => cases hk
    refine hcases (threeHeaters.objects p) ?_ he
    match p with
    | 0 => exact Or.inl rfl
    | 1 => exact Or.inr (Or.inl rfl)
    | (n + 2) => exact Or.inr (Or.inr rfl)
  · intro a this v h
    cases h

/-- C21, counterexample.  The entry `spare` of `spareObject` has the null value,
and strict evaluation of the selector `spare` returns it. -/
theorem strict_returns_null :
    (spareEnv.GetObjectValue 1 0 freshContext "spare".toList 0).result = .value .noType := by
  decide

/-- C21, amended.  When strict `GetObjectValue` returns normally, the value
returned is neither an array nor a nested object; and on a schema none of
whose accessor functions yields the null value it is not the null value
either.  (A null value that an accessor yields is returned as it is.) -/
theorem strict_result_primitive (env : Env) (fuel : Nat) (this : ObjPtr)
    (c : ObjectExplorationContext) (idString : List Char) (tableNumber : Nat)
    (v : ExpressionValue)
    (h : (env.GetObjectValue fuel this c idString tableNumber).result = .value v) :
    v.isPrimitive = true
      ∧ (∀ a, v ≠ .omadVal a) ∧ (∀ om param, v ≠ .omVal om param)
      ∧ (env.YieldsNoNull → v ≠ .noType) := by
  obtain ⟨hp, hn⟩ := strict_lookup_primitive _ env (strict_value_primitive env fuel) this c
    idString tableNumber v h
  refine ⟨hp, ?_, ?_, hn⟩
  · rintro a rfl; cases hp
  · rintro om param rfl; cases hp

/-- C21, amended, at an instance: the current of heater 2. -/
theorem strict_result_primitive_witness :
    (threeHeaters.GetObjectValue 4 0 (providedContext [2] false) "heaters^.current".toList
        0).result = .value (.fVal 125 1)
      ∧ ExpressionValue.fVal 125 1 ≠ .noType :=
  ⟨by decide,
    (strict_result_primitive threeHeaters 4 0 (providedContext [2] false)
      "heaters^.current".toList 0 (.fVal 125 1) (by decide)).2.2.2 threeHeaters_no_null⟩

/-! ## Strict evaluation: the examples of the specification -/

/-- C22, counterexample.  With no index provided, strict evaluation of
`heaters^.current` raises the internal error of `AddIndex()`, not the parse
error `missing array index`. -/
theorem strict_caret_unprovided :
    threeHeaters.GetObjectValue 4 0 freshContext "heaters^.current".toList 0
        = { result := .thrown .InternalError, context := freshContext }
      ∧ (threeHeaters.GetObjectValue 4 0 freshContext "heaters^.current".toList 0).result
        ≠ .thrown (parseError "missing array index") := by
  constructor
  · have hf : (threeHeaters.objects 0).FindObjectModelTableEntry 0 "heaters^.current".toList
        = some 0 := by decide
    simp only [Env.GetObjectValue, ObjectModel.GetObjectValue, hf]
    exact (strict_array_caret threeHeaters 3 0 freshContext 0 _).trans
      (strict_element_none _ 0 freshContext _ _ rfl)
  · decide

/-- C22, amended.  In strict evaluation of an array whose selector continues
with a caret, in a context where no provided index is left (none was provided,
or all are counted), `GetObjectValue` raises the internal error of `AddIndex()`
and leaves the context as it was.  The parse error `missing array index` is
raised when the caret is missing, not when the index is. -/
theorem strict_caret_needs_index (env : Env) (fuel : Nat) (this : ObjPtr)
    (c : ObjectExplorationContext) (a : ArrPtr) (rest : List Char)
    (h : c.numIndicesCounted = c.numIndicesProvided) :
    ObjectModel.GetObjectValue.ofValue env (fuel + 1) this c (.omadVal a) ('^' :: rest)
        = { result := .thrown .InternalError, context := c }
      ∧ (c.wantArrayLength = false →
          ObjectModel.GetObjectValue.ofValue env (fuel + 1) this c (.omadVal a) rest
            = { result := .thrown (parseError "missing array index"), context := c }
          ∨ peek rest = '^') := by
  refine ⟨(strict_array_caret env fuel this c a rest).trans
    (strict_element_none _ this c _ rest h), ?_⟩
  intro hw
  by_cases h2 : peek rest = '^'
  · exact Or.inr h2
  · left
    apply strict_array_missing env fuel this c a rest _ h2
    rintro ⟨_, h3⟩
    rw [hw] at h3
    cases h3

/-- C22, amended, at an instance: the array of heaters, no index provided. -/
theorem strict_caret_needs_index_witness :
    ObjectModel.GetObjectValue.ofValue threeHeaters 1 0 freshContext (.omadVal 0)
        "^.current".toList
      = { result := .thrown .InternalError, context := freshContext } :=
  (strict_caret_needs_index threeHeaters 0 0 freshContext 0 ".current".toList rfl).1

/-- C23, counterexample.  With two heaters, strict evaluation of
`heaters[5].current` raises `missing array index`, not `array index out of
bounds`. -/
theorem strict_bracket_five :
    (sampleEnv.GetObjectValue 4 0 freshContext "heaters[5].current".toList 0).result
        = .thrown (parseError "missing array index")
      ∧ (sampleEnv.GetObjectValue 4 0 freshContext "heaters[5].current".toList 0).result
        ≠ .thrown (parseError "array index out of bounds") := by
  decide

/-- C23, amended.  For the schema of `sampleEnv`, an array `heaters` of exactly
two heaters with the members `state` and `current`: the filter
`heaters[5].current` yields `null` under tolerant serialization; strict
evaluation of the same selector raises `missing array index`, in every
context, because strict evaluation takes its indices from the context;
strict evaluation of `heaters^.current` with the provided index 5 raises
`array index out of bounds`. -/
theorem heaters_index_five :
    (∀ k, (sampleEnv.ReportRootAsJson (2 + k) 0 (fun _ => 0) "heaters[5].current".toList []
          false).out = nullText
        ∧ (sampleEnv.ReportRootAsJson (2 + k) 0 (fun _ => 0) "heaters[5].current".toList []
          false).status = .done)
      ∧ (∀ fuel c, sampleEnv.GetObjectValue (fuel + 1) 0 c "heaters[5].current".toList 0
          = { result := .thrown (parseError "missing array index"), context := c })
      ∧ (∀ fuel c, c.numIndicesCounted ≠ c.numIndicesProvided → c.indices c.numIndicesCounted = 5 →
          sampleEnv.GetObjectValue (fuel + 1) 0 c "heaters^.current".toList 0
            = { result := .thrown (parseError "array index out of bounds")
                context := c.stepped })
      ∧ (sampleEnv.GetObjectValue 1 0 (providedContext [5] false) "heaters^.current".toList
          0).result = .thrown (parseError "array index out of bounds") := by
  refine ⟨?_, ?_, ?_, by decide⟩
  · intro k
    have h2 : (sampleEnv.ReportRootAsJson 2 0 (fun _ => 0) "heaters[5].current".toList []
        false).status ≠ .outOfFuel := by decide
    have hk : sampleEnv.ReportRootAsJson (2 + k) 0 (fun _ => 0) "heaters[5].current".toList []
        false = sampleEnv.ReportRootAsJson 2 0 (fun _ => 0) "heaters[5].current".toList []
        false := table_fuel_mono sampleEnv 2 k 0 _ 0 _ h2
    rw [hk]
    exact ⟨by decide, by decide⟩
  · intro fuel c
    have hf : (sampleEnv.objects 0).FindObjectModelTableEntry 0 "heaters[5].current".toList
        = some 0 := by decide
    simp only [Env.GetObjectValue, ObjectModel.GetObjectValue, hf]
    exact strict_array_missing sampleEnv fuel 0 c 0 _ (by rintro ⟨h, _⟩; revert h; decide)
      (by decide)
  · intro fuel c hj h5
    have hf : (sampleEnv.objects 0).FindObjectModelTableEntry 0 "heaters^.current".toList
        = some 0 := by decide
    simp only [Env.GetObjectValue, ObjectModel.GetObjectValue, hf]
    refine (strict_array_caret sampleEnv fuel 0 c 0 _).trans ?_
    rw [strict_element_step _ 0 c _ _ hj, h5]
    exact if_pos (Or.inr (show Int.toNat 5 ≥ 2 by decide))

/-! ## Strict and tolerant evaluation of the same selector -/

theorem alnum_ne_dot {ch : Char} (h : ch.isAlphanum = true) : ch ≠ '.' := by
  rintro rfl
  revert h
  decide

theorem PlainSelector.go_cons_alnum (need : Bool) (ch : Char) (rest : List Char)
    (h : ch.isAlphanum = true) :
    PlainSelector.go need (ch :: rest) = PlainSelector.go false rest := by
  simp only [PlainSelector.go, if_neg (alnum_ne_dot h), h, Bool.true_and]

theorem PlainSelector.go_chars : ∀ (s : List Char) (need : Bool),
    PlainSelector.go need s = true → ∀ ch ∈ s, ch = '.' ∨ ch.isAlphanum = true := by
  intro s
  induction s with
  | nil => intro need _ ch h; exact absurd h (List.not_mem_nil _)
  | cons d s ih =>
    intro need h ch hch
    simp only [PlainSelector.go] at h
    split at h
    · rename_i hd
      simp only [Bool.and_eq_true] at h
      rcases List.mem_cons.1 hch with rfl | h2
      · exact Or.inl hd
      · exact ih true h.2 ch h2
    · simp only [Bool.and_eq_true] at h
      rcases List.mem_cons.1 hch with rfl | h2
      · exact Or.inr h.1
      · exact ih false h.2 ch h2

theorem PlainSelector.noNul {s : List Char} {need : Bool} (h : PlainSelector.go need s = true) :
    NoNul s := by
  intro ch hch
  rcases PlainSelector.go_chars s need h ch hch with rfl | h2
  · decide
  · exact (alnum_facts h2).2.1

/-- A plain selector starts with a letter or a digit. -/
theorem PlainSelector.starts_alnum {s : List Char} (h : PlainSelector s) :
    ∃ ch rest, s = ch :: rest ∧ ch.isAlphanum = true := by
  cases s with
  | nil => simp [PlainSelector, PlainSelector.go] at h
  | cons ch rest =>
    refine ⟨ch, rest, rfl, ?_⟩
    unfold PlainSelector at h
    simp only [PlainSelector.go] at h
    split at h
    · simp at h
    · simp only [Bool.and_eq_true] at h
      exact h.1

/-- After a name of letters and digits, a plain selector goes on as a plain
rest. -/
theorem PlainSelector.after_name : ∀ (n s : List Char) (need : Bool),
    n ≠ [] → (∀ ch ∈ n, ch.isAlphanum = true) → PlainSelector.go need (n ++ s) = true →
    PlainSelector.go false s = true := by
  intro n
  induction n with
  | nil => intro s need h; exact absurd rfl h
  | cons ch n ih =>
    intro s need _ hn h
    rw [List.cons_append, PlainSelector.go_cons_alnum need ch _ (hn ch (List.mem_cons_self _ _))] at h
    cases n with
    | nil => exact h
    | cons ch2 n2 =>
      exact ih s false (List.cons_ne_nil _ _) (fun x hx => hn x (List.mem_cons_of_mem _ hx)) h

theorem PlainSelector.rest_cases {s : List Char} (h : PlainSelector.go false s = true)
    (ht : s = [] ∨ peek s = '.' ∨ peek s = '[' ∨ peek s = '^') : PlainRest s := by
  cases s with
  | nil => exact Or.inl rfl
  | cons ch rest =>
    right
    simp only [PlainSelector.go] at h
    split at h
    · rename_i hd
      subst hd
      simp only [Bool.not_false, Bool.true_and] at h
      exact ⟨rest, rfl, h⟩
    · rename_i hd
      simp only [Bool.and_eq_true] at h
      have hterm := (alnum_facts h.1).2.2.2
      simp only [peek] at ht
      rcases ht with ht | ht | ht | ht
      · cases ht
      · exact absurd ht hd
      · subst ht; exact absurd hterm (by decide)
      · subst ht; exact absurd hterm (by decide)

theorem PlainRest.peek_cases {s : List Char} (h : PlainRest s) :
    (s = [] ∧ peek s = NUL) ∨ ∃ s2, s = '.' :: s2 ∧ PlainSelector s2 := by
  rcases h with rfl | h
  · exact Or.inl ⟨rfl, rfl⟩
  · exact Or.inr h

/-- A text splits in one way only into a name and a rest that is empty or
starts with a dot. -/
theorem segment_unique : ∀ (n n2 s s2 : List Char),
    (∀ ch ∈ n, ch ≠ '.') → (∀ ch ∈ n2, ch ≠ '.') →
    (s = [] ∨ ∃ t, s = '.' :: t) → (s2 = [] ∨ ∃ t, s2 = '.' :: t) →
    n ++ s = n2 ++ s2 → n = n2 := by
  intro n
  induction n with
  | nil =>
    intro n2 s s2 _ hn2 hs _ h
    cases n2 with
    | nil => rfl
    | cons d n2 =>
      rcases hs with rfl | ⟨t, rfl⟩
      · cases h
      · simp only [List.nil_append, List.cons_append, List.cons.injEq] at h
        exact absurd h.1.symm (hn2 d (List.mem_cons_self _ _))
  | cons ch n ih =>
    intro n2 s s2 hn hn2 hs hs2 h
    cases n2 with
    | nil =>
      rcases hs2 with rfl | ⟨t, rfl⟩
      · cases h
      · simp only [List.nil_append, List.cons_append, List.cons.injEq] at h
        exact absurd h.1 (hn ch (List.mem_cons_self _ _))
    | cons d n2 =>
      simp only [List.cons_append, List.cons.injEq] at h
      rw [h.1, ih n2 s s2 (fun x hx => hn x (List.mem_cons_of_mem _ hx))
        (fun x hx => hn2 x (List.mem_cons_of_mem _ hx)) hs hs2 h.2]

theorem GetNextElement_name : ∀ (n s : List Char),
    (∀ ch ∈ n, ch.isAlphanum = true) → (s = [] ∨ ∃ t, s = '.' :: t) →
    GetNextElement (n ++ s) = s := by
  intro n
  induction n with
  | nil =>
    intro s _ hs
    rcases hs with rfl | ⟨t, rfl⟩
    · rfl
    · simp [GetNextElement]
  | cons ch n ih =>
    intro s hn hs
    have hf := alnum_facts (hn ch (List.mem_cons_self _ _))
    have ht := isTerminator_false hf.2.2.2
    rw [List.cons_append, GetNextElement, if_pos ⟨hf.2.1, ht⟩]
    exact ih s (fun x hx => hn x (List.mem_cons_of_mem _ hx)) hs

theorem NameLt_irrefl : ∀ (n : List Char), ¬ NameLt n n := by
  intro n
  induction n with
  | nil => intro h; cases h
  | cons ch n ih =>
    intro h
    cases h with
    | cons h2 => exact ih h2
    | rel h2 => exact absurd h2 (lt_irrefl _)

theorem table_get?_some (o : ObjectModel) (t j : Nat) (e : ObjectModelTableEntry)
    (h : (o.table t).get? j = some e) :
    o.tbl.get? (tableOffset o.descriptor t + j) = some e := by
  simp only [ObjectModel.table, List.get?_eq_getElem?, List.getElem?_take,
    List.getElem?_drop] at h
  rw [List.get?_eq_getElem?]
  split at h
  · exact h
  · cases h

theorem mem_of_table (o : ObjectModel) (t : Nat) (e : ObjectModelTableEntry)
    (h : e ∈ o.table t) : e ∈ o.tbl :=
  List.mem_of_mem_drop (List.mem_of_mem_take h)

/-- What a plain selector that compares equal to an entry looks like. -/
theorem plain_match (e : ObjectModelTableEntry) (S : List Char) (he : AlnumName e.name)
    (hS : PlainSelector S) (h0 : e.IdCompare S = 0) :
    ∃ s, S = e.name ++ s ∧ PlainRest s := by
  obtain ⟨ch, rest, hS1, hch⟩ := hS.starts_alnum
  rcases IdCompare_zero e S he.plain.2.1 (PlainSelector.noNul hS) h0 with h1 | h1 | ⟨s, h1, h2⟩
  · rw [hS1] at h1; cases h1
  · rw [hS1] at h1
    simp only [peek] at h1
    exact absurd h1 (alnum_facts hch).2.2.1
  · refine ⟨s, h1, PlainSelector.rest_cases ?_ h2⟩
    unfold PlainSelector at hS
    rw [h1] at hS
    exact PlainSelector.after_name e.name s true he.1 he.chars hS

theorem PlainRest.shape {s : List Char} (h : PlainRest s) : s = [] ∨ ∃ t, s = '.' :: t := by
  rcases h with rfl | ⟨t, rfl, _⟩
  · exact Or.inl rfl
  · exact Or.inr ⟨t, rfl⟩

/-- In a sorted table of names of letters and digits, at most one entry
compares equal to a plain selector. -/
theorem plain_match_unique (pre post : List ObjectModelTableEntry) (E e2 : ObjectModelTableEntry)
    (S : List Char) (hsorted : SortedByName (pre ++ E :: post))
    (hnames : ∀ e ∈ pre ++ E :: post, AlnumName e.name) (hS : PlainSelector S)
    (hE : E.IdCompare S = 0) (he2 : e2 ∈ pre ++ post) : e2.IdCompare S ≠ 0 := by
  intro h0
  have hEn := hnames E (List.mem_append_right _ (List.mem_cons_self _ _))
  have he2n : AlnumName e2.name := by
    apply hnames
    rcases List.mem_append.1 he2 with h | h
    · exact List.mem_append_left _ h
    · exact List.mem_append_right _ (List.mem_cons_of_mem _ h)
  obtain ⟨s, hs1, hs2⟩ := plain_match E S hEn hS hE
  obtain ⟨s2, hs3, hs4⟩ := plain_match e2 S he2n hS h0
  have heq : e2.name = E.name :=
    segment_unique e2.name E.name s2 s (fun ch hch => alnum_ne_dot (he2n.chars ch hch))
      (fun ch hch => alnum_ne_dot (hEn.chars ch hch)) hs4.shape hs2.shape (hs3.symm.trans hs1)
  unfold SortedByName at hsorted
  rw [List.pairwise_append] at hsorted
  rcases List.mem_append.1 he2 with h | h
  · have := hsorted.2.2 e2 h E (List.mem_cons_self _ _)
    rw [heq] at this
    exact NameLt_irrefl _ this
  · have := (List.pairwise_cons.1 hsorted.2.1).1 e2 h
    rw [heq] at this
    exact NameLt_irrefl _ this

/-- Table-level `ReportAsJson` for a filter that is not empty and that one
entry alone matches, when the report of that entry returns normally. -/
theorem table_single (item : ItemReporter) (env : Env) (this : ObjPtr)
    (c : ObjectExplorationContext) (t : Nat) (f : List Char)
    (pre post : List ObjectModelTableEntry) (E : ObjectModelTableEntry)
    (hrange : t < (env.objects this).descriptor.getD 0 0) (hne : ¬ peek f = NUL)
    (htable : (env.objects this).table t = pre ++ E :: post)
    (hm : E.Matches env f c = true)
    (hothers : ∀ e ∈ pre ++ post, e.IdCompare f ≠ 0)
    (hs : (E.ReportAsJson item c this f).status = .done) :
    ObjectModel.ReportAsJson item env this c t f
      = { out := (E.ReportAsJson item c this f).out
          context := (E.ReportAsJson item c this f).context, status := .done } := by
  have hpost : ∀ added out ck,
      ObjectModel.ReportAsJson.loop item env this f post added out ck
        = (added, { out := out, context := ck, status := .done }) :=
    fun added out ck => tableLoop_none _ env this f post added out ck
      (fun e he => Matches_of_ne env e f ck (hothers e (List.mem_append_right _ he)))
  have hsplit : ObjectModel.ReportAsJson.loop item env this f (pre ++ E :: post) false [] c
      = ObjectModel.ReportAsJson.loop item env this f (E :: post) false [] c :=
    tableLoop_append_none _ env this f pre (E :: post) false [] c
      (fun e he => Matches_of_ne env e f c (hothers e (List.mem_append_left _ he)))
  have hloop := tableLoop_done _ env this f E post false [] c hm hs
  rw [hpost] at hloop
  simp only [ObjectModel.ReportAsJson, if_pos hrange, htable, hsplit, hloop,
    if_neg hne, Bool.false_eq_true, if_false, List.nil_append, and_false, if_true, true_and]

theorem find_range (o : ObjectModel) (t k : Nat) (id : List Char)
    (h : o.FindObjectModelTableEntry t id = some k) : t < o.descriptor.getD 0 0 := by
  unfold ObjectModel.FindObjectModelTableEntry at h
  split at h
  · cases h
  · omega

/-- A primitive value is reported as its rendering when no array length is
asked for. -/
theorem item_scalar (env : Env) (fuel : Nat) (this : ObjPtr) (c : ObjectExplorationContext)
    (v : ExpressionValue) (f : List Char) (hv : v.isPrimitive = true)
    (hw : c.wantArrayLength = false) :
    ObjectModel.ReportItemAsJson env (fuel + 1) this c v f
      = { out := env.renderScalar c v, context := c, status := .done } := by
  have hn : ¬ (c.wantArrayLength = true ∧ peek f = NUL) := by
    rintro ⟨h, _⟩; rw [hw] at h; cases h
  have hn2 : ¬ (c.wantArrayLength = true ∧ peek ([] : List Char) = NUL) := by
    rintro ⟨h, _⟩; rw [hw] at h; cases h
  cases v <;> first
    | (simp [ExpressionValue.isPrimitive] at hv; done)
    | simp only [Env.renderScalar, ObjectModel.ReportItemAsJson, if_neg hn, if_neg hn2]

/-- The table step of the agreement of the two traversals, with the report
flags asked of the entries on the path only. -/
theorem agree_table_path (env : Env) (hschema : env.SortedTables) (c : ObjectExplorationContext)
    (item : ItemReporter) (getter : ValueGetter)
    (below : ObjPtr → ExpressionValue → List Char → List ObjectModelTableEntry)
    (hA : ∀ this val s v, PlainRest s →
      (∀ e ∈ below this val s, c.ShouldReport env e.flags = true) →
      (getter this c val s).result = .value v →
      item this c val (if peek s = '.' then s.tail else s)
        = { out := env.renderScalar c v, context := c, status := .done })
    (p : ObjPtr) (t : Nat) (S : List Char) (v : ExpressionValue) (hS : PlainSelector S)
    (hflags : ∀ e ∈ ObjectModel.GetObjectValue.entries below env p c S t,
      c.ShouldReport env e.flags = true)
    (h : (ObjectModel.GetObjectValue getter env p c S t).result = .value v) :
    ObjectModel.ReportAsJson item env p c t S
      = { out := env.renderScalar c v, context := c, status := .done } := by
  rcases strict_lookup_cases getter env p c S t with h1 | h1 | ⟨k, e, hfind, hget, h1⟩
  · rw [h1] at h; cases h
  · rw [h1] at h; cases h
  · rw [h1] at h
    have hpath : ObjectModel.GetObjectValue.entries below env p c S t
        = e :: below p (e.func p c.view) (GetNextElement S) := by
      simp only [ObjectModel.GetObjectValue.entries, hfind, hget]
    rw [hpath] at hflags
    obtain ⟨j, e2, hk, hj, h0⟩ := find_sound _ t k S hfind
    have he : e2 = e := by
      have := table_get?_some _ t j e2 hj
      rw [← hk, hget] at this
      exact (Option.some.inj this).symm
    subst he
    have hmem : e2 ∈ (env.objects p).table t := get?_mem_table hj
    obtain ⟨hsorted, hnames⟩ := hschema p t
    obtain ⟨s, hs1, hs2⟩ := plain_match e2 S (hnames e2 hmem) hS h0
    have hnext : GetNextElement S = s := by
      rw [hs1]
      exact GetNextElement_name e2.name s (hnames e2 hmem).chars hs2.shape
    rw [hnext] at h hflags
    have hitem := hA p (e2.func p c.view) s v hs2
      (fun x hx => hflags x (List.mem_cons_of_mem _ hx)) h
    obtain ⟨ch, rest, hS1, hch⟩ := hS.starts_alnum
    have hne : ¬ peek S = NUL := by
      rw [hS1]
      exact (alnum_facts hch).2.1
    have hentry : e2.ReportAsJson item c p S
        = { out := env.renderScalar c v, context := c, status := .done } := by
      simp only [ObjectModelTableEntry.ReportAsJson, if_neg hne, hnext, hitem, List.nil_append,
        Status.noexcept]
    obtain ⟨pre, post, hsplit⟩ := List.append_of_mem hmem
    have hm : e2.Matches env S c = true := by
      simp [ObjectModelTableEntry.Matches, h0, hflags e2 (List.mem_cons_self _ _)]
    have hothers : ∀ x ∈ pre ++ post, x.IdCompare S ≠ 0 :=
      fun x hx => plain_match_unique pre post e2 x S (hsplit ▸ hsorted)
        (fun y hy => hnames y (hsplit ▸ hy)) hS h0 hx
    have := table_single item env p c t S pre post e2 (find_range _ t k S hfind) hne hsplit hm
      hothers (by rw [hentry])
    rw [this, hentry]

/-- The value step of the agreement of the two traversals, with the report
flags asked of the entries on the path only. -/
theorem agree_value_path (env : Env) (hschema : env.SortedTables)
    (c : ObjectExplorationContext) (hw : c.wantArrayLength = false) (fuel : Nat) :
    ∀ this val s v, PlainRest s →
      (∀ e ∈ ObjectModel.GetObjectValue.entriesBelow env c fuel this val s,
        c.ShouldReport env e.flags = true) →
      (ObjectModel.GetObjectValue.ofValue env fuel this c val s).result = .value v →
      ObjectModel.ReportItemAsJson env fuel this c val (if peek s = '.' then s.tail else s)
        = { out := env.renderScalar c v, context := c, status := .done } := by
  induction fuel with
  | zero => intro this val s v _ _ h; cases h
  | succ fuel ih =>
    intro this val s v hs hflags h
    by_cases hp : val.isPrimitive = true
    · rw [strict_primitive env fuel this c val s hp] at h
      split at h
      · simp only [StrictResult.value.injEq] at h
        subst h
        exact item_scalar env fuel this c val _ hp hw
      · cases h
    · cases val with
      | omadVal a =>
        have h1 : ¬ (peek s = NUL ∧ c.wantArrayLength = true) := by
          rintro ⟨_, h3⟩; rw [hw] at h3; cases h3
        have h2 : peek s ≠ '^' := by
          rcases hs with rfl | ⟨t, rfl, _⟩ <;> simp only [peek] <;> decide
        rw [strict_array_missing env fuel this c a s h1 h2] at h
        cases h
      | omVal om param =>
        rcases hs.peek_cases with ⟨rfl, _⟩ | ⟨s2, rfl, hs2⟩
        · rw [strict_object_other env fuel this c om param [] (by simp only [peek]; decide)] at h
          cases h
        · cases om with
          | none =>
            rw [strict_object_null env fuel this c param ('.' :: s2) rfl] at h
            cases h
          | some p =>
            rw [strict_object_dot env fuel this c p param ('.' :: s2) rfl] at h
            simp only [List.tail_cons] at h
            have hpath : ObjectModel.GetObjectValue.entriesBelow env c (fuel + 1) this
                  (.omVal (some p) param) ('.' :: s2)
                = ObjectModel.GetObjectValue.entries
                    (ObjectModel.GetObjectValue.entriesBelow env c fuel) env p c s2
                    (param % 256) := by
              simp only [ObjectModel.GetObjectValue.entriesBelow, peek, if_true, List.tail_cons]
            rw [hpath] at hflags
            have hwn : ¬ (c.wantArrayLength = true ∧ peek s2 = NUL) := by
              rintro ⟨h3, _⟩; rw [hw] at h3; cases h3
            obtain ⟨ch, rest, hs3, hch⟩ := hs2.starts_alnum
            have hnd : ¬ peek s2 = '.' := by
              rw [hs3]
              exact alnum_ne_dot hch
            simp only [peek, if_true, List.tail_cons]
            rw [item_object env fuel this c p param s2 hwn, if_neg hnd]
            exact agree_table_path env hschema c _ _ _ ih p _ s2 v hs2 hflags h
      | _ => exact absurd rfl hp

theorem boxEnv_sorted : boxEnv.SortedTables := by
  intro p t
  have hcases : ∀ o : ObjectModel, o = boxObject ∨ o = heaterObject →
      SortedByName (o.table t) ∧ ∀ e ∈ o.table t, AlnumName e.name := by
    intro o ho
    match t with
    | 0 => rcases ho with rfl | rfl <;> exact ⟨by decide, by decide⟩
    | (n + 1) =>
      have he : o.table (n + 1) = [] := by
        rcases ho with rfl | rfl <;>
          simp [ObjectModel.table, boxObject, heaterObject]
      rw [he]
      exact ⟨List.Pairwise.nil, fun e h => absurd h (List.not_mem_nil _)⟩
  apply hcases
  match p with
  | 0 => exact Or.inl rfl
  | (n + 1) => exact Or.inr rfl

theorem gaugeEnv_sorted : gaugeEnv.SortedTables := by
  intro p t
  have hcases : ∀ o : ObjectModel, o = gaugeObject ∨ o = heaterObject →
      SortedByName (o.table t) ∧ ∀ e ∈ o.table t, AlnumName e.name := by
    intro o ho
    match t with
    | 0 => rcases ho with rfl | rfl <;> exact ⟨by decide, by decide⟩
    | (n + 1) =>
      have he : o.table (n + 1) = [] := by
        rcases ho with rfl | rfl <;>
          simp [ObjectModel.table, gaugeObject, heaterObject]
      rw [he]
      exact ⟨List.Pairwise.nil, fun e h => absurd h (List.not_mem_nil _)⟩
  apply hcases
  match p with
  | 0 => exact Or.inl rfl
  | (n + 1) => exact Or.inr rfl

/-- C24, counterexample.  On schemas with sorted tables strict evaluation
returns a scalar where the tolerant report of the same selector does not append
its rendering: with the flag `f` the entry `upTime`, which is not live, is
reported as `null`; the selector `heaters^.current` with the provided index 2
appends nothing; the selector `*` appends all the members; and with
`wantArrayLength` set the entry `upTime` is reported as `null`. -/
theorem strict_tolerant_differ :
    SortedByName (rootObject.table 0)
      ∧ (sampleEnv.GetObjectValue 4 0 (ObjectExplorationContext.create (fun _ => 0) ['f'] false)
          "upTime".toList 0).result = .value (.uVal 77)
      ∧ sampleEnv.renderScalar (ObjectExplorationContext.create (fun _ => 0) ['f'] false)
          (.uVal 77) = ['7', '7']
      ∧ (sampleEnv.ReportAsJson 4 0 (ObjectExplorationContext.create (fun _ => 0) ['f'] false) 0
          "upTime".toList).out = nullText
      ∧ (threeHeaters.GetObjectValue 4 0 (providedContext [2] false) "heaters^.current".toList
          0).result = .value (.fVal 125 1)
      ∧ (threeHeaters.ReportAsJson 4 0 (providedContext [2] false) 0
          "heaters^.current".toList).out = []
      ∧ (sampleEnv.GetObjectValue 4 0 freshContext ['*'] 0).result = .value (.uVal 77)
      ∧ (sampleEnv.ReportAsJson 4 0 freshContext 0 ['*']).out ≠ ['7', '7']
      ∧ (sampleEnv.GetObjectValue 4 0 (providedContext [] true) "upTime".toList 0).result
          = .value (.uVal 77)
      ∧ (sampleEnv.ReportAsJson 4 0 (providedContext [] true) 0 "upTime".toList).out
          = nullText := by
  decide

/-- C24, amended.  On a schema whose tables are sorted by name, with names of
letters and digits, in a context that does not ask for array lengths: for every
selector `S` made of names joined by single dots (no wildcard, no index, no
empty name) for which strict `GetObjectValue` returns a value `v`, if the
report flags let every entry that `S` names be reported (the entries that the
strict evaluation looks up, one for each name; the other entries of the schema
may be hidden), then `v` is a scalar and table-level `ReportAsJson` with the
filter `S`, from the same context, appends exactly the rendering of `v`,
returns normally and leaves the context as it was. -/
theorem strict_tolerant_agree (env : Env) (fuel : Nat) (this : ObjPtr)
    (c : ObjectExplorationContext) (S : List Char) (tableNumber : Nat) (v : ExpressionValue)
    (hschema : env.SortedTables)
    (hflags : ∀ e ∈ env.entriesOnPath fuel this c S tableNumber,
      c.ShouldReport env e.flags = true)
    (hw : c.wantArrayLength = false) (hS : PlainSelector S)
    (h : (env.GetObjectValue fuel this c S tableNumber).result = .value v) :
    env.ReportAsJson fuel this c tableNumber S
        = { out := env.renderScalar c v, context := c, status := .done }
      ∧ v.isPrimitive = true :=
  ⟨agree_table_path env hschema c _ _ _ (agree_value_path env hschema c hw fuel) this
      tableNumber S v hS hflags h,
    (strict_lookup_primitive _ env (strict_value_primitive env fuel) this c S tableNumber v h).1⟩

/-- C24, amended, at an instance: the selector `heat.current` on `gaugeEnv`,
whose entry `detail`, which the selector does not name, is verbose and hidden
from a context without the flag `v`; and on `boxEnv`. -/
theorem strict_tolerant_agree_witness :
    freshContext.ShouldReport gaugeEnv 2 = false
      ∧ (gaugeEnv.entriesOnPath 4 0 freshContext "heat.current".toList 0).map
          (fun e => e.name) = ["heat".toList, "current".toList]
      ∧ (gaugeEnv.GetObjectValue 4 0 freshContext "heat.current".toList 0).result
        = .value (.fVal 123 1)
      ∧ (gaugeEnv.ReportRootAsJson 4 0 (fun _ => 0) "heat.current".toList [] false).out
        = "12.3".toList
      ∧ (boxEnv.ReportRootAsJson 4 0 (fun _ => 0) "heat.current".toList [] false).out
        = "12.3".toList :=
  ⟨by decide, by decide, by decide,
    (congrArg Outcome.out (strict_tolerant_agree gaugeEnv 4 0 freshContext
      "heat.current".toList 0 (.fVal 123 1) gaugeEnv_sorted (by decide) rfl (by decide)
      (by decide)).1).trans (by decide),
    (congrArg Outcome.out (strict_tolerant_agree boxEnv 4 0 freshContext
      "heat.current".toList 0 (.fVal 123 1) boxEnv_sorted (by decide) rfl (by decide)
      (by decide)).1).trans (by decide)⟩

/-! ## The index stack -/

theorem GetIndex_ok (c : ObjectExplorationContext) (n : Nat) (h : n < c.numIndicesCounted) :
    c.GetIndex n = .ok (c.indices (c.numIndicesCounted - n - 1)) := by
  simp only [ObjectExplorationContext.GetIndex, if_pos h]

theorem GetIndex_error (c : ObjectExplorationContext) (n : Nat) (h : ¬ n < c.numIndicesCounted) :
    c.GetIndex n = .error .InternalError := by
  simp only [ObjectExplorationContext.GetIndex, if_neg h]

/-- C25.  The index stack is last-in first-out and reading does not pop.  In a
context with fewer than `MaxIndices` counted indices `AddIndex(v)` succeeds;
after it `GetLastIndex()` and `GetIndex(0)` are `v`, and `GetIndex(n + 1)` is
what `GetIndex(n)` was, for every `n` below the old depth.  The `RemoveIndex()`
that follows succeeds and restores the depth and every `GetIndex(n)`.
`GetIndex` and `GetLastIndex` are `const`: they yield a number and no new
context. -/
theorem index_stack_lifo (M : Nat) (c : ObjectExplorationContext) (v : Int)
    (h : c.numIndicesCounted < M) :
    c.AddIndex M v = .ok (c.pushed v)
      ∧ (c.pushed v).numIndicesCounted = c.numIndicesCounted + 1
      ∧ (c.pushed v).GetLastIndex = .ok v
      ∧ (c.pushed v).GetIndex 0 = .ok v
      ∧ (∀ n, n < c.numIndicesCounted → (c.pushed v).GetIndex (n + 1) = c.GetIndex n)
      ∧ ∃ c2, (c.pushed v).RemoveIndex = .ok c2
          ∧ c2.numIndicesCounted = c.numIndicesCounted
          ∧ (∀ n, c2.GetIndex n = c.GetIndex n)
          ∧ c2.GetLastIndex = c.GetLastIndex := by
  refine ⟨AddIndex_ok M c v (by omega), rfl, ?_, ?_, ?_, ?_⟩
  · simp [ObjectExplorationContext.GetLastIndex, ObjectExplorationContext.pushed]
  · simp [ObjectExplorationContext.GetIndex, ObjectExplorationContext.pushed]
  · intro n hn
    rw [GetIndex_ok c n hn, GetIndex_ok (c.pushed v) (n + 1) (by
      show n + 1 < c.numIndicesCounted + 1
      omega)]
    have h1 : (c.pushed v).numIndicesCounted - (n + 1) - 1 = c.numIndicesCounted - n - 1 := by
      show c.numIndicesCounted + 1 - (n + 1) - 1 = c.numIndicesCounted - n - 1
      omega
    rw [h1]
    have h2 : c.numIndicesCounted - n - 1 ≠ c.numIndicesCounted := by omega
    simp [ObjectExplorationContext.pushed, Function.update, h2]
  · refine ⟨_, RemoveIndex_ok (c.pushed v) (Nat.succ_ne_zero _), ?_, ?_, ?_⟩
    · simp [ObjectExplorationContext.pushed]
    · intro n
      by_cases hn : n < c.numIndicesCounted
      · rw [GetIndex_ok c n hn]
        have h2 : c.numIndicesCounted - n - 1 ≠ c.numIndicesCounted := by omega
        simp [ObjectExplorationContext.GetIndex, ObjectExplorationContext.pushed, hn,
          Function.update, h2]
      · rw [GetIndex_error c n hn]
        simp [ObjectExplorationContext.GetIndex, ObjectExplorationContext.pushed, hn]
    · by_cases h0 : c.numIndicesCounted = 0
      · simp [ObjectExplorationContext.GetLastIndex, ObjectExplorationContext.pushed, h0]
      · have h2 : c.numIndicesCounted - 1 ≠ c.numIndicesCounted := by omega
        simp [ObjectExplorationContext.GetLastIndex, ObjectExplorationContext.pushed, h0,
          Function.update, h2]

/-- C25, at an instance: 7 pushed on a stack that holds 5. -/
theorem index_stack_lifo_witness :
    ((providedContext [] false).pushed 5).AddIndex 4 7
        = .ok (((providedContext [] false).pushed 5).pushed 7)
      ∧ (((providedContext [] false).pushed 5).pushed 7).GetLastIndex = .ok 7
      ∧ (((providedContext [] false).pushed 5).pushed 7).GetIndex 1 = .ok 5 :=
  ⟨(index_stack_lifo 4 ((providedContext [] false).pushed 5) 7 (by decide)).1,
    (index_stack_lifo 4 ((providedContext [] false).pushed 5) 7 (by decide)).2.2.1,
    ((index_stack_lifo 4 ((providedContext [] false).pushed 5) 7 (by decide)).2.2.2.2.1 0
      (by decide)).trans rfl⟩

/-- C26.  Each operation of the index stack fails exactly on its capacity or
depth violation and succeeds in every other state: `AddIndex(v)` fails iff
`counted == MaxIndices`, `ProvideIndex(v)` iff `provided == MaxIndices`,
`AddIndex()` iff `counted == provided`, `RemoveIndex()` iff `counted == 0`,
`GetIndex(n)` iff `n >= counted`, `GetLastIndex()` iff `counted == 0`.  A failed
operation yields no new context: every `throw` precedes the assignments of its
function. -/
theorem index_stack_failures (M : Nat) (c : ObjectExplorationContext) (v : Int) (n : Nat) :
    ((∃ ex, c.AddIndex M v = .error ex) ↔ c.numIndicesCounted = M)
      ∧ ((∃ c1, c.AddIndex M v = .ok c1) ↔ c.numIndicesCounted ≠ M)
      ∧ ((∃ ex, c.ProvideIndex M v = .error ex) ↔ c.numIndicesProvided = M)
      ∧ ((∃ c1, c.ProvideIndex M v = .ok c1) ↔ c.numIndicesProvided ≠ M)
      ∧ ((∃ ex, c.AddProvidedIndex = .error ex) ↔ c.numIndicesCounted = c.numIndicesProvided)
      ∧ ((∃ c1, c.AddProvidedIndex = .ok c1) ↔ c.numIndicesCounted ≠ c.numIndicesProvided)
      ∧ ((∃ ex, c.RemoveIndex = .error ex) ↔ c.numIndicesCounted = 0)
      ∧ ((∃ c1, c.RemoveIndex = .ok c1) ↔ c.numIndicesCounted ≠ 0)
      ∧ ((∃ ex, c.GetIndex n = .error ex) ↔ n ≥ c.numIndicesCounted)
      ∧ ((∃ i, c.GetIndex n = .ok i) ↔ n < c.numIndicesCounted)
      ∧ ((∃ ex, c.GetLastIndex = .error ex) ↔ c.numIndicesCounted = 0)
      ∧ ((∃ i, c.GetLastIndex = .ok i) ↔ c.numIndicesCounted ≠ 0) := by
  refine ⟨?_, ?_, ?_, ?_, ?_, ?_, ?_, ?_, ?_, ?_, ?_, ?_⟩
  · by_cases h : c.numIndicesCounted = M <;> simp [ObjectExplorationContext.AddIndex, h]
  · by_cases h : c.numIndicesCounted = M <;> simp [ObjectExplorationContext.AddIndex, h]
  · by_cases h : c.numIndicesProvided = M <;> simp [ObjectExplorationContext.ProvideIndex, h]
  · by_cases h : c.numIndicesProvided = M <;> simp [ObjectExplorationContext.ProvideIndex, h]
  · by_cases h : c.numIndicesCounted = c.numIndicesProvided <;>
      simp [ObjectExplorationContext.AddProvidedIndex, h]
  · by_cases h : c.numIndicesCounted = c.numIndicesProvided <;>
      simp [ObjectExplorationContext.AddProvidedIndex, h]
  · by_cases h : c.numIndicesCounted = 0 <;> simp [ObjectExplorationContext.RemoveIndex, h]
  · by_cases h : c.numIndicesCounted = 0 <;> simp [ObjectExplorationContext.RemoveIndex, h]
  · by_cases h : n < c.numIndicesCounted
    · simp [ObjectExplorationContext.GetIndex, h]
    · simp [ObjectExplorationContext.GetIndex, h]; omega
  · by_cases h : n < c.numIndicesCounted <;> simp [ObjectExplorationContext.GetIndex, h]
  · by_cases h : c.numIndicesCounted = 0 <;> simp [ObjectExplorationContext.GetLastIndex, h]
  · by_cases h : c.numIndicesCounted = 0 <;> simp [ObjectExplorationContext.GetLastIndex, h]

/-! ## The index stack across a tolerant report -/

/-- C27, counterexample.  A context holds the provided index 7, not yet
counted.  Reporting the array of the two heaters returns normally with the
depth and the number of provided indices as before, but the slot of the
provided index now holds 1, the index of the last heater reported. -/
theorem tolerant_overwrites_provided :
    (providedContext [7] false).numIndicesProvided = 1
      ∧ (providedContext [7] false).numIndicesCounted = 0
      ∧ (providedContext [7] false).indices 0 = 7
      ∧ (ObjectModel.ReportItemAsJson sampleEnv 4 0 (providedContext [7] false) (.omadVal 0)
          []).status = .done
      ∧ (ObjectModel.ReportItemAsJson sampleEnv 4 0 (providedContext [7] false) (.omadVal 0)
          []).context.numIndicesProvided = 1
      ∧ (ObjectModel.ReportItemAsJson sampleEnv 4 0 (providedContext [7] false) (.omadVal 0)
          []).context.numIndicesCounted = 0
      ∧ (ObjectModel.ReportItemAsJson sampleEnv 4 0 (providedContext [7] false) (.omadVal 0)
          []).context.indices 0 = 1 := by
  decide

/-- C27, amended.  Tolerant traversal keeps the index stack balanced: when
`ReportItemAsJson`, `ReportArrayAsJson` or table-level `ReportAsJson` returns
normally, the counted depth equals the depth at entry, the flags and the number
of provided indices are unchanged, and every index below the depth at entry has
its value, so that the accessors see the context as before.  Slots from the
depth at entry upward are written by the pushes: a provided index is kept when
it was counted at entry, and all of them are when none was left to count. -/
theorem tolerant_keeps_stack (env : Env) (fuel : Nat) (this : ObjPtr)
    (c : ObjectExplorationContext) :
    (∀ v f, (ObjectModel.ReportItemAsJson env fuel this c v f).status = .done →
        Restored c (ObjectModel.ReportItemAsJson env fuel this c v f).context)
      ∧ (∀ a f, (ObjectModel.ReportArrayAsJson (ObjectModel.ReportItemAsJson env fuel) env this c
            (env.arrays a) f).status = .done →
        Restored c (ObjectModel.ReportArrayAsJson (ObjectModel.ReportItemAsJson env fuel) env
          this c (env.arrays a) f).context)
      ∧ (∀ t f, (env.ReportAsJson fuel this c t f).status = .done →
        Restored c (env.ReportAsJson fuel this c t f).context)
      ∧ (∀ c2, Restored c c2 →
        c2.numIndicesCounted = c.numIndicesCounted
          ∧ c2.numIndicesProvided = c.numIndicesProvided
          ∧ c2.shortForm = c.shortForm ∧ c2.onlyLive = c.onlyLive
          ∧ c2.includeVerbose = c.includeVerbose ∧ c2.wantArrayLength = c.wantArrayLength
          ∧ (∀ i, i < c.numIndicesCounted → c2.indices i = c.indices i)
          ∧ (c.numIndicesProvided ≤ c.numIndicesCounted →
              ∀ i, i < c.numIndicesProvided → c2.indices i = c.indices i)
          ∧ c2.view = c.view) :=
  ⟨fun v f h => item_restores env fuel this c v f h,
    fun _ f h => array_restores _ (item_restores env fuel) env this c _ f h,
    fun t f h => table_restores _ (item_restores env fuel) env this c t f h,
    fun _ h => ⟨h.counted, h.provided, h.shortForm, h.onlyLive, h.includeVerbose,
      h.wantArrayLength, h.below, fun hle i hi => h.below i (Nat.lt_of_lt_of_le hi hle),
      h.view_eq⟩⟩

/-- C27, amended, at an instance: the array of the two heaters reported from a
context that holds the counted index 7. -/
theorem tolerant_keeps_stack_witness :
    Restored ((providedContext [] false).pushed 7)
      (ObjectModel.ReportItemAsJson sampleEnv 4 0 ((providedContext [] false).pushed 7)
        (.omadVal 0) []).context :=
  (tolerant_keeps_stack sampleEnv 4 0 ((providedContext [] false).pushed 7)).1 (.omadVal 0) []
    (by decide)

/-! ## Strict evaluation: the counted cursor -/

theorem Advanced.same (c : ObjectExplorationContext) : Advanced c c :=
  ⟨rfl, rfl, rfl, rfl, rfl, rfl, Nat.le_refl _, fun h => h⟩

theorem Advanced.step {c c2 : ObjectExplorationContext}
    (hj : c.numIndicesCounted ≠ c.numIndicesProvided) (h : Advanced c.stepped c2) :
    Advanced c c2 := by
  have h1 : c.stepped.numIndicesCounted = c.numIndicesCounted + 1 := rfl
  have h2 : c.stepped.numIndicesProvided = c.numIndicesProvided := rfl
  refine ⟨h.indices, h.provided, h.shortForm, h.onlyLive, h.includeVerbose, h.wantArrayLength,
    ?_, ?_⟩
  · have := h.counted_ge
    omega
  · intro hle
    have := h.bounded (by rw [h1, h2]; omega)
    rw [h2] at this
    exact this

theorem Advanced.of_stepped (c : ObjectExplorationContext)
    (hj : c.numIndicesCounted ≠ c.numIndicesProvided) : Advanced c c.stepped :=
  Advanced.step hj (Advanced.same _)

theorem strict_lookup_advances (getter : ValueGetter) (hg : getter.Advances) (env : Env)
    (this : ObjPtr) (c : ObjectExplorationContext) (id : List Char) (t : Nat) :
    Advanced c (ObjectModel.GetObjectValue getter env this c id t).context := by
  rcases strict_lookup_cases getter env this c id t with h1 | h1 | ⟨k, e, _, _, h1⟩
  · rw [h1]; exact Advanced.same c
  · rw [h1]; exact Advanced.same c
  · rw [h1]; exact hg _ _ _ _

/-- Strict evaluation moves the counted cursor forward only and changes nothing
else in the context. -/
theorem strict_value_advances (env : Env) (fuel : Nat) :
    (ObjectModel.GetObjectValue.ofValue env fuel).Advances := by
  induction fuel with
  | zero => intro this c val s; exact Advanced.same c
  | succ fuel ih =>
    intro this c val s
    by_cases hp : val.isPrimitive = true
    · rw [strict_primitive env fuel this c val s hp]
      split <;> exact Advanced.same c
    · cases val with
      | omadVal a =>
        by_cases h1 : peek s = NUL ∧ c.wantArrayLength = true
        · rw [strict_array_length env fuel this c a s h1]
          exact Advanced.same c
        · by_cases h2 : peek s = '^'
          · obtain ⟨rest, rfl⟩ := peek_eq_cons h2 (by decide)
            rw [strict_array_caret]
            by_cases hj : c.numIndicesCounted = c.numIndicesProvided
            · rw [strict_element_none _ this c _ rest hj]
              exact Advanced.same c
            · rw [strict_element_step _ this c _ rest hj]
              split
              · exact Advanced.of_stepped c hj
              · exact Advanced.step hj (ih _ _ _ _)
          · rw [strict_array_missing env fuel this c a s h1 h2]
            exact Advanced.same c
      | omVal om param =>
        by_cases h1 : peek s = '.'
        · cases om with
          | none =>
            rw [strict_object_null env fuel this c param s h1]
            exact Advanced.same c
          | some p =>
            rw [strict_object_dot env fuel this c p param s h1]
            exact strict_lookup_advances _ ih env p c _ _
        · rw [strict_object_other env fuel this c om param s h1]
          exact Advanced.same c
      | _ => exact absurd rfl hp

theorem bitChar_eq (v i : Nat) : bitChar (v >>> i) = if v.testBit i then '1' else '0' := by
  unfold bitChar
  rw [Nat.and_one_is_mod, Nat.testBit_to_div_mod, Nat.shiftRight_eq_div_pow]
  by_cases h : v / 2 ^ i % 2 = 1
  · simp [h]
  · have h0 : v / 2 ^ i % 2 = 0 := by omega
    simp [h0]

theorem bitmapLoop_eq (k : Nat) : ∀ v : Nat,
    bitmapLoop k v
      = ((List.range k).map (fun j => [',', bitChar (v >>> (j + 1))])).flatten := by
  induction k with
  | zero => intro v; rfl
  | succ k ih =>
    intro v
    rw [bitmapLoop, ih (v >>> 1), List.range_succ_eq_map, List.map_cons, List.flatten_cons,
      List.map_map]
    have hf : (fun j => [',', bitChar (v >>> 1 >>> (j + 1))])
        = ((fun j => [',', bitChar (v >>> (j + 1))]) ∘ Nat.succ) := by
      funext j
      simp only [Function.comp, Nat.succ_eq_add_one]
      rw [← Nat.shiftRight_add, Nat.add_comm 1 (j + 1)]
    rw [hf]
    simp

/-- The long bitmap form is the bracketed, comma-joined list of the 32 tokens. -/
theorem formatBitmap_eq (v : Nat) :
    formatBitmap v = '[' :: (commaJoin ((bitmapTokens v).map (fun t => [t])) ++ [']']) := by
  have h0 : bitChar v = if v.testBit 0 then '1' else '0' := by
    have := bitChar_eq v 0
    simpa using this
  have hr : bitmapTokens v
      = (if v.testBit 0 then '1' else '0')
          :: (List.range 31).map (fun j => bitChar (v >>> (j + 1))) := by
    unfold bitmapTokens
    rw [List.range_succ_eq_map 31, List.map_cons, List.map_map]
    congr 1
    apply List.map_congr_left
    intro j _
    simp only [Function.comp, Nat.succ_eq_add_one, bitChar_eq]
  unfold formatBitmap
  rw [bitmapLoop_eq, hr, List.map_cons, commaJoin_cons, h0]
  simp only [List.map_map, List.cons_append, List.singleton_append, List.nil_append]
  rfl

theorem bitmapValue_tokens (k : Nat) : ∀ v : Nat,
    bitmapValue ((List.range k).map (fun i => if v.testBit i then '1' else '0')) = v % 2 ^ k := by
  induction k with
  | zero => intro v; simp [bitmapValue, Nat.mod_one]
  | succ k ih =>
    intro v
    rw [List.range_succ_eq_map, List.map_cons, List.map_map, bitmapValue]
    have hf : ((fun i => if v.testBit i then '1' else '0') ∘ Nat.succ)
        = (fun i => if (v / 2).testBit i then '1' else '0') := by
      funext i
      simp only [Function.comp, Nat.succ_eq_add_one, Nat.testBit_succ]
    rw [hf, ih (v / 2), pow_succ, Nat.mul_comm (2 ^ k) 2, Nat.mod_mul]
    have h1 : (if (if v.testBit 0 = true then '1' else '0') = '1' then 1 else 0) = v % 2 := by
      rw [Nat.testBit_zero]
      by_cases h : v % 2 = 1
      · simp [h]
      · have h0 : v % 2 = 0 := by omega
        simp [h0]
    rw [h1]

theorem bitmapTokens_length (v : Nat) : (bitmapTokens v).length = 32 := by
  simp [bitmapTokens]

theorem commaJoin_singletons_length : ∀ (ts : List Char),
    (commaJoin (ts.map (fun t => [t]))).length = 2 * ts.length - 1 := by
  intro ts
  cases ts with
  | nil => rfl
  | cons t ts =>
    rw [List.map_cons, commaJoin_cons]
    simp only [List.map_map, List.length_append, List.length_singleton, List.length_cons,
      List.length_nil]
    have : ∀ l : List Char, (List.map ((fun t => ',' :: t) ∘ fun t => [t]) l).flatten.length
        = 2 * l.length := by
      intro l
      induction l with
      | nil => rfl
      | cons a l ih => simp [ih]; omega
    rw [this]
    omega

/-- C29, counterexample.  In a request for an array length (`wantArrayLength`
set) whose filter is used up, a `Bitmap32` value is reported as `null`, in long
form and in short form, neither as its decimal text nor as the list of its
bits. -/
theorem bitmap_in_length_request :
    (providedContext [] true).wantArrayLength = true
      ∧ (providedContext [] true).shortForm = false
      ∧ (ObjectModel.ReportItemAsJson sampleEnv 1 0 (providedContext [] true) (.bitmap32 5)
          []).out = nullText
      ∧ (ObjectExplorationContext.create (fun _ => 0) ['s'] true).shortForm = true
      ∧ (ObjectModel.ReportItemAsJson sampleEnv 1 0
          (ObjectExplorationContext.create (fun _ => 0) ['s'] true) (.bitmap32 5) []).out
          = nullText := by
  decide

/-- C29, amended.  Unless the call is a request for an array length whose
filter is used up (`wantArrayLength` set and the filter empty, where `null` is
reported), a `Bitmap32` value is reported in short form as the decimal text of
the value, and in long form as `[`, 32 single-character tokens separated by
commas, and `]`, 65 characters in all; token `i` is `1` when bit `i` of the
value is set and `0` otherwise, least significant bit first, so that the tokens
spell the value (the value modulo 2^32).  The value `0b101` gives `5` and
`[1,0,1,0,...,0]`. -/
theorem bitmap_rendering (env : Env) (fuel : Nat) (this : ObjPtr)
    (c : ObjectExplorationContext) (u : Nat) (f : List Char)
    (hw : ¬ (c.wantArrayLength = true ∧ peek f = NUL)) :
    (c.shortForm = true →
        (ObjectModel.ReportItemAsJson env (fuel + 1) this c (.bitmap32 u) f).out
          = formatUnsigned u)
      ∧ (c.shortForm = false →
        (ObjectModel.ReportItemAsJson env (fuel + 1) this c (.bitmap32 u) f).out
            = '[' :: (commaJoin ((bitmapTokens u).map (fun t => [t])) ++ [']'])
          ∧ (ObjectModel.ReportItemAsJson env (fuel + 1) this c (.bitmap32 u) f).out.length = 65)
      ∧ (bitmapTokens u).length = 32
      ∧ (∀ i, i < 32 → (bitmapTokens u).get? i = some (if u.testBit i then '1' else '0'))
      ∧ bitmapValue (bitmapTokens u) = u % 2 ^ 32
      ∧ (u < 2 ^ 32 → bitmapValue (bitmapTokens u) = u)
      ∧ formatUnsigned 5 = ['5']
      ∧ formatBitmap 5
          = "[1,0,1,0,0,0,0,0,0,0,0,0,0,0,0,0,0,0,0,0,0,0,0,0,0,0,0,0,0,0,0,0]".toList := by
  have hout : (ObjectModel.ReportItemAsJson env (fuel + 1) this c (.bitmap32 u) f).out
      = if c.shortForm then formatUnsigned u else formatBitmap u := by
    simp only [ObjectModel.ReportItemAsJson, if_neg hw]
  refine ⟨?_, ?_, bitmapTokens_length u, ?_, bitmapValue_tokens 32 u, ?_, by decide, by decide⟩
  · intro hs
    rw [hout, hs]
    rfl
  · intro hs
    rw [hout, hs, formatBitmap_eq]
    refine ⟨rfl, ?_⟩
    simp only [Bool.false_eq_true, if_false, List.length_cons, List.length_append,
      List.length_singleton, commaJoin_singletons_length, bitmapTokens_length, List.length_nil]
  · intro i hi
    simp [bitmapTokens, List.get?_eq_getElem?, hi]
  · intro hu
    exact (bitmapValue_tokens 32 u).trans (Nat.mod_eq_of_lt hu)

/-- C29, amended, at an instance: the bitmap `0b101` in long form. -/
theorem bitmap_rendering_witness :
    (ObjectModel.ReportItemAsJson sampleEnv 1 0 freshContext (.bitmap32 5) []).out
        = "[1,0,1,0,0,0,0,0,0,0,0,0,0,0,0,0,0,0,0,0,0,0,0,0,0,0,0,0,0,0,0,0]".toList
      ∧ bitmapValue (bitmapTokens 5) = 5 :=
  ⟨((bitmap_rendering sampleEnv 0 0 freshContext 5 [] (by decide)).2.1 rfl).1.trans (by decide),
    (bitmap_rendering sampleEnv 0 0 freshContext 5 [] (by decide)).2.2.2.2.2.1 (by decide)⟩

/-! ## Dates -/

theorem toDigitsCore_digits (fuel : Nat) : ∀ (n : Nat) (ds : List Char),
    (∀ ch ∈ ds, ch.isDigit = true) →
    ∀ ch ∈ Nat.toDigitsCore 10 fuel n ds, ch.isDigit = true := by
  induction fuel with
  | zero => intro n ds h; exact h
  | succ fuel ih =>
    intro n ds h
    have hd : (Nat.digitChar (n % 10)).isDigit = true := by
      have hlt : n % 10 < 10 := Nat.mod_lt _ (by decide)
      generalize n % 10 = m at hlt
      interval_cases m <;> decide
    have hds : ∀ ch ∈ Nat.digitChar (n % 10) :: ds, ch.isDigit = true := by
      intro ch hch
      rcases List.mem_cons.1 hch with rfl | h2
      · exact hd
      · exact h ch h2
    simp only [Nat.toDigitsCore]
    split
    · exact hds
    · exact ih _ _ hds

/-- The text of `%u` is made of decimal digits. -/
theorem formatUnsigned_digits (n : Nat) : ∀ ch ∈ formatUnsigned n, ch.isDigit = true :=
  toDigitsCore_digits _ n [] (fun _ h => absurd h (List.not_mem_nil _))

theorem formatPadded_digits (w n : Nat) : ∀ ch ∈ formatPadded w n, ch.isDigit = true := by
  intro ch h
  rcases List.mem_append.1 h with h1 | h1
  · rw [(List.mem_replicate.1 h1).2]; decide
  · exact formatUnsigned_digits n ch h1

/-- The text of `%0<w>u` has exactly `w` characters for a number below `10^w`. -/
theorem formatPadded_length (w n : Nat) (hw : 0 < w) (hn : n < 10 ^ w) :
    (formatPadded w n).length = w := by
  have h := Nat.repr_length n w hw hn
  have h2 : (formatUnsigned n).length = (Nat.repr n).length := rfl
  simp only [formatPadded, List.length_append, List.length_replicate, h2]
  omega

/-- C30, counterexample.  The date one second after the start of 1970 is
reported as `"1970-01-01T00:00:01"`, and the date 1700000000 as
`"2023-11-14T22:13:20"`: no letter `Z` stands before the closing quote.  In a
request for an array length whose filter is used up, a date that is not zero is
reported as `null`. -/
theorem date_without_zone_letter :
    (ObjectModel.ReportItemAsJson sampleEnv 1 0 freshContext (.dateTime 1) []).out
        = DQUOTE :: ("1970-01-01T00:00:01".toList ++ [DQUOTE])
      ∧ 'Z' ∉ (ObjectModel.ReportItemAsJson sampleEnv 1 0 freshContext (.dateTime 1) []).out
      ∧ (ObjectModel.ReportItemAsJson sampleEnv 1 0 freshContext (.dateTime 1700000000) []).out
        = DQUOTE :: ("2023-11-14T22:13:20".toList ++ [DQUOTE])
      ∧ (ObjectModel.ReportItemAsJson sampleEnv 1 0 (providedContext [] true) (.dateTime 1)
          []).out = nullText := by
  decide

/-- C30, amended.  Unless the call is a request for an array length whose
filter is used up (`wantArrayLength` set and the filter empty, where `null` is
reported): a `DateTime` of zero is reported as `null`, and every other one is
reported as a double quote, the year plus 1900 zero-padded to four
digits, `-`, the month plus one zero-padded to two digits, `-`, the day, `T`,
hour, `:`, minute, `:`, second, each zero-padded to two digits, and a double
quote, from the fields that `gmtime_r` gives: the shape `YYYY-MM-DDThh:mm:ss`
in quotes, 21 characters when the year is below 10000 and the other numbers
below 100.  No letter `Z` is written. -/
theorem date_rendering (env : Env) (fuel : Nat) (this : ObjPtr)
    (c : ObjectExplorationContext) (time : Nat) (f : List Char)
    (hw : ¬ (c.wantArrayLength = true ∧ peek f = NUL)) :
    (time = 0 →
        (ObjectModel.ReportItemAsJson env (fuel + 1) this c (.dateTime time) f).out = nullText)
      ∧ (time ≠ 0 →
        (ObjectModel.ReportItemAsJson env (fuel + 1) this c (.dateTime time) f).out
            = DQUOTE :: (formatPadded 4 ((env.gmtime_r time).tm_year + 1900)
                ++ '-' :: (formatPadded 2 ((env.gmtime_r time).tm_mon + 1)
                ++ '-' :: (formatPadded 2 (env.gmtime_r time).tm_mday
                ++ 'T' :: (formatPadded 2 (env.gmtime_r time).tm_hour
                ++ ':' :: (formatPadded 2 (env.gmtime_r time).tm_min
                ++ ':' :: (formatPadded 2 (env.gmtime_r time).tm_sec ++ [DQUOTE]))))))
          ∧ 'Z' ∉ (ObjectModel.ReportItemAsJson env (fuel + 1) this c (.dateTime time) f).out
          ∧ ((env.gmtime_r time).tm_year + 1900 < 10000 → (env.gmtime_r time).tm_mon + 1 < 100 →
              (env.gmtime_r time).tm_mday < 100 → (env.gmtime_r time).tm_hour < 100 →
              (env.gmtime_r time).tm_min < 100 → (env.gmtime_r time).tm_sec < 100 →
              (ObjectModel.ReportItemAsJson env (fuel + 1) this c (.dateTime time) f).out.length
                = 21))
      ∧ (∀ w n, (∀ ch ∈ formatPadded w n, ch.isDigit = true)
          ∧ (0 < w → n < 10 ^ w → (formatPadded w n).length = w)) := by
  have hout : (ObjectModel.ReportItemAsJson env (fuel + 1) this c (.dateTime time) f).out
      = if time = 0 then nullText else formatDateTime (env.gmtime_r time) := by
    simp only [ObjectModel.ReportItemAsJson, if_neg hw]
  refine ⟨?_, ?_, fun w n => ⟨formatPadded_digits w n, formatPadded_length w n⟩⟩
  · intro h0
    rw [hout, if_pos h0]
  · intro h0
    rw [hout, if_neg h0]
    refine ⟨rfl, ?_, ?_⟩
    · have hd : ∀ w n, 'Z' ∉ formatPadded w n := by
        intro w n h
        have := formatPadded_digits w n 'Z' h
        revert this
        decide
      simp only [formatDateTime, List.mem_cons, List.mem_append, List.mem_singleton,
        List.not_mem_nil, not_or]
      exact ⟨by decide, hd _ _, by decide, hd _ _, by decide, hd _ _, by decide, hd _ _,
        by decide, hd _ _, by decide, hd _ _, by decide, not_false⟩
    · intro h1 h2 h3 h4 h5 h6
      simp only [formatDateTime, List.length_cons, List.length_append, List.length_singleton,
        List.length_nil,
        formatPadded_length 4 _ (by decide) h1, formatPadded_length 2 _ (by decide) h2,
        formatPadded_length 2 _ (by decide) h3, formatPadded_length 2 _ (by decide) h4,
        formatPadded_length 2 _ (by decide) h5, formatPadded_length 2 _ (by decide) h6]

/-- C30, amended, at an instance: the date one second after the start of 1970
on `sampleEnv`, and the date zero. -/
theorem date_rendering_witness :
    (ObjectModel.ReportItemAsJson sampleEnv 1 0 freshContext (.dateTime 1) []).out
        = DQUOTE :: ("1970-01-01T00:00:01".toList ++ [DQUOTE])
      ∧ (ObjectModel.ReportItemAsJson sampleEnv 1 0 freshContext (.dateTime 0) []).out
        = nullText :=
  ⟨((date_rendering sampleEnv 0 0 freshContext 1 [] (by decide)).2.1 (by decide)).1.trans
      (by decide),
    (date_rendering sampleEnv 0 0 freshContext 0 [] (by decide)).1 rfl⟩

/-! ## Strict evaluation comes to an end -/

theorem strict_lookup_runs (getter : ValueGetter) (n : Nat) (hg : getter.RunsUpTo n) (env : Env)
    (this : ObjPtr) (c : ObjectExplorationContext) (id : List Char) (t : Nat)
    (hid : id.length ≤ n) :
    (ObjectModel.GetObjectValue getter env this c id t).result ≠ .outOfFuel := by
  rcases strict_lookup_cases getter env this c id t with h1 | h1 | ⟨k, e, _, _, h1⟩
  · rw [h1]; intro h; cases h
  · rw [h1]; intro h; cases h
  · rw [h1]
    exact hg _ _ _ _ (Nat.le_trans (GetNextElement_length id) hid)

theorem strict_element_runs (getter : ValueGetter) (n : Nat) (hg : getter.RunsUpTo n)
    (this : ObjPtr) (c : ObjectExplorationContext) (omad : ObjectModelArrayDescriptor)
    (rest : List Char) (hr : rest.length ≤ n) :
    (ObjectModel.GetObjectValue.element getter this c omad rest).result ≠ .outOfFuel := by
  rcases strict_element_cases getter this c omad rest with h1 | h1 | ⟨_, h1⟩
  · rw [h1]; intro h; cases h
  · rw [h1]; intro h; cases h
  · rw [h1]; exact hg _ _ _ _ hr

/-- The value overload with nesting bound `n + 1` comes to an end on every
selector of at most `n` characters: each nested call is on a shorter
selector. -/
theorem strict_value_runs (env : Env) (n : Nat) :
    (ObjectModel.GetObjectValue.ofValue env (n + 1)).RunsUpTo n := by
  induction n with
  | zero =>
    intro this c val s hs
    have hnil : s = [] := List.length_eq_zero.1 (Nat.le_zero.1 hs)
    subst hnil
    by_cases hp : val.isPrimitive = true
    · rw [strict_primitive env 0 this c val [] hp]
      split <;> (intro h; cases h)
    · cases val with
      | omadVal a =>
        by_cases h1 : peek ([] : List Char) = NUL ∧ c.wantArrayLength = true
        · rw [strict_array_length env 0 this c a [] h1]; intro h; cases h
        · rw [strict_array_missing env 0 this c a [] h1 (by simp only [peek]; decide)]
          intro h; cases h
      | omVal om param =>
        rw [strict_object_other env 0 this c om param [] (by simp only [peek]; decide)]
        intro h; cases h
      | _ => exact absurd rfl hp
  | succ n ih =>
    intro this c val s hs
    by_cases hp : val.isPrimitive = true
    · rw [strict_primitive env (n + 1) this c val s hp]
      split <;> (intro h; cases h)
    · cases val with
      | omadVal a =>
        by_cases h1 : peek s = NUL ∧ c.wantArrayLength = true
        · rw [strict_array_length env (n + 1) this c a s h1]; intro h; cases h
        · by_cases h2 : peek s = '^'
          · obtain ⟨rest, rfl⟩ := peek_eq_cons h2 (by decide)
            rw [strict_array_caret]
            exact strict_element_runs _ n ih this c _ rest
              (by simp only [List.length_cons] at hs; omega)
          · rw [strict_array_missing env (n + 1) this c a s h1 h2]; intro h; cases h
      | omVal om param =>
        by_cases h1 : peek s = '.'
        · obtain ⟨rest, rfl⟩ := peek_eq_cons h1 (by decide)
          cases om with
          | none =>
            rw [strict_object_null env (n + 1) this c param _ h1]; intro h; cases h
          | some p =>
            rw [strict_object_dot env (n + 1) this c p param _ h1]
            exact strict_lookup_runs _ n ih env p c rest _
              (by simp only [List.length_cons] at hs; omega)
        · rw [strict_object_other env (n + 1) this c om param s h1]; intro h; cases h
      | _ => exact absurd rfl hp

theorem strict_lookup_agree (g1 g2 : ValueGetter) (n : Nat) (hg : g1.AgreeUpTo g2 n) (env : Env)
    (this : ObjPtr) (c : ObjectExplorationContext) (id : List Char) (t : Nat)
    (hid : id.length ≤ n) :
    ObjectModel.GetObjectValue g1 env this c id t = ObjectModel.GetObjectValue g2 env this c id t := by
  unfold ObjectModel.GetObjectValue
  split
  · rfl
  · split
    · rfl
    · exact hg _ _ _ _ (Nat.le_trans (GetNextElement_length id) hid)

theorem strict_element_agree (g1 g2 : ValueGetter) (n : Nat) (hg : g1.AgreeUpTo g2 n)
    (this : ObjPtr) (c : ObjectExplorationContext) (omad : ObjectModelArrayDescriptor)
    (rest : List Char) (hr : rest.length ≤ n) :
    ObjectModel.GetObjectValue.element g1 this c omad rest
      = ObjectModel.GetObjectValue.element g2 this c omad rest := by
  by_cases hj : c.numIndicesCounted = c.numIndicesProvided
  · rw [strict_element_none g1 this c omad rest hj, strict_element_none g2 this c omad rest hj]
  · rw [strict_element_step g1 this c omad rest hj, strict_element_step g2 this c omad rest hj,
      hg _ _ _ _ hr]

/-- Beyond the length of the selector plus one, the nesting bound makes no
difference to the value overload. -/
theorem strict_value_agree (env : Env) (n : Nat) : ∀ k,
    (ObjectModel.GetObjectValue.ofValue env (n + 1 + k)).AgreeUpTo
      (ObjectModel.GetObjectValue.ofValue env (n + 1)) n := by
  induction n with
  | zero =>
    intro k this c val s hs
    have hnil : s = [] := List.length_eq_zero.1 (Nat.le_zero.1 hs)
    subst hnil
    have hk : 0 + 1 + k = k + 1 := by omega
    rw [hk]
    by_cases hp : val.isPrimitive = true
    · rw [strict_primitive env k this c val [] hp, strict_primitive env 0 this c val [] hp]
    · cases val with
      | omadVal a =>
        by_cases h1 : peek ([] : List Char) = NUL ∧ c.wantArrayLength = true
        · rw [strict_array_length env k this c a [] h1, strict_array_length env 0 this c a [] h1]
        · rw [strict_array_missing env k this c a [] h1 (by simp only [peek]; decide),
            strict_array_missing env 0 this c a [] h1 (by simp only [peek]; decide)]
      | omVal om param =>
        rw [strict_object_other env k this c om param [] (by simp only [peek]; decide),
          strict_object_other env 0 this c om param [] (by simp only [peek]; decide)]
      | _ => exact absurd rfl hp
  | succ n ih =>
    intro k this c val s hs
    have hk : n + 1 + 1 + k = (n + 1 + k) + 1 := by omega
    rw [hk]
    by_cases hp : val.isPrimitive = true
    · rw [strict_primitive env _ this c val s hp, strict_primitive env (n + 1) this c val s hp]
    · cases val with
      | omadVal a =>
        by_cases h1 : peek s = NUL ∧ c.wantArrayLength = true
        · rw [strict_array_length env _ this c a s h1,
            strict_array_length env (n + 1) this c a s h1]
        · by_cases h2 : peek s = '^'
          · obtain ⟨rest, rfl⟩ := peek_eq_cons h2 (by decide)
            rw [strict_array_caret, strict_array_caret]
            exact strict_element_agree _ _ n (ih k) this c _ rest
              (by simp only [List.length_cons] at hs; omega)
          · rw [strict_array_missing env _ this c a s h1 h2,
              strict_array_missing env (n + 1) this c a s h1 h2]
      | omVal om param =>
        by_cases h1 : peek s = '.'
        · obtain ⟨rest, rfl⟩ := peek_eq_cons h1 (by decide)
          cases om with
          | none =>
            rw [strict_object_null env _ this c param _ h1,
              strict_object_null env (n + 1) this c param _ h1]
          | some p =>
            rw [strict_object_dot env _ this c p param _ h1,
              strict_object_dot env (n + 1) this c p param _ h1]
            exact strict_lookup_agree _ _ n (ih k) env p c rest _
              (by simp only [List.length_cons] at hs; omega)
        · rw [strict_object_other env _ this c om param s h1,
            strict_object_other env (n + 1) this c om param s h1]
      | _ => exact absurd rfl hp

/-- C31, counterexample.  Four `AddIndex(0)`, two `RemoveIndex()` and one
`ProvideIndex(0)` lead from a fresh context to one with two counted indices
and one provided index, all four slots holding 0: the context `mixedContext`.
From it, strict evaluation of `nest^^` on arrays that nest makes two caret
steps and returns the length of the innermost array, four indices being
counted at the end: more caret steps than provided indices. -/
theorem strict_carets_beyond_provided :
    (runOps 4 [.AddIndex 0, .AddIndex 0, .AddIndex 0, .AddIndex 0, .RemoveIndex, .RemoveIndex,
        .ProvideIndex 0] (ObjectExplorationContext.create (fun _ => 0) [] true)).map
        (fun c => (c.numIndicesCounted, c.numIndicesProvided, c.wantArrayLength,
          c.indices 0, c.indices 1, c.indices 2, c.indices 3)) = some (2, 1, true, 0, 0, 0, 0)
      ∧ mixedContext.numIndicesCounted = 2 ∧ mixedContext.numIndicesProvided = 1
      ∧ (nestEnv.GetObjectValue 4 0 mixedContext "nest^^".toList 0).result = .value (.iVal 1)
      ∧ (nestEnv.GetObjectValue 4 0 mixedContext "nest^^".toList 0).context.numIndicesCounted = 4
      ∧ ObjectModel.GetObjectValue.ofValue nestEnv 3 0 mixedContext (.omadVal 0) "^^".toList
          = ObjectModel.GetObjectValue.ofValue nestEnv 2 0 mixedContext.stepped (.omadVal 0)
              "^".toList
      ∧ ObjectModel.GetObjectValue.ofValue nestEnv 2 0 mixedContext.stepped (.omadVal 0)
            "^".toList
          = ObjectModel.GetObjectValue.ofValue nestEnv 1 0 mixedContext.stepped.stepped
              (.omadVal 0) [] := by
  refine ⟨rfl, rfl, rfl, by decide, by decide, ?_, ?_⟩
  · rw [show "^^".toList = '^' :: "^".toList from rfl, strict_array_caret,
      strict_element_step _ 0 mixedContext _ _ (by decide)]
    exact if_neg (by decide)
  · rw [show "^".toList = '^' :: [] from rfl, strict_array_caret,
      strict_element_step _ 0 mixedContext.stepped _ _ (by decide)]
    exact if_neg (by decide)

/-- C31, amended.  Strict evaluation comes to an end on every input, whatever
the schema (also when accessors return the owning object again), the context
and the selector: the value overload makes each nested call on a strictly
shorter selector, the table overload passing on a selector no longer than its
own, so that a nesting of the value overload of the length of the selector plus
one is enough, and every greater bound gives the same outcome.  From a context
whose counted indices do not exceed the provided ones, the indices counted at
the end do not exceed them either: the caret steps made are at most the
provided indices not yet counted. -/
theorem strict_terminates (env : Env) (fuel : Nat) (this : ObjPtr)
    (c : ObjectExplorationContext) (idString : List Char) (tableNumber : Nat) :
    (idString.length + 1 ≤ fuel →
        (env.GetObjectValue fuel this c idString tableNumber).result ≠ .outOfFuel
          ∧ env.GetObjectValue fuel this c idString tableNumber
            = env.GetObjectValue (idString.length + 1) this c idString tableNumber)
      ∧ (GetNextElement idString).length ≤ idString.length
      ∧ (c.numIndicesCounted ≤ c.numIndicesProvided →
          (env.GetObjectValue fuel this c idString tableNumber).context.numIndicesCounted
              ≤ c.numIndicesProvided
            ∧ (env.GetObjectValue fuel this c idString tableNumber).context.numIndicesCounted
                - c.numIndicesCounted ≤ c.numIndicesProvided - c.numIndicesCounted) := by
  refine ⟨?_, GetNextElement_length idString, ?_⟩
  · intro hf
    obtain ⟨k, rfl⟩ := Nat.exists_eq_add_of_le hf
    have hag : env.GetObjectValue (idString.length + 1 + k) this c idString tableNumber
        = env.GetObjectValue (idString.length + 1) this c idString tableNumber :=
      strict_lookup_agree _ _ idString.length (strict_value_agree env idString.length k) env this
        c idString tableNumber (Nat.le_refl _)
    rw [hag]
    exact ⟨strict_lookup_runs _ idString.length (strict_value_runs env idString.length) env this
      c idString tableNumber (Nat.le_refl _), rfl⟩
  · intro hle
    have h := strict_lookup_advances _ (strict_value_advances env fuel) env this c idString
      tableNumber
    have h1 := h.bounded hle
    exact ⟨h1, Nat.sub_le_sub_right h1 _⟩

/-- C31, amended, at an instance: `heaters^.current` with the provided index 2
comes to an end within the bound 17 as within every greater one. -/
theorem strict_terminates_witness :
    (threeHeaters.GetObjectValue 20 0 (providedContext [2] false) "heaters^.current".toList
        0).result = .value (.fVal 125 1) :=
  (congrArg StrictOutcome.result
    ((strict_terminates threeHeaters 20 0 (providedContext [2] false) "heaters^.current".toList
      0).1 (by decide)).2).trans (by decide)

/-! ## The capacity of the index stack -/

theorem runOps_cons_ok (M : Nat) (op : IndexOp) (ops : List IndexOp)
    (c c2 : ObjectExplorationContext) (h : op.apply M c = .ok c2) :
    runOps M (op :: ops) c = runOps M ops c2 := by
  simp only [runOps, h]

theorem runOps_cons (M : Nat) (op : IndexOp) (ops : List IndexOp)
    (c c3 : ObjectExplorationContext) (h : runOps M (op :: ops) c = some c3) :
    ∃ c2, op.apply M c = .ok c2 ∧ runOps M ops c2 = some c3 := by
  cases h2 : op.apply M c with
  | error ex => simp only [runOps, h2] at h; cases h
  | ok c2 => exact ⟨c2, rfl, by rw [runOps_cons_ok M op ops c c2 h2] at h; exact h⟩

/-- What one successful operation does to the two cursors. -/
theorem IndexOp.apply_cursors (M : Nat) (op : IndexOp) (c c2 : ObjectExplorationContext)
    (h : op.apply M c = .ok c2) :
    (∃ v, op = .AddIndex v ∧ c.numIndicesCounted ≠ M
        ∧ c2.numIndicesCounted = c.numIndicesCounted + 1
        ∧ c2.numIndicesProvided = c.numIndicesProvided)
      ∨ (op = .AddProvidedIndex ∧ c.numIndicesCounted ≠ c.numIndicesProvided
        ∧ c2.numIndicesCounted = c.numIndicesCounted + 1
        ∧ c2.numIndicesProvided = c.numIndicesProvided)
      ∨ (op = .RemoveIndex ∧ c.numIndicesCounted ≠ 0
        ∧ c2.numIndicesCounted = c.numIndicesCounted - 1
        ∧ c2.numIndicesProvided = c.numIndicesProvided)
      ∨ (∃ v, op = .ProvideIndex v ∧ c.numIndicesProvided ≠ M
        ∧ c2.numIndicesCounted = c.numIndicesCounted
        ∧ c2.numIndicesProvided = c.numIndicesProvided + 1) := by
  cases op with
  | AddIndex v =>
    left
    simp only [IndexOp.apply, ObjectExplorationContext.AddIndex] at h
    split at h
    · cases h
    · rename_i hne
      cases h
      exact ⟨v, rfl, hne, rfl, rfl⟩
  | AddProvidedIndex =>
    right; left
    simp only [IndexOp.apply, ObjectExplorationContext.AddProvidedIndex] at h
    split at h
    · cases h
    · rename_i hne
      cases h
      exact ⟨rfl, hne, rfl, rfl⟩
  | RemoveIndex =>
    right; right; left
    simp only [IndexOp.apply, ObjectExplorationContext.RemoveIndex] at h
    split at h
    · cases h
    · rename_i hne
      cases h
      exact ⟨rfl, hne, rfl, rfl⟩
  | ProvideIndex v =>
    right; right; right
    simp only [IndexOp.apply, ObjectExplorationContext.ProvideIndex] at h
    split at h
    · cases h
    · rename_i hne
      cases h
      exact ⟨v, rfl, hne, rfl, rfl⟩

/-- The provided cursor stays within the capacity. -/
theorem runOps_provided (M : Nat) (ops : List IndexOp) :
    ∀ c c3 : ObjectExplorationContext, c.numIndicesProvided ≤ M → runOps M ops c = some c3 →
      c3.numIndicesProvided ≤ M := by
  induction ops with
  | nil => intro c c3 hc h; cases h; exact hc
  | cons op ops ih =>
    intro c c3 hc h
    obtain ⟨c2, h1, h2⟩ := runOps_cons M op ops c c3 h
    apply ih c2 c3 _ h2
    rcases IndexOp.apply_cursors M op c c2 h1 with
      ⟨v, _, _, _, hp⟩ | ⟨_, _, _, hp⟩ | ⟨_, _, _, hp⟩ | ⟨v, _, hne, _, hp⟩ <;> omega

/-- Without `AddIndex()`, the counted cursor stays within the capacity. -/
theorem runOps_counted_pushes (M : Nat) (ops : List IndexOp)
    (hops : IndexOp.AddProvidedIndex ∉ ops) :
    ∀ c c3 : ObjectExplorationContext, c.numIndicesCounted ≤ M → runOps M ops c = some c3 →
      c3.numIndicesCounted ≤ M := by
  induction ops with
  | nil => intro c c3 hc h; cases h; exact hc
  | cons op ops ih =>
    intro c c3 hc h
    obtain ⟨c2, h1, h2⟩ := runOps_cons M op ops c c3 h
    apply ih (fun hm => hops (List.mem_cons_of_mem _ hm)) c2 c3 _ h2
    rcases IndexOp.apply_cursors M op c c2 h1 with
      ⟨v, _, hne, hk, _⟩ | ⟨hop, _, _, _⟩ | ⟨_, _, hk, _⟩ | ⟨v, _, _, hk, _⟩
    · omega
    · exact absurd (hop ▸ List.mem_cons_self _ _) hops
    · omega
    · omega

/-- Without `AddIndex(v)`, the counted cursor stays within the provided
indices. -/
theorem runOps_counted_steps (M : Nat) (ops : List IndexOp)
    (hops : ∀ v, IndexOp.AddIndex v ∉ ops) :
    ∀ c c3 : ObjectExplorationContext, c.numIndicesCounted ≤ c.numIndicesProvided →
      runOps M ops c = some c3 → c3.numIndicesCounted ≤ c3.numIndicesProvided := by
  induction ops with
  | nil => intro c c3 hc h; cases h; exact hc
  | cons op ops ih =>
    intro c c3 hc h
    obtain ⟨c2, h1, h2⟩ := runOps_cons M op ops c c3 h
    apply ih (fun v hm => hops v (List.mem_cons_of_mem _ hm)) c2 c3 _ h2
    rcases IndexOp.apply_cursors M op c c2 h1 with
      ⟨v, hop, _, _, _⟩ | ⟨_, hne, hk, hp⟩ | ⟨_, _, hk, hp⟩ | ⟨v, _, _, hk, hp⟩
    · exact absurd (hop ▸ List.mem_cons_self _ _) (hops v)
    · omega
    · omega
    · omega

theorem parseFlags_provided (reportFlags : List Char) :
    ∀ c : ObjectExplorationContext,
      (ObjectExplorationContext.parseFlags reportFlags c).numIndicesProvided
        = c.numIndicesProvided := by
  induction reportFlags with
  | nil => intro c; rfl
  | cons ch rest ih =>
    intro c
    simp only [ObjectExplorationContext.parseFlags]
    split
    · rfl
    · split
      · exact ih _
      · split
        · exact ih _
        · split
          · exact ih _
          · exact ih _

theorem create_provided (garbage : Nat → Int) (reportFlags : List Char) (wal : Bool) :
    (ObjectExplorationContext.create garbage reportFlags wal).numIndicesProvided = 0 :=
  parseFlags_provided reportFlags _

/-- C32, counterexample.  With a capacity of four indices, four `AddIndex(0)`
and one `AddIndex()` all succeed from a fresh context and leave five indices
counted: `AddIndex()` compares the counted cursor with the provided one only. -/
theorem index_stack_overrun :
    (runOps 4 [.AddIndex 0, .AddIndex 0, .AddIndex 0, .AddIndex 0, .AddProvidedIndex]
        (ObjectExplorationContext.create (fun _ => 0) [] false)).map
        (fun c => (c.numIndicesCounted, c.numIndicesProvided)) = some (5, 0)
      ∧ ¬ (5 ≤ 4) := by
  exact ⟨rfl, by decide⟩

/-- C32, amended.  In every context reached from a freshly constructed one by
a sequence of successful `AddIndex(v)`, `AddIndex()`, `RemoveIndex()` and
`ProvideIndex(v)` calls, `provided <= MaxIndices`; and `counted <= MaxIndices`
when the sequence holds no `AddIndex()` (as in the tolerant traversal) or no
`AddIndex(v)` (as in the strict one, where `counted <= provided` as well).
Within these bounds a successful `AddIndex(v)` writes slot `counted`, a
successful `ProvideIndex(v)` slot `provided` and a successful `GetIndex(n)`
reads slot `counted - n - 1`, all of them below `MaxIndices`. -/
theorem index_stack_capacity (M : Nat) (garbage : Nat → Int) (reportFlags : List Char)
    (wal : Bool) (ops : List IndexOp) (c : ObjectExplorationContext)
    (h : runOps M ops (ObjectExplorationContext.create garbage reportFlags wal) = some c) :
    c.numIndicesProvided ≤ M
      ∧ (IndexOp.AddProvidedIndex ∉ ops → c.numIndicesCounted ≤ M)
      ∧ ((∀ v, IndexOp.AddIndex v ∉ ops) →
          c.numIndicesCounted ≤ c.numIndicesProvided ∧ c.numIndicesCounted ≤ M)
      ∧ (c.numIndicesCounted ≤ M →
          (∀ v c2, c.AddIndex M v = .ok c2 → c.numIndicesCounted < M
            ∧ c2.indices = Function.update c.indices c.numIndicesCounted v)
          ∧ (∀ v c2, c.ProvideIndex M v = .ok c2 → c.numIndicesProvided < M
            ∧ c2.indices = Function.update c.indices c.numIndicesProvided v)
          ∧ (∀ n i, c.GetIndex n = .ok i →
              c.numIndicesCounted - n - 1 < M ∧ i = c.indices (c.numIndicesCounted - n - 1))
          ∧ (∀ i, c.GetLastIndex = .ok i →
              c.numIndicesCounted - 1 < M ∧ i = c.indices (c.numIndicesCounted - 1))) := by
  have hp := runOps_provided M ops _ c (by rw [create_provided]; exact Nat.zero_le _) h
  refine ⟨hp, ?_, ?_, ?_⟩
  · intro hops
    exact runOps_counted_pushes M ops hops _ c (by rw [create_counted]; exact Nat.zero_le _) h
  · intro hops
    have := runOps_counted_steps M ops hops _ c
      (by rw [create_counted]; exact Nat.zero_le _) h
    exact ⟨this, Nat.le_trans this hp⟩
  · intro hc
    refine ⟨?_, ?_, ?_, ?_⟩
    · intro v c2 h2
      simp only [ObjectExplorationContext.AddIndex] at h2
      split at h2
      · cases h2
      · rename_i hne
        cases h2
        exact ⟨by omega, rfl⟩
    · intro v c2 h2
      simp only [ObjectExplorationContext.ProvideIndex] at h2
      split at h2
      · cases h2
      · rename_i hne
        cases h2
        exact ⟨by omega, rfl⟩
    · intro n i h2
      simp only [ObjectExplorationContext.GetIndex] at h2
      split at h2
      · cases h2
        exact ⟨by omega, rfl⟩
      · cases h2
    · intro i h2
      simp only [ObjectExplorationContext.GetLastIndex] at h2
      split at h2
      · cases h2
        exact ⟨by omega, rfl⟩
      · cases h2

/-- C32, amended, at an instance: two pushes with a capacity of four. -/
theorem index_stack_capacity_witness :
    (((ObjectExplorationContext.create (fun _ => 0) [] false).pushed 3).pushed 5).numIndicesCounted
      ≤ 4 :=
  (index_stack_capacity 4 (fun _ => 0) [] false [.AddIndex 3, .AddIndex 5]
    (((ObjectExplorationContext.create (fun _ => 0) [] false).pushed 3).pushed 5) rfl).2.1
    (by decide)

/-! ## The next element of a selector -/

theorem GetNextElement_at_terminator (s : List Char)
    (hs : s = [] ∨ isTerminator (peek s) = true) : GetNextElement s = s := by
  cases s with
  | nil => rfl
  | cons c t =>
    have ht : isTerminator c = true := by
      rcases hs with h | h
      · cases h
      · exact h
    have h2 : ¬ (c ≠ NUL ∧ c ≠ '.' ∧ c ≠ '[' ∧ c ≠ '^') := by
      rintro ⟨_, h1, h2, h3⟩
      simp [isTerminator, h1, h2, h3] at ht
    simp only [GetNextElement, if_neg h2]

/-- After a prefix free of terminators, the next element is the rest, when the
rest is empty or starts with a terminator. -/
theorem GetNextElement_segment : ∀ (n s : List Char),
    (∀ ch ∈ n, ch ≠ NUL ∧ isTerminator ch = false) →
    (s = [] ∨ isTerminator (peek s) = true) → GetNextElement (n ++ s) = s := by
  intro n
  induction n with
  | nil => intro s _ hs; exact GetNextElement_at_terminator s hs
  | cons ch n ih =>
    intro s hn hs
    obtain ⟨h0, ht⟩ := hn ch (List.mem_cons_self _ _)
    rw [List.cons_append, GetNextElement, if_pos ⟨h0, isTerminator_false ht⟩]
    exact ih s (fun x hx => hn x (List.mem_cons_of_mem _ hx)) hs

theorem isTerminator_peek {s : List Char}
    (h : s = [] ∨ peek s = '.' ∨ peek s = '[' ∨ peek s = '^') :
    s = [] ∨ isTerminator (peek s) = true := by
  rcases h with h | h | h | h
  · exact Or.inl h
  · right; rw [h]; decide
  · right; rw [h]; decide
  · right; rw [h]; decide

theorem GetNextElement_head (id : List Char) (hid : NoNul id) :
    GetNextElement id = [] ∨ peek (GetNextElement id) = '.'
      ∨ peek (GetNextElement id) = '[' ∨ peek (GetNextElement id) = '^' := by
  induction id with
  | nil => exact Or.inl rfl
  | cons c t ih =>
    by_cases h : c ≠ NUL ∧ c ≠ '.' ∧ c ≠ '[' ∧ c ≠ '^'
    · simp only [GetNextElement, if_pos h]
      exact ih (NoNul_cons.1 hid).2
    · simp only [GetNextElement, if_neg h, peek]
      right
      have h0 := (NoNul_cons.1 hid).1
      by_cases h1 : c = '.'
      · exact Or.inl h1
      · by_cases h2 : c = '['
        · exact Or.inr (Or.inl h2)
        · by_cases h3 : c = '^'
          · exact Or.inr (Or.inr h3)
          · exact absurd ⟨h0, h1, h2, h3⟩ h

/-- C34.  For every C string `id`, `GetNextElement(id)` is the suffix of `id`
that starts at the first `.`, `[` or `^`, or the empty suffix when there is
none: `id` is a prefix free of these characters followed by
`GetNextElement(id)`, which is empty or starts with one of them.  Hence, when
an entry whose name holds none of these characters compares equal to an `id`
that is not empty and does not start with `*`, `GetNextElement(id)` is `id`
without its first `length(name)` characters. -/
theorem GetNextElement_spec (id : List Char) (hid : NoNul id) :
    GetNextElement id = id.dropWhile (fun ch => !isTerminator ch)
      ∧ id = id.takeWhile (fun ch => !isTerminator ch) ++ GetNextElement id
      ∧ (∀ ch ∈ id.takeWhile (fun ch => !isTerminator ch), ch ≠ '.' ∧ ch ≠ '[' ∧ ch ≠ '^')
      ∧ (GetNextElement id = [] ∨ peek (GetNextElement id) = '.'
          ∨ peek (GetNextElement id) = '[' ∨ peek (GetNextElement id) = '^')
      ∧ (∀ e : ObjectModelTableEntry, NoNul e.name → (∀ ch ∈ e.name, isTerminator ch = false) →
          id ≠ [] → peek id ≠ '*' → e.IdCompare id = 0 →
          GetNextElement id = id.drop e.name.length
            ∧ id = e.name ++ GetNextElement id) := by
  have h1 := GetNextElement_eq id hid
  refine ⟨h1, ?_, ?_, ?_, ?_⟩
  · rw [h1, List.takeWhile_append_dropWhile]
  · intro ch hch
    have := List.mem_takeWhile_imp hch
    simp only [Bool.not_eq_true'] at this
    exact isTerminator_false this
  · exact GetNextElement_head id hid
  · intro e hn ht hne hstar h0
    rcases IdCompare_zero e id hn hid h0 with h2 | h2 | ⟨s, h2, h3⟩
    · exact absurd h2 hne
    · exact absurd h2 hstar
    · have h4 : GetNextElement id = s := by
        rw [h2]
        exact GetNextElement_segment e.name s (fun ch hch => ⟨hn ch hch, ht ch hch⟩)
          (isTerminator_peek h3)
      rw [h4]
      constructor
      · rw [h2, List.drop_left]
      · exact h2

/-- C34, at an instance: the selector `heaters[1].current` and the entry
`heaters`. -/
theorem GetNextElement_spec_witness :
    GetNextElement "heaters[1].current".toList = "[1].current".toList
      ∧ GetNextElement "heaters[1].current".toList
        = "heaters[1].current".toList.drop "heaters".toList.length :=
  ⟨(GetNextElement_spec "heaters[1].current".toList (by decide)).1.trans (by decide),
    ((GetNextElement_spec "heaters[1].current".toList (by decide)).2.2.2.2
      { name := "heaters".toList, func := fun _ _ => .omadVal 0, flags := 1 }
      (by decide) (by decide) (by decide) (by decide) (by decide)).1⟩

/-! ## Serial scan and binary search -/

theorem scanEntries_none (id : List Char) (es : List ObjectModelTableEntry)
    (h : scanEntries id es = none) : ∀ e ∈ es, e.IdCompare id ≠ 0 := by
  induction es with
  | nil => intro e he; exact absurd he (List.not_mem_nil _)
  | cons a es ih =>
    intro e he
    simp only [scanEntries] at h
    split at h
    · cases h
    · rename_i hne
      simp only [Option.map_eq_none'] at h
      rcases List.mem_cons.1 he with rfl | h2
      · exact hne
      · exact ih h e h2

theorem scanEntries_some (id : List Char) (es : List ObjectModelTableEntry) :
    ∀ j, scanEntries id es = some j →
      ∃ e, es.get? j = some e ∧ e.IdCompare id = 0 := by
  induction es with
  | nil => intro j h; cases h
  | cons a es ih =>
    intro j h
    simp only [scanEntries] at h
    split at h
    · rename_i h0
      cases h
      exact ⟨a, rfl, h0⟩
    · cases hs : scanEntries id es with
      | none => rw [hs] at h; cases h
      | some i =>
        rw [hs] at h
        cases h
        obtain ⟨e, he, h0⟩ := ih i hs
        exact ⟨e, he, h0⟩

theorem find_none_of_no_match (o : ObjectModel) (t : Nat) (id : List Char)
    (h : ∀ e ∈ o.table t, e.IdCompare id ≠ 0) : o.FindObjectModelTableEntry t id = none := by
  cases hf : o.FindObjectModelTableEntry t id with
  | none => rfl
  | some k =>
    obtain ⟨j, e, _, hj, h0⟩ := find_sound o t k id hf
    exact absurd h0 (h e (get?_mem_table hj))

theorem tableOffset_sum (d : List Nat) (t : Nat) :
    tableOffset d t = ((List.range t).map (fun i => d.getD (i + 1) 0)).sum := by
  induction t with
  | zero => rfl
  | succ t ih =>
    rw [tableOffset, ih, List.range_succ, List.map_append, List.sum_append]
    simp
    omega

/-- The search finds what the scan finds when the first segment of the
identifier ends at the end of the string or at a dot. -/
theorem find_eq_firstMatch (o : ObjectModel) (t : Nat) (id : List Char)
    (hrange : t < o.descriptor.getD 0 0)
    (hfit : tableOffset o.descriptor t + o.descriptor.getD (t + 1) 0 ≤ o.tbl.length)
    (hsorted : SortedByName (o.table t)) (hnames : ∀ e ∈ o.table t, AlnumName e.name)
    (hid : NoNul id) (hne : id ≠ []) (hstar : peek id ≠ '*')
    (hdot : peek (GetNextElement id) = NUL ∨ peek (GetNextElement id) = '.') :
    o.FindObjectModelTableEntry t id = o.firstMatch t id := by
  unfold ObjectModel.firstMatch
  rw [if_pos hrange]
  cases hs : scanEntries id (o.table t) with
  | none => exact find_none_of_no_match o t id (scanEntries_none id _ hs)
  | some j =>
    obtain ⟨E, hE, h0⟩ := scanEntries_some id _ j hs
    have hEn := hnames E (get?_mem_table hE)
    rcases IdCompare_zero E id hEn.plain.2.1 hid h0 with h2 | h2 | ⟨s, h2, h3⟩
    · exact absurd h2 hne
    · exact absurd h2 hstar
    · have h4 : GetNextElement id = s := by
        rw [h2]
        exact GetNextElement_segment E.name s
          (fun ch hch => ⟨hEn.plain.2.1 ch hch, hEn.plain.2.2.2 ch hch⟩) (isTerminator_peek h3)
      rw [h4] at hdot
      have hlow : ∀ e ∈ o.table t, ∀ ch ∈ e.name, peek s < ch := by
        intro e he ch hch
        have hf := alnum_facts ((hnames e he).chars ch hch)
        rcases hdot with h | h
        · rw [h]; exact NUL_lt hf.2.1
        · rw [h]; exact hf.1
      have ht : peek s = NUL ∨ peek s = '.' ∨ peek s = '[' ∨ peek s = '^' := by
        rcases hdot with h | h
        · exact Or.inl h
        · exact Or.inr (Or.inl h)
      rw [h2]
      exact (find_entry_by_segment o t j E s hrange hfit hsorted
        (fun e he => (hnames e he).plain) hE ht hlow).1

/-- C33, on the code.  The table of `tempObject` is sorted strictly ascending,
its names `temp` and `tempLimit` are made of letters, and the identifiers
`temp[0]` and `temp^` are not empty and do not start with a star; the serial
scan meets the entry `temp` first, the binary search finds nothing.  The two
do agree, on every sorted table of names of letters and digits, for the
identifiers whose first segment ends at the end of the string or at a dot.
Both address the entries from the sum of the sizes of the tables below
`tableNumber` on, `descriptor[tableNumber + 1]` of them. -/
theorem scan_and_search :
    (SortedByName (tempObject.table 0)
        ∧ (∀ e ∈ tempObject.table 0, AlnumName e.name)
        ∧ tempObject.firstMatch 0 "temp[0]".toList = some 0
        ∧ tempObject.FindObjectModelTableEntry 0 "temp[0]".toList = none
        ∧ tempObject.firstMatch 0 "temp^".toList = some 0
        ∧ tempObject.FindObjectModelTableEntry 0 "temp^".toList = none)
      ∧ (∀ (o : ObjectModel) (t : Nat) (id : List Char),
          t < o.descriptor.getD 0 0 →
          tableOffset o.descriptor t + o.descriptor.getD (t + 1) 0 ≤ o.tbl.length →
          SortedByName (o.table t) → (∀ e ∈ o.table t, AlnumName e.name) →
          NoNul id → id ≠ [] → peek id ≠ '*' →
          (peek (GetNextElement id) = NUL ∨ peek (GetNextElement id) = '.') →
          o.FindObjectModelTableEntry t id = o.firstMatch t id)
      ∧ (∀ (o : ObjectModel) (t j : Nat), j < o.descriptor.getD (t + 1) 0 →
          (o.table t).get? j = o.tbl.get? (tableOffset o.descriptor t + j))
      ∧ (∀ (o : ObjectModel) (t : Nat),
          tableOffset o.descriptor t
            = ((List.range t).map (fun i => o.descriptor.getD (i + 1) 0)).sum
          ∧ (o.table t).length ≤ o.descriptor.getD (t + 1) 0) := by
  refine ⟨by decide, find_eq_firstMatch, fun o t j hj => table_get? o t j hj, ?_⟩
  intro o t
  refine ⟨tableOffset_sum _ t, ?_⟩
  simp only [ObjectModel.table, List.length_take]
  omega

/-! ## Arrays of a binary code -/

theorem GetArray.copy_spec {T : Type} (src : Nat → T) (k : Nat) :
    ∀ (i : Nat) (arr : Nat → T) (j : Nat),
      GetArray.copy src k i arr j = if i ≤ j ∧ j < i + k then src j else arr j := by
  induction k with
  | zero =>
    intro i arr j
    have : ¬ (i ≤ j ∧ j < i + 0) := by omega
    simp only [GetArray.copy, if_neg this]
  | succ k ih =>
    intro i arr j
    rw [GetArray.copy, ih]
    by_cases hj : j = i
    · subst hj
      have h1 : ¬ (j + 1 ≤ j ∧ j < j + 1 + k) := by omega
      have h2 : j ≤ j ∧ j < j + (k + 1) := by omega
      rw [if_neg h1, if_pos h2, Function.update_same]
    · rw [Function.update_noteq hj]
      by_cases h1 : i + 1 ≤ j ∧ j < i + 1 + k
      · have h2 : i ≤ j ∧ j < i + (k + 1) := by omega
        rw [if_pos h1, if_pos h2]
      · have h2 : ¬ (i ≤ j ∧ j < i + (k + 1)) := by omega
        rw [if_neg h1, if_neg h2]

theorem GetArray.pad_spec {T : Type} (last k : Nat) :
    ∀ (i : Nat) (arr : Nat → T) (j : Nat),
      GetArray.pad last k i arr j = if i ≤ j ∧ j < i + k then arr last else arr j := by
  induction k with
  | zero =>
    intro i arr j
    have : ¬ (i ≤ j ∧ j < i + 0) := by omega
    simp only [GetArray.pad, if_neg this]
  | succ k ih =>
    intro i arr j
    rw [GetArray.pad, ih]
    have hlast : Function.update arr i (arr last) last = arr last := by
      by_cases h : last = i
      · subst h; rw [Function.update_same]
      · rw [Function.update_noteq h]
    rw [hlast]
    by_cases hj : j = i
    · subst hj
      have h1 : ¬ (j + 1 ≤ j ∧ j < j + 1 + k) := by omega
      have h2 : j ≤ j ∧ j < j + (k + 1) := by omega
      rw [if_neg h1, if_pos h2, Function.update_same]
    · rw [Function.update_noteq hj]
      by_cases h1 : i + 1 ≤ j ∧ j < i + 1 + k
      · have h2 : i ≤ j ∧ j < i + (k + 1) := by omega
        rw [if_pos h1, if_pos h2]
      · have h2 : ¬ (i ≤ j ∧ j < i + (k + 1)) := by omega
        rw [if_neg h1, if_neg h2]

theorem range_map_getD {T : Type} (src : Nat → T) (n i : Nat) (d : T) (hi : i < n) :
    ((List.range n).map src).getD i d = src i := by
  simp [List.getD_eq_getElem?_getD, hi]

/-- The `switch` copies the values of the parameter to the front of the array
and sets `lastIndex` to their number less one. -/
theorem GetArray.fill_spec {F T : Type} (conv : Conversions F T) (p : CodeParameter F)
    (value : ParameterValue F) (arr : Nat → T) (vs : List T)
    (hv : p.values conv value = some vs) (hne : vs ≠ []) :
    ∃ arr1, GetArray.fill conv p value arr = some (arr1, (vs.length : Int) - 1)
      ∧ (∀ i d, i < vs.length → arr1 i = vs.getD i d)
      ∧ (∀ i, vs.length ≤ i → arr1 i = arr i) := by
  have hscalar : ∀ x : T, vs = [x] →
      (∀ i d, i < vs.length → Function.update arr 0 x i = vs.getD i d)
        ∧ (∀ i, vs.length ≤ i → Function.update arr 0 x i = arr i) := by
    intro x hx
    subst hx
    constructor
    · intro i d hi
      have h0 : i = 0 := by simpa using hi
      subst h0
      simp
    · intro i hi
      have h0 : i ≠ 0 := by
        have : 1 ≤ i := hi
        omega
      rw [Function.update_noteq h0]
  have harray : ∀ src : Nat → T, vs = (List.range p.intValue.toNat).map src →
      ((vs.length : Int) - 1 = p.intValue - 1)
        ∧ (∀ i d, i < vs.length → GetArray.copy src p.intValue.toNat 0 arr i = vs.getD i d)
        ∧ (∀ i, vs.length ≤ i → GetArray.copy src p.intValue.toNat 0 arr i = arr i) := by
    intro src hx
    have hlen : vs.length = p.intValue.toNat := by rw [hx]; simp
    have hpos : 0 < vs.length := List.length_pos.2 hne
    refine ⟨?_, ?_, ?_⟩
    · rw [hlen] at hpos ⊢
      omega
    · intro i d hi
      rw [GetArray.copy_spec, if_pos ⟨Nat.zero_le _, by omega⟩, hx,
        range_map_getD src _ i d (by omega)]
    · intro i hi
      rw [GetArray.copy_spec, if_neg (by omega)]
  unfold CodeParameter.values at hv
  unfold GetArray.fill
  cases ht : p.type <;> rw [ht] at hv <;> simp only at hv
  · cases hv
    exact ⟨_, rfl, hscalar _ rfl⟩
  · cases hv
    exact ⟨_, rfl, hscalar _ rfl⟩
  · cases hv
    exact ⟨_, rfl, hscalar _ rfl⟩
  · have hx := (Option.some.inj hv).symm
    obtain ⟨h1, h2, h3⟩ := harray _ hx
    exact ⟨_, by rw [h1], h2, h3⟩
  · have hx := (Option.some.inj hv).symm
    obtain ⟨h1, h2, h3⟩ := harray _ hx
    exact ⟨_, by rw [h1], h2, h3⟩
  · have hx := (Option.some.inj hv).symm
    obtain ⟨h1, h2, h3⟩ := harray _ hx
    exact ⟨_, by rw [h1], h2, h3⟩
  · cases hv
  · cases hv

/-- C35, on the code.  With `doPad` set, `GetArray` pads from element 1 on, not
from the end of the values: for the array 10, 20, 30 and `length` 4 the array
is left as 10, 30, 30, 30, so the value 20 is lost.  In general, for a
parameter that holds the values `vs` (at least one): with `doPad` set `length`
stays as it is, `arr[0]` is the first value and every `arr[i]` with
`1 <= i < length` is the last value; with `doPad` clear `length` becomes the
number of values and `arr[i]` is value `i` for every `i` below it.  Beyond
`length` and the values the array is left as it was. -/
theorem GetArray_padding :
    ((BinaryParser.GetArray intConversions (some threeInts) threeWords (fun _ => 0) 4 true).length
          = 4
        ∧ (List.range 4).map
            (BinaryParser.GetArray intConversions (some threeInts) threeWords (fun _ => 0) 4
              true).arr = [10, 30, 30, 30]
        ∧ threeInts.values intConversions threeWords = some [10, 20, 30])
      ∧ (∀ (F T : Type) (conv : Conversions F T) (p : CodeParameter F) (value : ParameterValue F)
          (arr : Nat → T) (length : Nat) (vs : List T) (d : T),
          p.values conv value = some vs → vs ≠ [] →
          (BinaryParser.GetArray conv (some p) value arr length true).length = length
            ∧ (BinaryParser.GetArray conv (some p) value arr length true).arr 0 = vs.getD 0 d
            ∧ (∀ i, 1 ≤ i → i < length →
                (BinaryParser.GetArray conv (some p) value arr length true).arr i
                  = vs.getD (vs.length - 1) d)
            ∧ (∀ i, length ≤ i → vs.length ≤ i →
                (BinaryParser.GetArray conv (some p) value arr length true).arr i = arr i))
      ∧ (∀ (F T : Type) (conv : Conversions F T) (p : CodeParameter F) (value : ParameterValue F)
          (arr : Nat → T) (length : Nat) (vs : List T) (d : T),
          p.values conv value = some vs → vs ≠ [] → vs.length < 4294967296 →
          (BinaryParser.GetArray conv (some p) value arr length false).length = vs.length
            ∧ (∀ i, i < vs.length →
                (BinaryParser.GetArray conv (some p) value arr length false).arr i = vs.getD i d)
            ∧ (∀ i, vs.length ≤ i →
                (BinaryParser.GetArray conv (some p) value arr length false).arr i = arr i)) := by
  refine ⟨⟨by decide, by decide, by decide⟩, ?_, ?_⟩
  · intro F T conv p value arr length vs d hv hne
    obtain ⟨arr1, hfill, h1, h2⟩ := GetArray.fill_spec conv p value arr vs hv hne
    have hpos : 0 < vs.length := List.length_pos.2 hne
    have hlast : (vs.length : Int) - 1 ≥ 0 := by omega
    have hnat : ((vs.length : Int) - 1).toNat = vs.length - 1 := by omega
    have hres : BinaryParser.GetArray conv (some p) value arr length true
        = { arr := GetArray.pad (vs.length - 1) (length - 1) 1 arr1, length := length
            internalError := false } := by
      simp only [BinaryParser.GetArray, hfill, GetArray.finish, hlast, and_self, if_true, hnat]
    rw [hres]
    refine ⟨rfl, ?_, ?_, ?_⟩
    · show GetArray.pad (vs.length - 1) (length - 1) 1 arr1 0 = _
      rw [GetArray.pad_spec, if_neg (by omega)]
      exact h1 0 d hpos
    · intro i hi1 hi2
      show GetArray.pad (vs.length - 1) (length - 1) 1 arr1 i = _
      rw [GetArray.pad_spec, if_pos ⟨hi1, by omega⟩]
      exact h1 _ d (by omega)
    · intro i hi1 hi2
      show GetArray.pad (vs.length - 1) (length - 1) 1 arr1 i = _
      rw [GetArray.pad_spec, if_neg (by omega)]
      exact h2 i hi2
  · intro F T conv p value arr length vs d hv hne hsmall
    obtain ⟨arr1, hfill, h1, h2⟩ := GetArray.fill_spec conv p value arr vs hv hne
    have hpos : 0 < vs.length := List.length_pos.2 hne
    have hsize : toSizeT ((vs.length : Int) - 1 + 1) = vs.length := by
      unfold toSizeT
      omega
    have hres : BinaryParser.GetArray conv (some p) value arr length false
        = { arr := arr1, length := vs.length, internalError := false } := by
      simp only [BinaryParser.GetArray, hfill, GetArray.finish, Bool.false_eq_true, false_and,
        if_false, hsize]
    rw [hres]
    exact ⟨rfl, fun i hi => h1 i d hi, h2⟩

end RRF
